import Mathlib

/-!
The `ikba.Encoded` codec (src/ikba/encoded.go)

A shallow embedding of the 64-byte "inline keyboard button action" codec and
theorems about it.

Conventions of the embedding:

* `Encoded` is Go's `[64]byte`: a function from the 64 offsets to bytes.
* A Go `byte` variable is a `Nat` below 256; every `byte` addition of the source
  is written with an explicit `% 256`.
* Indexing the array with a run-time value (`d[startPos]`) is checked by Go and
  panics when the index is 64 or more: `Encoded.rd` / `Encoded.wr` return
  `Fault.indexOutOfRange` there.  Indexing with one of the position constants is
  checked at compile time and is total (`Encoded.byteAt` / `Encoded.set`).
* Signed integers are `Int`; conversions between integer types are explicit
  (`toSigned`, `toUnsigned`, `toByte`).
* The search loop of `argGet` has no static bound, so it carries a fuel argument;
  `Fault.outOfFuel` is returned when the fuel is used up.
-/

namespace Ikba

/-! ## Data model -/

/-- Abnormal outcomes of a call. -/
inductive Fault where
  /-- Go run-time panic "index out of range". -/
  | indexOutOfRange
  /-- The loop was still running when the fuel of the model was used up. -/
  | outOfFuel
  deriving DecidableEq, Repr

/-- One octet. -/
abbrev Byte := Fin 256

/-- The source's `type Encoded [64]byte`. -/
abbrev Encoded := Fin 64 → Byte

/-- The zero value of `Encoded` (a new Go instance). -/
def Encoded.zero : Encoded := fun _ => 0

/-- Reading `d[i]` at a constant position. -/
def Encoded.byteAt (d : Encoded) (i : Fin 64) : Nat := (d i).val

/-- Assignment `d[i] = b` at a constant position (the value is truncated to a byte). -/
def Encoded.set (d : Encoded) (i : Fin 64) (b : Nat) : Encoded :=
  Function.update d i ⟨b % 256, Nat.mod_lt b (by decide)⟩

/-- Reading `d[p]` at a run-time position: panics unless `p < 64`. -/
def Encoded.rd (d : Encoded) (p : Nat) : Except Fault Nat :=
  if h : p < 64 then .ok (d ⟨p, h⟩).val else .error .indexOutOfRange

/-- Assignment `d[p] = b` at a run-time position: panics unless `p < 64`. -/
def Encoded.wr (d : Encoded) (p : Nat) (b : Nat) : Except Fault Encoded :=
  if h : p < 64 then .ok (d.set ⟨p, h⟩ b) else .error .indexOutOfRange

/-! ## Integer conversions -/

/-- The value of the low `w` bits of `n` read as a two's-complement signed integer. -/
def toSigned (w : Nat) (n : Nat) : Int :=
  if n % 2 ^ w < 2 ^ (w - 1) then ((n % 2 ^ w : Nat) : Int)
  else ((n % 2 ^ w : Nat) : Int) - ((2 ^ w : Nat) : Int)

/-- The low `w` bits of the integer `x` as an unsigned number (Go conversion to `uintW`). -/
def toUnsigned (w : Nat) (x : Int) : Nat := (x % ((2 ^ w : Nat) : Int)).toNat

/-- Go conversion of an integer to `intW`. -/
def toIntW (w : Nat) (x : Int) : Int := toSigned w (toUnsigned w x)

/-- Go conversion `byte(x)`. -/
def toByte (x : Int) : Nat := toUnsigned 8 x

/-- Go's `v >> k` on a signed integer (arithmetic shift). -/
def sar (v : Int) (k : Nat) : Int := v >>> k

/-! ## Constants -/

def cPosViewID : Nat := 0
def cPosSessionID : Nat := 4
def cPosArgs : Nat := 8
def cPosArgsCount : Fin 64 := 8
def cPosArgsFree : Fin 64 := 9
def cPosArgsContent : Nat := 10
def cPosMax : Nat := 63
/-- The source's `^byte(0)`. -/
def cPosErr : Nat := 255
def cBadIndex : Int := -1

def cArgTypeInt8 : Nat := 10
def cArgTypeInt16 : Nat := 11
def cArgTypeInt32 : Nat := 12
def cArgTypeInt64 : Nat := 13
def cArgTypeUint8 : Nat := 14
def cArgTypeUint16 : Nat := 15
def cArgTypeUint32 : Nat := 16
def cArgTypeUint64 : Nat := 17
def cArgTypeFloat32 : Nat := 18
def cArgTypeFloat64 : Nat := 19
def cArgTypeString : Nat := 20

/-! ## Primitive packers -/

/-- Source: `ext1byte`. -/
def ext1byte (d : Encoded) (startPos : Nat) : Except Fault Int := do
  let b ← d.rd startPos
  pure (toSigned 8 b)

/-- Source: `ext2bytes`.  The accumulator is carried as its bit pattern. -/
def ext2bytes (d : Encoded) (startPos : Nat) : Except Fault Int := do
  let b0 ← d.rd ((startPos + 0) % 256)
  let b1 ← d.rd ((startPos + 1) % 256)
  pure (toSigned 16 ((b0 <<< 0) ||| (b1 <<< 8)))

/-- Source: `ext4bytes`. -/
def ext4bytes (d : Encoded) (startPos : Nat) : Except Fault Int := do
  let b0 ← d.rd ((startPos + 0) % 256)
  let b1 ← d.rd ((startPos + 1) % 256)
  let b2 ← d.rd ((startPos + 2) % 256)
  let b3 ← d.rd ((startPos + 3) % 256)
  pure (toSigned 32 ((b0 <<< 0) ||| (b1 <<< 8) ||| (b2 <<< 16) ||| (b3 <<< 24)))

/-- Source: `ext8bytes`. -/
def ext8bytes (d : Encoded) (startPos : Nat) : Except Fault Int := do
  let b0 ← d.rd ((startPos + 0) % 256)
  let b1 ← d.rd ((startPos + 1) % 256)
  let b2 ← d.rd ((startPos + 2) % 256)
  let b3 ← d.rd ((startPos + 3) % 256)
  let b4 ← d.rd ((startPos + 4) % 256)
  let b5 ← d.rd ((startPos + 5) % 256)
  let b6 ← d.rd ((startPos + 6) % 256)
  let b7 ← d.rd ((startPos + 7) % 256)
  pure (toSigned 64 ((b0 <<< 0) ||| (b1 <<< 8) ||| (b2 <<< 16) ||| (b3 <<< 24)
    ||| (b4 <<< 32) ||| (b5 <<< 40) ||| (b6 <<< 48) ||| (b7 <<< 56)))

/-- The loop of `extNbytes`: `k` iterations are left, `i` is the loop variable. -/
def extNbytesLoop (d : Encoded) (startPos : Nat) : Nat → Nat → Except Fault (List Byte)
  | 0, _ => pure []
  | k + 1, i => do
    let b ← d.rd ((startPos + i) % 256)
    let rest ← extNbytesLoop d startPos k (i + 1)
    pure (⟨b % 256, Nat.mod_lt b (by decide)⟩ :: rest)

/-- Source: `extNbytes`. -/
def extNbytes (d : Encoded) (startPos bytes : Nat) : Except Fault (List Byte) :=
  extNbytesLoop d startPos bytes 0

/-- Source: `put1byte`. -/
def put1byte (d : Encoded) (startPos : Nat) (v : Int) : Except Fault Encoded :=
  d.wr startPos (toByte v)

/-- Source: `put2bytes`. -/
def put2bytes (d : Encoded) (startPos : Nat) (v : Int) : Except Fault Encoded := do
  let d ← d.wr ((startPos + 0) % 256) (toByte (sar v 0))
  d.wr ((startPos + 1) % 256) (toByte (sar v 8))

/-- Source: `put4bytes`. -/
def put4bytes (d : Encoded) (startPos : Nat) (v : Int) : Except Fault Encoded := do
  let d ← d.wr ((startPos + 0) % 256) (toByte (sar v 0))
  let d ← d.wr ((startPos + 1) % 256) (toByte (sar v 8))
  let d ← d.wr ((startPos + 2) % 256) (toByte (sar v 16))
  d.wr ((startPos + 3) % 256) (toByte (sar v 24))

/-- Source: `put8bytes`. -/
def put8bytes (d : Encoded) (startPos : Nat) (v : Int) : Except Fault Encoded := do
  let d ← d.wr ((startPos + 0) % 256) (toByte (sar v 0))
  let d ← d.wr ((startPos + 1) % 256) (toByte (sar v 8))
  let d ← d.wr ((startPos + 2) % 256) (toByte (sar v 16))
  let d ← d.wr ((startPos + 3) % 256) (toByte (sar v 24))
  let d ← d.wr ((startPos + 4) % 256) (toByte (sar v 32))
  let d ← d.wr ((startPos + 5) % 256) (toByte (sar v 40))
  let d ← d.wr ((startPos + 6) % 256) (toByte (sar v 48))
  d.wr ((startPos + 7) % 256) (toByte (sar v 56))

/-- The loop of `putNbytes`: `k` iterations are left, `i` is the loop variable.
`v[i]` is a checked slice access. -/
def putNbytesLoop (v : List Byte) (startPos : Nat) : Nat → Nat → Encoded → Except Fault Encoded
  | 0, _, d => pure d
  | k + 1, i, d =>
    match v[i]? with
    | none => .error .indexOutOfRange
    | some b => do
      let d ← d.wr ((startPos + i) % 256) b.val
      putNbytesLoop v startPos k (i + 1) d

/-- Source: `putNbytes`; the loop bound is `byte(len(v))`. -/
def putNbytes (d : Encoded) (startPos : Nat) (v : List Byte) : Except Fault Encoded :=
  putNbytesLoop v startPos (v.length % 256) 0 d

/-! ## Identifiers -/

/-- The identifier types `view.IDEnc` and `chat.SessionID` are declared outside this
repository; `TestConsts` fixes their size to 4 bytes.  Their signedness is a parameter
of the embedding. -/
inductive Sign where
  | signed
  | unsigned
  deriving DecidableEq, Repr

/-- Go conversion of an integer to the 32-bit integer type of the given signedness. -/
def conv32 : Sign → Int → Int
  | .signed, x => toIntW 32 x
  | .unsigned, x => ((toUnsigned 32 x : Nat) : Int)

/-- The values of the 32-bit integer type of the given signedness. -/
def inRange32 : Sign → Int → Prop
  | .signed, x => -2147483648 ≤ x ∧ x < 2147483648
  | .unsigned, x => 0 ≤ x ∧ x < 4294967296

/-- Source: `PutViewID`. -/
def PutViewID (d : Encoded) (id : Int) : Except Fault Encoded :=
  put4bytes d cPosViewID (toIntW 32 id)

/-- Source: `GetViewID`. -/
def GetViewID (s : Sign) (d : Encoded) : Except Fault Int := do
  let v ← ext4bytes d cPosViewID
  pure (conv32 s v)

/-- Source: `PutSessionID`. -/
def PutSessionID (d : Encoded) (ssid : Int) : Except Fault Encoded :=
  put4bytes d cPosSessionID (toIntW 32 ssid)

/-- Source: `GetSessionID`. -/
def GetSessionID (s : Sign) (d : Encoded) : Except Fault Int := do
  let v ← ext4bytes d cPosSessionID
  pure (conv32 s v)

/-! ## Argument allocator -/

/-- Source: `argNeedForType`. -/
def argNeedForType (argType : Nat) : Nat :=
  if argType = cArgTypeInt8 ∨ argType = cArgTypeUint8 then 2
  else if argType = cArgTypeInt16 ∨ argType = cArgTypeUint16 then 3
  else if argType = cArgTypeInt32 ∨ argType = cArgTypeUint32 ∨ argType = cArgTypeFloat32 then 5
  else if argType = cArgTypeInt64 ∨ argType = cArgTypeUint64 ∨ argType = cArgTypeFloat64 then 9
  else cPosMax

/-- Source: `argHaveFreeBytes`; the sum is a `byte` sum. -/
def argHaveFreeBytes (d : Encoded) (numBytes : Nat) : Bool :=
  decide ((d.byteAt cPosArgsFree + numBytes) % 256 ≤ cPosMax)

/-- Source: `argReserveForType`.  Returns the buffer after the call and the result. -/
def argReserveForType (d : Encoded) (argType : Nat) : Except Fault (Encoded × Nat) :=
  let requiredBytes := argNeedForType argType
  if requiredBytes ≥ cPosMax then pure (d, cPosErr)
  else
    let startPos := d.byteAt cPosArgsFree
    let nextStartPos := (startPos + requiredBytes) % 256
    if nextStartPos > cPosMax then pure (d, cPosErr)
    else do
      let d ← d.wr startPos argType
      let d := d.set cPosArgsFree nextStartPos
      pure (d, (startPos + 1) % 256)

/-- Source: `ArgCount`. -/
def ArgCount (d : Encoded) : Int := ((d.byteAt cPosArgsCount : Nat) : Int)

/-- Source: `argCountIncPostfix`.  Returns the buffer after the call and the old value. -/
def argCountIncPostfix (d : Encoded) : Encoded × Int :=
  let oldValue : Int := ((d.byteAt cPosArgsCount : Nat) : Int)
  (d.set cPosArgsCount ((d.byteAt cPosArgsCount + 1) % 256), oldValue)

/-- Source: `init`. -/
def init (d : Encoded) : Encoded := d.set cPosArgsFree cPosArgsContent

/-! ## Argument scanner -/

/-- Source: `argNextFromPos`. -/
def argNextFromPos (d : Encoded) (pos : Nat) : Except Fault Nat := do
  let t ← d.rd pos
  if t = cArgTypeInt8 ∨ t = cArgTypeUint8 then pure ((pos + 2) % 256)
  else if t = cArgTypeInt16 ∨ t = cArgTypeUint16 then pure ((pos + 3) % 256)
  else if t = cArgTypeInt32 ∨ t = cArgTypeUint32 ∨ t = cArgTypeFloat32 then
    pure ((pos + 5) % 256)
  else if t = cArgTypeInt64 ∨ t = cArgTypeUint64 ∨ t = cArgTypeFloat64 then
    pure ((pos + 9) % 256)
  else if t = cArgTypeString then do
    let l ← d.rd ((pos + 1) % 256)
    pure ((pos + 2 + l) % 256)
  else pure cPosErr

/-- Go's `argIdx--` on the platform `int` (64 bits, two's complement). -/
def decInt64 (x : Int) : Int := toIntW 64 (x - 1)

/-- The first loop of `argGet` ("skip unnecessary arguments"): `n` iterations of
`startPos = d.argNextFromPos(startPos)`. -/
def argGetSkip (d : Encoded) : Nat → Nat → Except Fault Nat
  | 0, startPos => pure startPos
  | n + 1, startPos => do
    let p ← argNextFromPos d startPos
    argGetSkip d n p

/-- The second loop of `argGet` ("try to find required argument"). -/
def argGetSearch (d : Encoded) (argType nextFreeIndex : Nat) : Nat → Nat → Except Fault Nat
  | 0, _ => .error .outOfFuel
  | fuel + 1, startPos =>
    if startPos ≠ cPosErr ∧ startPos < nextFreeIndex then do
      let t ← d.rd startPos
      if t = argType then pure ((startPos + 1) % 256)
      else do
        let p ← argNextFromPos d startPos
        argGetSearch d argType nextFreeIndex fuel p
    else pure cPosErr

/-- Source: `argGet`.  The first loop `for argIdx--; argIdx > 0; argIdx--` runs
`argIdx - 1` times when that is positive and not at all otherwise. -/
def argGet (fuel : Nat) (d : Encoded) (argIdx : Int) (argType : Nat) : Except Fault Nat :=
  if ArgCount d ≤ argIdx then pure cPosErr
  else do
    let startPos ← argGetSkip d (decInt64 argIdx).toNat cPosArgsContent
    let nextFreeIndex := d.byteAt cPosArgsFree
    argGetSearch d argType nextFreeIndex fuel startPos

/-! ## Writers -/

/-- Source: `PutArgInt8`. -/
def PutArgInt8 (d : Encoded) (v : Int) : Except Fault (Encoded × Int) := do
  let (d, startPos) ← argReserveForType d cArgTypeInt8
  if startPos = cPosErr then pure (d, cBadIndex)
  else do
    let d ← put1byte d startPos v
    pure (argCountIncPostfix d)

/-- Source: `PutArgInt16`. -/
def PutArgInt16 (d : Encoded) (v : Int) : Except Fault (Encoded × Int) := do
  let (d, startPos) ← argReserveForType d cArgTypeInt16
  if startPos = cPosErr then pure (d, cBadIndex)
  else do
    let d ← put2bytes d startPos v
    pure (argCountIncPostfix d)

/-- Source: `PutArgInt32`. -/
def PutArgInt32 (d : Encoded) (v : Int) : Except Fault (Encoded × Int) := do
  let (d, startPos) ← argReserveForType d cArgTypeInt32
  if startPos = cPosErr then pure (d, cBadIndex)
  else do
    let d ← put4bytes d startPos v
    pure (argCountIncPostfix d)

/-- Source: `PutArgInt64`. -/
def PutArgInt64 (d : Encoded) (v : Int) : Except Fault (Encoded × Int) := do
  let (d, startPos) ← argReserveForType d cArgTypeInt64
  if startPos = cPosErr then pure (d, cBadIndex)
  else do
    let d ← put8bytes d startPos v
    pure (argCountIncPostfix d)

/-- Source: `PutArgInt` (`int32(v)` narrows). -/
def PutArgInt (d : Encoded) (v : Int) : Except Fault (Encoded × Int) :=
  PutArgInt32 d (toIntW 32 v)

/-- Source: `PutArgUint8` (`int8(v)` reinterprets). -/
def PutArgUint8 (d : Encoded) (v : Nat) : Except Fault (Encoded × Int) := do
  let (d, startPos) ← argReserveForType d cArgTypeUint8
  if startPos = cPosErr then pure (d, cBadIndex)
  else do
    let d ← put1byte d startPos (toSigned 8 v)
    pure (argCountIncPostfix d)

/-- Source: `PutArgUint16`. -/
def PutArgUint16 (d : Encoded) (v : Nat) : Except Fault (Encoded × Int) := do
  let (d, startPos) ← argReserveForType d cArgTypeUint16
  if startPos = cPosErr then pure (d, cBadIndex)
  else do
    let d ← put2bytes d startPos (toSigned 16 v)
    pure (argCountIncPostfix d)

/-- Source: `PutArgUint32`. -/
def PutArgUint32 (d : Encoded) (v : Nat) : Except Fault (Encoded × Int) := do
  let (d, startPos) ← argReserveForType d cArgTypeUint32
  if startPos = cPosErr then pure (d, cBadIndex)
  else do
    let d ← put4bytes d startPos (toSigned 32 v)
    pure (argCountIncPostfix d)

/-- Source: `PutArgUint64`. -/
def PutArgUint64 (d : Encoded) (v : Nat) : Except Fault (Encoded × Int) := do
  let (d, startPos) ← argReserveForType d cArgTypeUint64
  if startPos = cPosErr then pure (d, cBadIndex)
  else do
    let d ← put8bytes d startPos (toSigned 64 v)
    pure (argCountIncPostfix d)

/-- Source: `PutArgUint` (`uint32(v)` narrows). -/
def PutArgUint (d : Encoded) (v : Nat) : Except Fault (Encoded × Int) :=
  PutArgUint32 d (v % 2 ^ 32)

/-- Source: `PutArgFloat32`.  A float is carried as its bit pattern `bits`; the
pointer cast reads the pattern as an `int32`. -/
def PutArgFloat32 (d : Encoded) (bits : Nat) : Except Fault (Encoded × Int) := do
  let (d, startPos) ← argReserveForType d cArgTypeFloat32
  if startPos = cPosErr then pure (d, cBadIndex)
  else do
    let d ← put4bytes d startPos (toSigned 32 bits)
    pure (argCountIncPostfix d)

/-- Source: `PutArgFloat64`. -/
def PutArgFloat64 (d : Encoded) (bits : Nat) : Except Fault (Encoded × Int) := do
  let (d, startPos) ← argReserveForType d cArgTypeFloat64
  if startPos = cPosErr then pure (d, cBadIndex)
  else do
    let d ← put8bytes d startPos (toSigned 64 bits)
    pure (argCountIncPostfix d)

/-- Source: `PutArgString`.  A Go string is its list of bytes. -/
def PutArgString (d : Encoded) (v : List Byte) : Except Fault (Encoded × Int) :=
  let strlen := v.length % 256
  if !argHaveFreeBytes d ((2 + strlen) % 256) then pure (d, cBadIndex)
  else do
    let startPos := d.byteAt cPosArgsFree
    let d := d.set cPosArgsFree ((d.byteAt cPosArgsFree + (strlen + 2) % 256) % 256)
    let d ← d.wr ((startPos + 0) % 256) cArgTypeString
    let d ← d.wr ((startPos + 1) % 256) strlen
    let d ← putNbytes d ((startPos + 2) % 256) v
    pure (argCountIncPostfix d)

/-! ## Readers -/

/-- Source: `GetArgInt8`. -/
def GetArgInt8 (fuel : Nat) (d : Encoded) (startIdx : Int) : Except Fault (Int × Bool) := do
  let startPos ← argGet fuel d startIdx cArgTypeInt8
  if startPos = cPosErr then pure (0, false)
  else do
    let v ← ext1byte d startPos
    pure (v, true)

/-- Source: `GetArgInt16`. -/
def GetArgInt16 (fuel : Nat) (d : Encoded) (startIdx : Int) : Except Fault (Int × Bool) := do
  let startPos ← argGet fuel d startIdx cArgTypeInt16
  if startPos = cPosErr then pure (0, false)
  else do
    let v ← ext2bytes d startPos
    pure (v, true)

/-- Source: `GetArgInt32`. -/
def GetArgInt32 (fuel : Nat) (d : Encoded) (startIdx : Int) : Except Fault (Int × Bool) := do
  let startPos ← argGet fuel d startIdx cArgTypeInt32
  if startPos = cPosErr then pure (0, false)
  else do
    let v ← ext4bytes d startPos
    pure (v, true)

/-- Source: `GetArgInt64`. -/
def GetArgInt64 (fuel : Nat) (d : Encoded) (startIdx : Int) : Except Fault (Int × Bool) := do
  let startPos ← argGet fuel d startIdx cArgTypeInt64
  if startPos = cPosErr then pure (0, false)
  else do
    let v ← ext8bytes d startPos
    pure (v, true)

/-- Source: `GetArgInt` (`int(vv)` widens). -/
def GetArgInt (fuel : Nat) (d : Encoded) (startIdx : Int) : Except Fault (Int × Bool) := do
  let (vv, success) ← GetArgInt32 fuel d startIdx
  pure (vv, success)

/-- Source: `GetArgUint8`. -/
def GetArgUint8 (fuel : Nat) (d : Encoded) (startIdx : Int) : Except Fault (Nat × Bool) := do
  let startPos ← argGet fuel d startIdx cArgTypeUint8
  if startPos = cPosErr then pure (0, false)
  else do
    let v ← ext1byte d startPos
    pure (toUnsigned 8 v, true)

/-- Source: `GetArgUint16`. -/
def GetArgUint16 (fuel : Nat) (d : Encoded) (startIdx : Int) : Except Fault (Nat × Bool) := do
  let startPos ← argGet fuel d startIdx cArgTypeUint16
  if startPos = cPosErr then pure (0, false)
  else do
    let v ← ext2bytes d startPos
    pure (toUnsigned 16 v, true)

/-- Source: `GetArgUint32`. -/
def GetArgUint32 (fuel : Nat) (d : Encoded) (startIdx : Int) : Except Fault (Nat × Bool) := do
  let startPos ← argGet fuel d startIdx cArgTypeUint32
  if startPos = cPosErr then pure (0, false)
  else do
    let v ← ext4bytes d startPos
    pure (toUnsigned 32 v, true)

/-- Source: `GetArgUint64`. -/
def GetArgUint64 (fuel : Nat) (d : Encoded) (startIdx : Int) : Except Fault (Nat × Bool) := do
  let startPos ← argGet fuel d startIdx cArgTypeUint64
  if startPos = cPosErr then pure (0, false)
  else do
    let v ← ext8bytes d startPos
    pure (toUnsigned 64 v, true)

/-- Source: `GetArgUint` (`uint(vv)` widens). -/
def GetArgUint (fuel : Nat) (d : Encoded) (startIdx : Int) : Except Fault (Nat × Bool) := do
  let (vv, success) ← GetArgUint32 fuel d startIdx
  pure (vv, success)

/-- Source: `GetArgFloat32`; the result is the bit pattern of the float. -/
def GetArgFloat32 (fuel : Nat) (d : Encoded) (startIdx : Int) : Except Fault (Nat × Bool) := do
  let startPos ← argGet fuel d startIdx cArgTypeFloat32
  if startPos = cPosErr then pure (0, false)
  else do
    let vv ← ext4bytes d startPos
    pure (toUnsigned 32 vv, true)

/-- Source: `GetArgFloat64`; the result is the bit pattern of the float. -/
def GetArgFloat64 (fuel : Nat) (d : Encoded) (startIdx : Int) : Except Fault (Nat × Bool) := do
  let startPos ← argGet fuel d startIdx cArgTypeFloat64
  if startPos = cPosErr then pure (0, false)
  else do
    let vv ← ext8bytes d startPos
    pure (toUnsigned 64 vv, true)

/-- Source: `GetArgString`: `string(d.extNbytes(startPos+2, startPos+1))`, where
`startPos` is what `argGet` returned. -/
def GetArgString (fuel : Nat) (d : Encoded) (startIdx : Int) :
    Except Fault (List Byte × Bool) := do
  let startPos ← argGet fuel d startIdx cArgTypeString
  if startPos = cPosErr then pure ([], false)
  else do
    let v ← extNbytes d ((startPos + 2) % 256) ((startPos + 1) % 256)
    pure (v, true)

/-! ## Sequences of writer calls -/

/-- One call of a writer of the `PutArg` family, with its argument. -/
inductive PutOp where
  | int (v : Int)
  | int8 (v : Int)
  | int16 (v : Int)
  | int32 (v : Int)
  | int64 (v : Int)
  | uint (v : Nat)
  | uint8 (v : Nat)
  | uint16 (v : Nat)
  | uint32 (v : Nat)
  | uint64 (v : Nat)
  | float32 (bits : Nat)
  | float64 (bits : Nat)
  | string (v : List Byte)
  deriving DecidableEq, Repr

/-- The argument of the call is a value of the Go parameter type. -/
def PutOp.valid : PutOp → Prop
  | .int v => -9223372036854775808 ≤ v ∧ v < 9223372036854775808
  | .int8 v => -128 ≤ v ∧ v < 128
  | .int16 v => -32768 ≤ v ∧ v < 32768
  | .int32 v => -2147483648 ≤ v ∧ v < 2147483648
  | .int64 v => -9223372036854775808 ≤ v ∧ v < 9223372036854775808
  | .uint v => v < 18446744073709551616
  | .uint8 v => v < 256
  | .uint16 v => v < 65536
  | .uint32 v => v < 4294967296
  | .uint64 v => v < 18446744073709551616
  | .float32 bits => bits < 4294967296
  | .float64 bits => bits < 18446744073709551616
  | .string _ => True

instance (op : PutOp) : Decidable op.valid := by
  cases op <;> unfold PutOp.valid <;> infer_instance

/-- The type tag the writer stores. -/
def PutOp.tag : PutOp → Nat
  | .int _ => cArgTypeInt32
  | .int8 _ => cArgTypeInt8
  | .int16 _ => cArgTypeInt16
  | .int32 _ => cArgTypeInt32
  | .int64 _ => cArgTypeInt64
  | .uint _ => cArgTypeUint32
  | .uint8 _ => cArgTypeUint8
  | .uint16 _ => cArgTypeUint16
  | .uint32 _ => cArgTypeUint32
  | .uint64 _ => cArgTypeUint64
  | .float32 _ => cArgTypeFloat32
  | .float64 _ => cArgTypeFloat64
  | .string _ => cArgTypeString

/-- The writers of integers and floats (all but `PutArgString`). -/
def PutOp.fixedWidth : PutOp → Bool
  | .string _ => false
  | _ => true

/-- The call `d.PutArg<T>(v)`: the buffer after the call and the returned index. -/
def PutArg (d : Encoded) : PutOp → Except Fault (Encoded × Int)
  | .int v => PutArgInt d v
  | .int8 v => PutArgInt8 d v
  | .int16 v => PutArgInt16 d v
  | .int32 v => PutArgInt32 d v
  | .int64 v => PutArgInt64 d v
  | .uint v => PutArgUint d v
  | .uint8 v => PutArgUint8 d v
  | .uint16 v => PutArgUint16 d v
  | .uint32 v => PutArgUint32 d v
  | .uint64 v => PutArgUint64 d v
  | .float32 bits => PutArgFloat32 d bits
  | .float64 bits => PutArgFloat64 d bits
  | .string v => PutArgString d v

/-- A sequence of writer calls on one buffer: the final buffer and the returned
indices, in call order.  A panic of one call ends the run. -/
def runPuts (d : Encoded) : List PutOp → Except Fault (Encoded × List Int)
  | [] => pure (d, [])
  | op :: ops => do
    let (d, idx) ← PutArg d op
    let (d, idxs) ← runPuts d ops
    pure (d, idx :: idxs)

/-- Buffers produced by the codec: `init` on a new (all-zero) instance, followed by
writer calls that returned an index other than `cBadIndex`. -/
inductive Reachable : Encoded → Prop where
  | init : Reachable (init Encoded.zero)
  | put (d d' : Encoded) (op : PutOp) (idx : Int) :
      Reachable d → op.valid → PutArg d op = .ok (d', idx) → idx ≠ cBadIndex → Reachable d'

/-- The 64 bytes of a buffer as a list. -/
def Encoded.toList (d : Encoded) : List Nat := List.ofFn fun i => d.byteAt i

/-- Free offset (byte 9) of a buffer. -/
def freeOffset (d : Encoded) : Nat := d.byteAt cPosArgsFree

instance instDecEqExcept {ε α : Type} [DecidableEq ε] [DecidableEq α] :
    DecidableEq (Except ε α)
  | .ok a, .ok b =>
    if h : a = b then isTrue (by rw [h]) else isFalse (fun h2 => h (Except.ok.inj h2))
  | .error a, .error b =>
    if h : a = b then isTrue (by rw [h]) else isFalse (fun h2 => h (Except.error.inj h2))
  | .ok _, .error _ => isFalse (fun h => by cases h)
  | .error _, .ok _ => isFalse (fun h => by cases h)

/-! ## The family of readers -/

/-- The type parameter of a reader `GetArg<T>`. -/
inductive ArgTy where
  | int
  | int8
  | int16
  | int32
  | int64
  | uint
  | uint8
  | uint16
  | uint32
  | uint64
  | float32
  | float64
  | string
  deriving DecidableEq, Repr

/-- A value returned by a reader: a signed integer, an unsigned integer, the bit pattern
of a float, or a string. -/
inductive ArgVal where
  | int (v : Int)
  | uint (v : Nat)
  | float (bits : Nat)
  | str (v : List Byte)
  deriving DecidableEq, Repr

/-- The type tag a reader searches for. -/
def ArgTy.tag : ArgTy → Nat
  | .int => cArgTypeInt32
  | .int8 => cArgTypeInt8
  | .int16 => cArgTypeInt16
  | .int32 => cArgTypeInt32
  | .int64 => cArgTypeInt64
  | .uint => cArgTypeUint32
  | .uint8 => cArgTypeUint8
  | .uint16 => cArgTypeUint16
  | .uint32 => cArgTypeUint32
  | .uint64 => cArgTypeUint64
  | .float32 => cArgTypeFloat32
  | .float64 => cArgTypeFloat64
  | .string => cArgTypeString

/-- The zero value a reader returns together with `false`. -/
def ArgTy.zeroVal : ArgTy → ArgVal
  | .int => .int 0
  | .int8 => .int 0
  | .int16 => .int 0
  | .int32 => .int 0
  | .int64 => .int 0
  | .uint => .uint 0
  | .uint8 => .uint 0
  | .uint16 => .uint 0
  | .uint32 => .uint 0
  | .uint64 => .uint 0
  | .float32 => .float 0
  | .float64 => .float 0
  | .string => .str []

/-- The call `d.GetArg<T>(startIdx)`. -/
def GetArg (ty : ArgTy) (fuel : Nat) (d : Encoded) (startIdx : Int) :
    Except Fault (ArgVal × Bool) :=
  match ty with
  | .int => (GetArgInt fuel d startIdx).map fun r => (.int r.1, r.2)
  | .int8 => (GetArgInt8 fuel d startIdx).map fun r => (.int r.1, r.2)
  | .int16 => (GetArgInt16 fuel d startIdx).map fun r => (.int r.1, r.2)
  | .int32 => (GetArgInt32 fuel d startIdx).map fun r => (.int r.1, r.2)
  | .int64 => (GetArgInt64 fuel d startIdx).map fun r => (.int r.1, r.2)
  | .uint => (GetArgUint fuel d startIdx).map fun r => (.uint r.1, r.2)
  | .uint8 => (GetArgUint8 fuel d startIdx).map fun r => (.uint r.1, r.2)
  | .uint16 => (GetArgUint16 fuel d startIdx).map fun r => (.uint r.1, r.2)
  | .uint32 => (GetArgUint32 fuel d startIdx).map fun r => (.uint r.1, r.2)
  | .uint64 => (GetArgUint64 fuel d startIdx).map fun r => (.uint r.1, r.2)
  | .float32 => (GetArgFloat32 fuel d startIdx).map fun r => (.float r.1, r.2)
  | .float64 => (GetArgFloat64 fuel d startIdx).map fun r => (.float r.1, r.2)
  | .string => (GetArgString fuel d startIdx).map fun r => (.str r.1, r.2)

/-! ## Diagnostic dump -/

/-- The content of the `Value interface{}` field of a dump node: the Go dynamic type
together with the value (floats as bit patterns). -/
inductive DumpValue where
  | nil
  | viewID (v : Int)
  | sessionID (v : Int)
  | int (v : Int)
  | int8 (v : Int)
  | int16 (v : Int)
  | int32 (v : Int)
  | int64 (v : Int)
  | uint8 (v : Nat)
  | uint16 (v : Nat)
  | uint32 (v : Nat)
  | uint64 (v : Nat)
  | float32 (bits : Nat)
  | float64 (bits : Nat)
  | string (v : List Byte)
  deriving DecidableEq, Repr

/-- The source's `EncodedDumpNode` (its field `Type` is `TypeName` here). -/
structure EncodedDumpNode where
  TypeName : String
  Pos : Nat
  PosType : Nat
  PosContent : Nat
  TypeHeader : Nat
  Value : DumpValue
  deriving DecidableEq, Repr

/-- Source: `argType2S`. -/
def argType2S (argType : Nat) : String :=
  if argType = cArgTypeInt8 then "int8"
  else if argType = cArgTypeInt16 then "int16"
  else if argType = cArgTypeInt32 then "int32"
  else if argType = cArgTypeInt64 then "int64"
  else if argType = cArgTypeUint8 then "uint8"
  else if argType = cArgTypeUint16 then "uint16"
  else if argType = cArgTypeUint32 then "uint32"
  else if argType = cArgTypeUint64 then "uint64"
  else if argType = cArgTypeFloat32 then "float32"
  else if argType = cArgTypeFloat64 then "float64"
  else if argType = cArgTypeString then "string"
  else "UNKNOWN"

/-- The second `switch d[pos]` of the loop body of `dump` ("save values"). -/
def dumpValueAt (d : Encoded) (pos : Nat) : Except Fault DumpValue := do
  let t ← d.rd pos
  if t = cArgTypeInt8 then do
    let v ← ext1byte d ((pos + 1) % 256)
    pure (.int8 v)
  else if t = cArgTypeInt16 then do
    let v ← ext2bytes d ((pos + 1) % 256)
    pure (.int16 v)
  else if t = cArgTypeInt32 then do
    let v ← ext4bytes d ((pos + 1) % 256)
    pure (.int32 v)
  else if t = cArgTypeInt64 then do
    let v ← ext8bytes d ((pos + 1) % 256)
    pure (.int64 v)
  else if t = cArgTypeUint8 then do
    let v ← ext1byte d ((pos + 1) % 256)
    pure (.uint8 (toUnsigned 8 v))
  else if t = cArgTypeUint16 then do
    let v ← ext2bytes d ((pos + 1) % 256)
    pure (.uint16 (toUnsigned 16 v))
  else if t = cArgTypeUint32 then do
    let v ← ext4bytes d ((pos + 1) % 256)
    pure (.uint32 (toUnsigned 32 v))
  else if t = cArgTypeUint64 then do
    let v ← ext8bytes d ((pos + 1) % 256)
    pure (.uint64 (toUnsigned 64 v))
  else if t = cArgTypeFloat32 then do
    let v ← ext4bytes d ((pos + 1) % 256)
    pure (.float32 (toUnsigned 32 v))
  else if t = cArgTypeFloat64 then do
    let v ← ext8bytes d ((pos + 1) % 256)
    pure (.float64 (toUnsigned 64 v))
  else if t = cArgTypeString then do
    let v ← extNbytes d ((pos + 2) % 256) ((pos + 1) % 256)
    pure (.string v)
  else pure .nil

/-- The body of the loop of `dump`: the node stored in `dumpRes[4+i]`, built from the
current value of `pos`. -/
def dumpArgNode (d : Encoded) (pos : Nat) : Except Fault EncodedDumpNode := do
  let t ← d.rd pos
  let posContent := if t = cArgTypeString then (pos + 2) % 256 else (pos + 1) % 256
  let value ← dumpValueAt d pos
  pure {
    TypeName := "Argument (" ++ argType2S t ++ ")"
    Pos := pos
    PosType := pos
    PosContent := posContent
    TypeHeader := t
    Value := value }

/-- The loop `for i := 0; i < argCount; i++` of `dump`, with `n` iterations left.  The
loop body does not assign to `pos`, so every iteration gets the same `pos`. -/
def dumpLoop (d : Encoded) (pos : Nat) : Nat → Except Fault (List EncodedDumpNode)
  | 0 => pure []
  | n + 1 => do
    let node ← dumpArgNode d pos
    let rest ← dumpLoop d pos n
    pure (node :: rest)

/-- Source: `dump`.  `sv` and `ss` are the signedness of `view.IDEnc` and of
`chat.SessionID`. -/
def dump (sv ss : Sign) (d : Encoded) : Except Fault (List EncodedDumpNode) := do
  let argCount := ArgCount d
  let viewID ← GetViewID sv d
  let sessionID ← GetSessionID ss d
  let args ← dumpLoop d cPosArgsContent argCount.toNat
  pure ([
    { TypeName := "Encoded View ID", Pos := cPosViewID, PosType := 0, PosContent := 0,
      TypeHeader := 0, Value := .viewID viewID },
    { TypeName := "Session ID (SSID)", Pos := cPosSessionID, PosType := 0, PosContent := 0,
      TypeHeader := 0, Value := .sessionID sessionID },
    { TypeName := "Arguments counter", Pos := cPosArgsCount.val, PosType := 0, PosContent := 0,
      TypeHeader := 0, Value := .int argCount },
    { TypeName := "Arguments next free position", Pos := cPosArgsFree.val, PosType := 0,
      PosContent := 0, TypeHeader := 0, Value := .uint8 (d.byteAt cPosArgsFree) }] ++ args)

/-! ## The string writer with the buffer it leaves behind -/

/-- The loop of `putNbytes` as `putNbytesLoop`, returning also the buffer as it is when
the loop stops: at the end of the loop or at the panic. -/
def putNbytesLoopSt (v : List Byte) (startPos : Nat) :
    Nat → Nat → Encoded → Encoded × Except Fault Unit
  | 0, _, d => (d, .ok ())
  | k + 1, i, d =>
    match v[i]? with
    | none => (d, .error .indexOutOfRange)
    | some b =>
      match d.wr ((startPos + i) % 256) b.val with
      | .error e => (d, .error e)
      | .ok d1 => putNbytesLoopSt v startPos k (i + 1) d1

/-- Source: `PutArgString`, as `PutArgString` above but returning the buffer in every
outcome: the array is modified in place, so the bytes written before a panic stay
written. -/
def PutArgStringSt (d : Encoded) (v : List Byte) : Encoded × Except Fault Int :=
  let strlen := v.length % 256
  if !argHaveFreeBytes d ((2 + strlen) % 256) then (d, .ok cBadIndex)
  else
    let startPos := d.byteAt cPosArgsFree
    let d1 := d.set cPosArgsFree ((d.byteAt cPosArgsFree + (strlen + 2) % 256) % 256)
    match d1.wr ((startPos + 0) % 256) cArgTypeString with
    | .error e => (d1, .error e)
    | .ok d2 =>
      match d2.wr ((startPos + 1) % 256) strlen with
      | .error e => (d2, .error e)
      | .ok d3 =>
        match putNbytesLoopSt v ((startPos + 2) % 256) strlen 0 d3 with
        | (d4, .error e) => (d4, .error e)
        | (d4, .ok _) => ((argCountIncPostfix d4).1, .ok (argCountIncPostfix d4).2)

/-- Forgetting the buffer of a panicked call. -/
def dropPanicState {α : Type} (r : Encoded × Except Fault α) : Except Fault (Encoded × α) :=
  match r with
  | (d, .ok a) => .ok (d, a)
  | (_, .error e) => .error e

/-! ## Sequences of calls of all writers -/

/-- One call of a writer: `PutViewID`, `PutSessionID` or a writer of the `PutArg`
family. -/
inductive Call where
  | viewID (id : Int)
  | sessionID (ssid : Int)
  | arg (op : PutOp)
  deriving DecidableEq, Repr

/-- A sequence of writer calls on one buffer: the final buffer when every call returns
(with an index or with `cBadIndex`).  A panic of one call ends the run. -/
def runCalls (d : Encoded) : List Call → Except Fault Encoded
  | [] => pure d
  | .viewID id :: cs => do
    let d ← PutViewID d id
    runCalls d cs
  | .sessionID ssid :: cs => do
    let d ← PutSessionID d ssid
    runCalls d cs
  | .arg op :: cs => do
    let (d, _) ← PutArg d op
    runCalls d cs

/-! ## Auxiliary definitions used in the proofs -/

/-- The common shape of the ten fixed-width writers: reserve, store the payload
with `put`, count. -/
def putFixed (d : Encoded) (tag : Nat) (put : Encoded → Nat → Except Fault Encoded) :
    Except Fault (Encoded × Int) := do
  let (d, startPos) ← argReserveForType d tag
  if startPos = cPosErr then pure (d, cBadIndex)
  else do
    let d ← put d startPos
    pure (argCountIncPostfix d)

/-- The packer call a writer makes for its payload. -/
def PutOp.payload : PutOp → Encoded → Nat → Except Fault Encoded
  | .int v => fun d p => put4bytes d p (toIntW 32 v)
  | .int8 v => fun d p => put1byte d p v
  | .int16 v => fun d p => put2bytes d p v
  | .int32 v => fun d p => put4bytes d p v
  | .int64 v => fun d p => put8bytes d p v
  | .uint v => fun d p => put4bytes d p (toSigned 32 (v % 2 ^ 32))
  | .uint8 v => fun d p => put1byte d p (toSigned 8 v)
  | .uint16 v => fun d p => put2bytes d p (toSigned 16 v)
  | .uint32 v => fun d p => put4bytes d p (toSigned 32 v)
  | .uint64 v => fun d p => put8bytes d p (toSigned 64 v)
  | .float32 bits => fun d p => put4bytes d p (toSigned 32 bits)
  | .float64 bits => fun d p => put8bytes d p (toSigned 64 bits)
  | .string v => fun d p => putNbytes d p v

/-- Number of indices other than `cBadIndex` in a list of returned indices. -/
def countSuccess (idxs : List Int) : Nat := (idxs.filter fun i => decide (i ≠ cBadIndex)).length

/-- The buffer a writer call or a run of writer calls returned (the zero buffer when
it panicked). -/
def bufOf {α : Type} (r : Except Fault (Encoded × α)) : Encoded :=
  match r with
  | .ok (d, _) => d
  | .error _ => Encoded.zero

/-- The invariant of the header bytes behind `ArgCount`: `k` arguments are counted and
each of them took at least two bytes of the argument region. -/
def CountInv (d : Encoded) (k : Nat) : Prop :=
  d.byteAt cPosArgsCount = k ∧ 10 + 2 * k ≤ freeOffset d ∧ freeOffset d ≤ 63

/-- The value a writer stores, as the unsigned number its payload bytes encode. -/
def PutOp.pattern : PutOp → Nat
  | .int v => toUnsigned 32 v
  | .int8 v => toUnsigned 8 v
  | .int16 v => toUnsigned 16 v
  | .int32 v => toUnsigned 32 v
  | .int64 v => toUnsigned 64 v
  | .uint v => v % 2 ^ 32
  | .uint8 v => v % 2 ^ 8
  | .uint16 v => v % 2 ^ 16
  | .uint32 v => v % 2 ^ 32
  | .uint64 v => v % 2 ^ 64
  | .float32 bits => bits % 2 ^ 32
  | .float64 bits => bits % 2 ^ 64
  | .string _ => 0

/-- The reader that matches a writer. -/
def PutOp.ty : PutOp → ArgTy
  | .int _ => .int
  | .int8 _ => .int8
  | .int16 _ => .int16
  | .int32 _ => .int32
  | .int64 _ => .int64
  | .uint _ => .uint
  | .uint8 _ => .uint8
  | .uint16 _ => .uint16
  | .uint32 _ => .uint32
  | .uint64 _ => .uint64
  | .float32 _ => .float32
  | .float64 _ => .float64
  | .string _ => .string

/-- The argument of a writer call as a reader value. -/
def PutOp.value : PutOp → ArgVal
  | .int v => .int v
  | .int8 v => .int v
  | .int16 v => .int v
  | .int32 v => .int v
  | .int64 v => .int v
  | .uint v => .uint v
  | .uint8 v => .uint v
  | .uint16 v => .uint v
  | .uint32 v => .uint v
  | .uint64 v => .uint v
  | .float32 bits => .float bits
  | .float64 bits => .float bits
  | .string v => .str v

/-- The argument of a writer call after the conversions the writer and the matching
reader apply to it (for a value of the parameter type of a fixed-width writer other
than `PutArgInt` and `PutArgUint` this is the value itself). -/
def PutOp.readBack : PutOp → ArgVal
  | .int v => .int (toIntW 32 v)
  | .int8 v => .int (toIntW 8 v)
  | .int16 v => .int (toIntW 16 v)
  | .int32 v => .int (toIntW 32 v)
  | .int64 v => .int (toIntW 64 v)
  | .uint v => .uint (v % 2 ^ 32)
  | .uint8 v => .uint (v % 2 ^ 8)
  | .uint16 v => .uint (v % 2 ^ 16)
  | .uint32 v => .uint (v % 2 ^ 32)
  | .uint64 v => .uint (v % 2 ^ 64)
  | .float32 bits => .float (bits % 2 ^ 32)
  | .float64 bits => .float (bits % 2 ^ 64)
  | .string v => .str v

/-- Arguments with the tags `tags` are laid out one after the other from offset `p`
to offset `q`: each position holds its tag and `argNextFromPos` leads from it to the
next position, at least two bytes further. -/
def ArgChain (d : Encoded) : Nat → List Nat → Nat → Prop
  | p, [], q => p = q
  | p, t :: ts, q =>
    d.rd p = .ok t ∧ ∃ p', argNextFromPos d p = .ok p' ∧ p + 2 ≤ p' ∧ ArgChain d p' ts q

/-- The buffer holds `tags.length` counted arguments with the tags `tags`, laid out
from offset 10 to the free offset, which is at most 63. -/
def Layout (d : Encoded) (tags : List Nat) : Prop :=
  d.byteAt cPosArgsCount = tags.length ∧ 10 ≤ freeOffset d ∧ freeOffset d ≤ 63
    ∧ ArgChain d 10 tags (freeOffset d)

/-- The writers of the ten types of declared width: all fixed-width writers but the
wrappers `PutArgInt` and `PutArgUint`. -/
def PutOp.sized : PutOp → Bool
  | .int _ => false
  | .uint _ => false
  | .string _ => false
  | _ => true

/-- A buffer no codec call produces: one counted argument, free offset 12, and at
offset 10 a string tag followed by the length byte 254. -/
def stuckBuffer : Encoded :=
  (((Encoded.zero.set cPosArgsCount 1).set cPosArgsFree 12).set 10 cArgTypeString).set 11 254

/-- The buffer a run of calls returned (the zero buffer when it panicked). -/
def endOf (r : Except Fault Encoded) : Encoded :=
  match r with
  | .ok d => d
  | .error _ => Encoded.zero

/-- The total width (tag byte and payload) that the size table of the specification
assigns to each writer: 2 for int8/uint8, 3 for int16/uint16, 5 for int32/uint32/float32
(and the int/uint wrappers, which store an int32/uint32), 9 for int64/uint64/float64.
The string writer has no fixed width. -/
def PutOp.specWidth : PutOp → Nat
  | .int _ => 5
  | .int8 _ => 2
  | .int16 _ => 3
  | .int32 _ => 5
  | .int64 _ => 9
  | .uint _ => 5
  | .uint8 _ => 2
  | .uint16 _ => 3
  | .uint32 _ => 5
  | .uint64 _ => 9
  | .float32 _ => 5
  | .float64 _ => 9
  | .string _ => 0

/-! ## Basic facts about the buffer -/

theorem byteAt_lt (d : Encoded) (i : Fin 64) : d.byteAt i < 256 := (d i).isLt

theorem byteAt_set (d : Encoded) (i j : Fin 64) (b : Nat) :
    (d.set i b).byteAt j = if j = i then b % 256 else d.byteAt j := by
  unfold Encoded.set Encoded.byteAt
  by_cases h : j = i
  · subst h; simp
  · simp [Function.update_noteq h, h]

theorem set_apply_ne (d : Encoded) (i j : Fin 64) (b : Nat) (h : j ≠ i) :
    (d.set i b) j = d j := by
  unfold Encoded.set
  exact Function.update_noteq h _ _

theorem ext_byteAt (d e : Encoded) (h : ∀ i, d.byteAt i = e.byteAt i) : d = e := by
  funext i
  exact Fin.ext (h i)

theorem rd_of_lt (d : Encoded) (p : Nat) (h : p < 64) : d.rd p = .ok (d.byteAt ⟨p, h⟩) := by
  unfold Encoded.rd Encoded.byteAt
  simp [h]

theorem rd_of_ge (d : Encoded) (p : Nat) (h : 64 ≤ p) : d.rd p = .error .indexOutOfRange := by
  unfold Encoded.rd
  simp [Nat.not_lt.mpr h]

theorem wr_of_lt (d : Encoded) (p b : Nat) (h : p < 64) : d.wr p b = .ok (d.set ⟨p, h⟩ b) := by
  unfold Encoded.wr
  simp [h]

theorem wr_of_ge (d : Encoded) (p b : Nat) (h : 64 ≤ p) :
    d.wr p b = .error .indexOutOfRange := by
  unfold Encoded.wr
  simp [Nat.not_lt.mpr h]

theorem wr_ok_inv (d d' : Encoded) (p b : Nat) (h : d.wr p b = .ok d') :
    ∃ hp : p < 64, d' = d.set ⟨p, hp⟩ b := by
  by_cases hp : p < 64
  · rw [wr_of_lt d p b hp] at h
    exact ⟨hp, (Except.ok.inj h).symm⟩
  · rw [wr_of_ge d p b (Nat.le_of_not_lt hp)] at h
    cases h

/-! ## Integer conversions -/

theorem toUnsigned_lt (w : Nat) (x : Int) : toUnsigned w x < 2 ^ w := by
  unfold toUnsigned
  have hpos : (0 : Int) < ((2 ^ w : Nat) : Int) := by positivity
  have h1 := Int.emod_lt_of_pos x hpos
  have h0 := Int.emod_nonneg x (ne_of_gt hpos)
  omega

theorem toByte_lt (x : Int) : toByte x < 256 := toUnsigned_lt 8 x

theorem or_shift_eq (a b k : Nat) (h : a < 2 ^ k) : a ||| (b <<< k) = a + b * 2 ^ k := by
  rw [Nat.lor_comm, Nat.shiftLeft_eq, Nat.mul_comm, ← Nat.mul_add_lt_is_or h, Nat.add_comm,
    Nat.mul_comm]

theorem toByte_shift (v : Int) (k : Nat) :
    toByte (sar v k) = (v / ((2 ^ k : Nat) : Int) % 256).toNat := by
  unfold toByte toUnsigned sar
  rw [Int.shiftRight_eq_div_pow]
  norm_num

theorem le_bytes2 (v : Int) :
    (toByte (sar v 0) <<< 0) ||| (toByte (sar v 8) <<< 8) = toUnsigned 16 v := by
  have h0 := toByte_lt (sar v 0)
  have h1 := toByte_lt (sar v 8)
  rw [Nat.shiftLeft_zero, or_shift_eq _ _ 8 (by omega)]
  simp only [toByte_shift] at *
  unfold toUnsigned
  norm_num at *
  omega

theorem le_bytes4 (v : Int) :
    (toByte (sar v 0) <<< 0) ||| (toByte (sar v 8) <<< 8) ||| (toByte (sar v 16) <<< 16)
      ||| (toByte (sar v 24) <<< 24) = toUnsigned 32 v := by
  have h0 := toByte_lt (sar v 0)
  have h1 := toByte_lt (sar v 8)
  have h2 := toByte_lt (sar v 16)
  have h3 := toByte_lt (sar v 24)
  rw [Nat.shiftLeft_zero, or_shift_eq _ _ 8 (by omega), or_shift_eq _ _ 16 (by omega),
    or_shift_eq _ _ 24 (by omega)]
  simp only [toByte_shift] at *
  unfold toUnsigned
  norm_num at *
  omega

theorem le_bytes8 (v : Int) :
    (toByte (sar v 0) <<< 0) ||| (toByte (sar v 8) <<< 8) ||| (toByte (sar v 16) <<< 16)
      ||| (toByte (sar v 24) <<< 24) ||| (toByte (sar v 32) <<< 32)
      ||| (toByte (sar v 40) <<< 40) ||| (toByte (sar v 48) <<< 48)
      ||| (toByte (sar v 56) <<< 56) = toUnsigned 64 v := by
  have h0 := toByte_lt (sar v 0)
  have h1 := toByte_lt (sar v 8)
  have h2 := toByte_lt (sar v 16)
  have h3 := toByte_lt (sar v 24)
  have h4 := toByte_lt (sar v 32)
  have h5 := toByte_lt (sar v 40)
  have h6 := toByte_lt (sar v 48)
  have h7 := toByte_lt (sar v 56)
  rw [Nat.shiftLeft_zero, or_shift_eq _ _ 8 (by omega), or_shift_eq _ _ 16 (by omega),
    or_shift_eq _ _ 24 (by omega), or_shift_eq _ _ 32 (by omega),
    or_shift_eq _ _ 40 (by omega), or_shift_eq _ _ 48 (by omega),
    or_shift_eq _ _ 56 (by omega)]
  have hu := toUnsigned_lt 64 v
  have e0 : toByte (sar v 0) = toUnsigned 64 v / 2 ^ 0 % 256 := by
    rw [toByte_shift]; unfold toUnsigned; norm_num; omega
  have e1 : toByte (sar v 8) = toUnsigned 64 v / 2 ^ 8 % 256 := by
    rw [toByte_shift]; unfold toUnsigned; norm_num; omega
  have e2 : toByte (sar v 16) = toUnsigned 64 v / 2 ^ 16 % 256 := by
    rw [toByte_shift]; unfold toUnsigned; norm_num; omega
  have e3 : toByte (sar v 24) = toUnsigned 64 v / 2 ^ 24 % 256 := by
    rw [toByte_shift]; unfold toUnsigned; norm_num; omega
  have e4 : toByte (sar v 32) = toUnsigned 64 v / 2 ^ 32 % 256 := by
    rw [toByte_shift]; unfold toUnsigned; norm_num; omega
  have e5 : toByte (sar v 40) = toUnsigned 64 v / 2 ^ 40 % 256 := by
    rw [toByte_shift]; unfold toUnsigned; norm_num; omega
  have e6 : toByte (sar v 48) = toUnsigned 64 v / 2 ^ 48 % 256 := by
    rw [toByte_shift]; unfold toUnsigned; norm_num; omega
  have e7 : toByte (sar v 56) = toUnsigned 64 v / 2 ^ 56 % 256 := by
    rw [toByte_shift]; unfold toUnsigned; norm_num; omega
  rw [e0, e1, e2, e3, e4, e5, e6, e7]
  generalize toUnsigned 64 v = u at hu
  clear h0 h1 h2 h3 h4 h5 h6 h7 e0 e1 e2 e3 e4 e5 e6 e7
  norm_num at *
  omega

/-! ## Exact behaviour of the packers inside the buffer -/

theorem put1byte_eq (d : Encoded) (p : Nat) (v : Int) (h : p + 1 ≤ 64) :
    put1byte d p v = .ok (d.set ⟨p, by omega⟩ (toByte v)) := by
  unfold put1byte
  exact wr_of_lt d p _ (by omega)

theorem put2bytes_eq (d : Encoded) (p : Nat) (v : Int) (h : p + 2 ≤ 64) :
    put2bytes d p v = .ok ((d.set ⟨p, by omega⟩ (toByte (sar v 0))).set ⟨p + 1, by omega⟩
      (toByte (sar v 8))) := by
  unfold put2bytes
  have e0 : (p + 0) % 256 = p := by omega
  have e1 : (p + 1) % 256 = p + 1 := by omega
  rw [e0, e1, wr_of_lt d p _ (by omega)]
  exact wr_of_lt _ (p + 1) _ (by omega)

theorem put4bytes_eq (d : Encoded) (p : Nat) (v : Int) (h : p + 4 ≤ 64) :
    put4bytes d p v = .ok ((((d.set ⟨p, by omega⟩ (toByte (sar v 0))).set ⟨p + 1, by omega⟩
      (toByte (sar v 8))).set ⟨p + 2, by omega⟩ (toByte (sar v 16))).set ⟨p + 3, by omega⟩
      (toByte (sar v 24))) := by
  unfold put4bytes
  have e0 : (p + 0) % 256 = p := by omega
  have e1 : (p + 1) % 256 = p + 1 := by omega
  have e2 : (p + 2) % 256 = p + 2 := by omega
  have e3 : (p + 3) % 256 = p + 3 := by omega
  rw [e0, e1, e2, e3, wr_of_lt d p _ (by omega)]
  simp only [bind, Except.bind]
  rw [wr_of_lt _ (p + 1) _ (by omega)]
  simp only
  rw [wr_of_lt _ (p + 2) _ (by omega)]
  simp only
  exact wr_of_lt _ (p + 3) _ (by omega)

theorem put8bytes_eq (d : Encoded) (p : Nat) (v : Int) (h : p + 8 ≤ 64) :
    put8bytes d p v = .ok ((((((((d.set ⟨p, by omega⟩ (toByte (sar v 0))).set ⟨p + 1, by omega⟩
      (toByte (sar v 8))).set ⟨p + 2, by omega⟩ (toByte (sar v 16))).set ⟨p + 3, by omega⟩
      (toByte (sar v 24))).set ⟨p + 4, by omega⟩ (toByte (sar v 32))).set ⟨p + 5, by omega⟩
      (toByte (sar v 40))).set ⟨p + 6, by omega⟩ (toByte (sar v 48))).set ⟨p + 7, by omega⟩
      (toByte (sar v 56))) := by
  unfold put8bytes
  have e0 : (p + 0) % 256 = p := by omega
  have e1 : (p + 1) % 256 = p + 1 := by omega
  have e2 : (p + 2) % 256 = p + 2 := by omega
  have e3 : (p + 3) % 256 = p + 3 := by omega
  have e4 : (p + 4) % 256 = p + 4 := by omega
  have e5 : (p + 5) % 256 = p + 5 := by omega
  have e6 : (p + 6) % 256 = p + 6 := by omega
  have e7 : (p + 7) % 256 = p + 7 := by omega
  rw [e0, e1, e2, e3, e4, e5, e6, e7, wr_of_lt d p _ (by omega)]
  simp only [bind, Except.bind]
  rw [wr_of_lt _ (p + 1) _ (by omega)]
  simp only
  rw [wr_of_lt _ (p + 2) _ (by omega)]
  simp only
  rw [wr_of_lt _ (p + 3) _ (by omega)]
  simp only
  rw [wr_of_lt _ (p + 4) _ (by omega)]
  simp only
  rw [wr_of_lt _ (p + 5) _ (by omega)]
  simp only
  rw [wr_of_lt _ (p + 6) _ (by omega)]
  simp only
  exact wr_of_lt _ (p + 7) _ (by omega)

theorem ext1byte_eq (d : Encoded) (p : Nat) (h : p + 1 ≤ 64) :
    ext1byte d p = .ok (toSigned 8 (d.byteAt ⟨p, by omega⟩)) := by
  unfold ext1byte
  rw [rd_of_lt d p (by omega)]
  rfl

theorem ext2bytes_eq (d : Encoded) (p : Nat) (h : p + 2 ≤ 64) :
    ext2bytes d p = .ok (toSigned 16 ((d.byteAt ⟨p, by omega⟩ <<< 0)
      ||| (d.byteAt ⟨p + 1, by omega⟩ <<< 8))) := by
  unfold ext2bytes
  have e0 : (p + 0) % 256 = p := by omega
  have e1 : (p + 1) % 256 = p + 1 := by omega
  rw [e0, e1, rd_of_lt d p (by omega), rd_of_lt d (p + 1) (by omega)]
  rfl

theorem ext4bytes_eq (d : Encoded) (p : Nat) (h : p + 4 ≤ 64) :
    ext4bytes d p = .ok (toSigned 32 ((d.byteAt ⟨p, by omega⟩ <<< 0)
      ||| (d.byteAt ⟨p + 1, by omega⟩ <<< 8) ||| (d.byteAt ⟨p + 2, by omega⟩ <<< 16)
      ||| (d.byteAt ⟨p + 3, by omega⟩ <<< 24))) := by
  unfold ext4bytes
  have e0 : (p + 0) % 256 = p := by omega
  have e1 : (p + 1) % 256 = p + 1 := by omega
  have e2 : (p + 2) % 256 = p + 2 := by omega
  have e3 : (p + 3) % 256 = p + 3 := by omega
  rw [e0, e1, e2, e3, rd_of_lt d p (by omega), rd_of_lt d (p + 1) (by omega),
    rd_of_lt d (p + 2) (by omega), rd_of_lt d (p + 3) (by omega)]
  rfl

theorem ext8bytes_eq (d : Encoded) (p : Nat) (h : p + 8 ≤ 64) :
    ext8bytes d p = .ok (toSigned 64 ((d.byteAt ⟨p, by omega⟩ <<< 0)
      ||| (d.byteAt ⟨p + 1, by omega⟩ <<< 8) ||| (d.byteAt ⟨p + 2, by omega⟩ <<< 16)
      ||| (d.byteAt ⟨p + 3, by omega⟩ <<< 24) ||| (d.byteAt ⟨p + 4, by omega⟩ <<< 32)
      ||| (d.byteAt ⟨p + 5, by omega⟩ <<< 40) ||| (d.byteAt ⟨p + 6, by omega⟩ <<< 48)
      ||| (d.byteAt ⟨p + 7, by omega⟩ <<< 56))) := by
  unfold ext8bytes
  have e0 : (p + 0) % 256 = p := by omega
  have e1 : (p + 1) % 256 = p + 1 := by omega
  have e2 : (p + 2) % 256 = p + 2 := by omega
  have e3 : (p + 3) % 256 = p + 3 := by omega
  have e4 : (p + 4) % 256 = p + 4 := by omega
  have e5 : (p + 5) % 256 = p + 5 := by omega
  have e6 : (p + 6) % 256 = p + 6 := by omega
  have e7 : (p + 7) % 256 = p + 7 := by omega
  rw [e0, e1, e2, e3, e4, e5, e6, e7, rd_of_lt d p (by omega), rd_of_lt d (p + 1) (by omega),
    rd_of_lt d (p + 2) (by omega), rd_of_lt d (p + 3) (by omega),
    rd_of_lt d (p + 4) (by omega), rd_of_lt d (p + 5) (by omega),
    rd_of_lt d (p + 6) (by omega), rd_of_lt d (p + 7) (by omega)]
  rfl

/-- Reading back what `put4bytes` stored gives the value converted to `int32`. -/
theorem ext4bytes_put4bytes (d : Encoded) (p : Nat) (v : Int) (h : p + 4 ≤ 64) :
    ∃ d', put4bytes d p v = .ok d' ∧ ext4bytes d' p = .ok (toIntW 32 v) := by
  refine ⟨_, put4bytes_eq d p v h, ?_⟩
  rw [ext4bytes_eq _ p h]
  have t0 := toByte_lt (sar v 0)
  have t1 := toByte_lt (sar v 8)
  have t2 := toByte_lt (sar v 16)
  have t3 := toByte_lt (sar v 24)
  have e := le_bytes4 v
  rw [Nat.shiftLeft_zero] at e
  simp [byteAt_set, Nat.mod_eq_of_lt t0, Nat.mod_eq_of_lt t1, Nat.mod_eq_of_lt t2,
    Nat.mod_eq_of_lt t3, e, toIntW]

theorem ext2bytes_put2bytes (d : Encoded) (p : Nat) (v : Int) (h : p + 2 ≤ 64) :
    ∃ d', put2bytes d p v = .ok d' ∧ ext2bytes d' p = .ok (toIntW 16 v) := by
  refine ⟨_, put2bytes_eq d p v h, ?_⟩
  rw [ext2bytes_eq _ p h]
  have t0 := toByte_lt (sar v 0)
  have t1 := toByte_lt (sar v 8)
  have e := le_bytes2 v
  rw [Nat.shiftLeft_zero] at e
  simp [byteAt_set, Nat.mod_eq_of_lt t0, Nat.mod_eq_of_lt t1, e, toIntW]

theorem toIntW8_of_range (x : Int) (h : -128 ≤ x ∧ x < 128) : toIntW 8 x = x := by
  unfold toIntW toSigned toUnsigned
  norm_num
  split <;> omega

theorem toIntW16_of_range (x : Int) (h : -32768 ≤ x ∧ x < 32768) : toIntW 16 x = x := by
  unfold toIntW toSigned toUnsigned
  norm_num
  split <;> omega

theorem toIntW32_of_range (x : Int) (h : -2147483648 ≤ x ∧ x < 2147483648) :
    toIntW 32 x = x := by
  unfold toIntW toSigned toUnsigned
  norm_num
  split <;> omega

theorem toIntW64_of_range (x : Int)
    (h : -9223372036854775808 ≤ x ∧ x < 9223372036854775808) : toIntW 64 x = x := by
  unfold toIntW toSigned toUnsigned
  norm_num
  split <;> omega

theorem toIntW32_idem (x : Int) : toIntW 32 (toIntW 32 x) = toIntW 32 x := by
  apply toIntW32_of_range
  unfold toIntW toSigned toUnsigned
  norm_num
  split <;> omega

theorem conv32_toIntW (s : Sign) (x : Int) (h : inRange32 s x) :
    conv32 s (toIntW 32 (toIntW 32 x)) = x := by
  rw [toIntW32_idem]
  cases s
  · have h2 : -2147483648 ≤ x ∧ x < 2147483648 := h
    show toIntW 32 (toIntW 32 x) = x
    rw [toIntW32_of_range x h2, toIntW32_of_range x h2]
  · have h2 : 0 ≤ x ∧ x < 4294967296 := h
    show ((toUnsigned 32 (toIntW 32 x) : Nat) : Int) = x
    unfold toIntW toSigned toUnsigned
    norm_num
    split <;> omega

theorem PutArg_eq_putFixed (d : Encoded) (op : PutOp) (h : op.fixedWidth = true) :
    PutArg d op = putFixed d op.tag op.payload := by
  cases op <;> first | rfl | cases h

theorem argNeedForType_fixed (op : PutOp) (h : op.fixedWidth = true) :
    argNeedForType op.tag = 2 ∨ argNeedForType op.tag = 3 ∨ argNeedForType op.tag = 5
      ∨ argNeedForType op.tag = 9 := by
  cases op <;> first | (cases h; done) | (simp only [PutOp.tag]; decide)

theorem argReserveForType_fail (d : Encoded) (tag : Nat) (hw : argNeedForType tag < 63)
    (h1 : 63 < freeOffset d + argNeedForType tag) (h2 : freeOffset d + argNeedForType tag < 256) :
    argReserveForType d tag = .ok (d, cPosErr) := by
  unfold argReserveForType
  unfold freeOffset at h1 h2
  have e : (d.byteAt cPosArgsFree + argNeedForType tag) % 256
      = d.byteAt cPosArgsFree + argNeedForType tag := Nat.mod_eq_of_lt h2
  simp only [cPosMax, ge_iff_le, gt_iff_lt, e]
  rw [if_neg (by omega), if_pos h1]
  rfl

theorem argReserveForType_ok (d : Encoded) (tag : Nat) (hw : argNeedForType tag < 63)
    (h1 : freeOffset d + argNeedForType tag ≤ 63) :
    argReserveForType d tag = .ok ((d.set ⟨freeOffset d, by omega⟩ tag).set cPosArgsFree
      (freeOffset d + argNeedForType tag), freeOffset d + 1) := by
  unfold argReserveForType
  unfold freeOffset at h1 ⊢
  have e : (d.byteAt cPosArgsFree + argNeedForType tag) % 256
      = d.byteAt cPosArgsFree + argNeedForType tag := Nat.mod_eq_of_lt (by omega)
  have e1 : (d.byteAt cPosArgsFree + 1) % 256 = d.byteAt cPosArgsFree + 1 :=
    Nat.mod_eq_of_lt (by omega)
  simp only [cPosMax, ge_iff_le, gt_iff_lt, e, e1]
  rw [if_neg (by omega), if_neg (by omega), wr_of_lt _ _ _ (by omega)]
  rfl

theorem putFixed_fail (d : Encoded) (tag : Nat) (put : Encoded → Nat → Except Fault Encoded)
    (hw : argNeedForType tag < 63)
    (h1 : 63 < freeOffset d + argNeedForType tag) (h2 : freeOffset d + argNeedForType tag < 256) :
    putFixed d tag put = .ok (d, cBadIndex) := by
  unfold putFixed
  rw [argReserveForType_fail d tag hw h1 h2]
  rfl

theorem putFixed_ok (d d1 : Encoded) (tag : Nat) (put : Encoded → Nat → Except Fault Encoded)
    (hw : argNeedForType tag < 63) (h1 : freeOffset d + argNeedForType tag ≤ 63)
    (hput : put ((d.set ⟨freeOffset d, by omega⟩ tag).set cPosArgsFree
      (freeOffset d + argNeedForType tag)) (freeOffset d + 1) = .ok d1) :
    putFixed d tag put = .ok (argCountIncPostfix d1) := by
  unfold putFixed
  rw [argReserveForType_ok d tag hw h1]
  have hne : ¬ (freeOffset d + 1 = cPosErr) := by unfold cPosErr; omega
  simp only [bind, Except.bind, hne, if_false, hput]
  rfl

theorem put1byte_frame (d : Encoded) (p : Nat) (v : Int) (h : p + 1 ≤ 64) :
    ∃ d1, put1byte d p v = .ok d1 ∧ ∀ j : Fin 64, (j.val < p ∨ p + 1 ≤ j.val) → d1 j = d j := by
  refine ⟨_, put1byte_eq d p v h, ?_⟩
  intro j hj
  rw [set_apply_ne _ _ _ _ (Fin.ne_of_val_ne (by show j.val ≠ p; omega))]

theorem put2bytes_frame (d : Encoded) (p : Nat) (v : Int) (h : p + 2 ≤ 64) :
    ∃ d1, put2bytes d p v = .ok d1 ∧ ∀ j : Fin 64, (j.val < p ∨ p + 2 ≤ j.val) → d1 j = d j := by
  refine ⟨_, put2bytes_eq d p v h, ?_⟩
  intro j hj
  rw [set_apply_ne _ _ _ _ (Fin.ne_of_val_ne (by show j.val ≠ p + 1; omega)),
    set_apply_ne _ _ _ _ (Fin.ne_of_val_ne (by show j.val ≠ p; omega))]

theorem put4bytes_frame (d : Encoded) (p : Nat) (v : Int) (h : p + 4 ≤ 64) :
    ∃ d1, put4bytes d p v = .ok d1 ∧ ∀ j : Fin 64, (j.val < p ∨ p + 4 ≤ j.val) → d1 j = d j := by
  refine ⟨_, put4bytes_eq d p v h, ?_⟩
  intro j hj
  rw [set_apply_ne _ _ _ _ (Fin.ne_of_val_ne (by show j.val ≠ p + 3; omega)),
    set_apply_ne _ _ _ _ (Fin.ne_of_val_ne (by show j.val ≠ p + 2; omega)),
    set_apply_ne _ _ _ _ (Fin.ne_of_val_ne (by show j.val ≠ p + 1; omega)),
    set_apply_ne _ _ _ _ (Fin.ne_of_val_ne (by show j.val ≠ p; omega))]

theorem put8bytes_frame (d : Encoded) (p : Nat) (v : Int) (h : p + 8 ≤ 64) :
    ∃ d1, put8bytes d p v = .ok d1 ∧ ∀ j : Fin 64, (j.val < p ∨ p + 8 ≤ j.val) → d1 j = d j := by
  refine ⟨_, put8bytes_eq d p v h, ?_⟩
  intro j hj
  rw [set_apply_ne _ _ _ _ (Fin.ne_of_val_ne (by show j.val ≠ p + 7; omega)),
    set_apply_ne _ _ _ _ (Fin.ne_of_val_ne (by show j.val ≠ p + 6; omega)),
    set_apply_ne _ _ _ _ (Fin.ne_of_val_ne (by show j.val ≠ p + 5; omega)),
    set_apply_ne _ _ _ _ (Fin.ne_of_val_ne (by show j.val ≠ p + 4; omega)),
    set_apply_ne _ _ _ _ (Fin.ne_of_val_ne (by show j.val ≠ p + 3; omega)),
    set_apply_ne _ _ _ _ (Fin.ne_of_val_ne (by show j.val ≠ p + 2; omega)),
    set_apply_ne _ _ _ _ (Fin.ne_of_val_ne (by show j.val ≠ p + 1; omega)),
    set_apply_ne _ _ _ _ (Fin.ne_of_val_ne (by show j.val ≠ p; omega))]

theorem argNeedForType_tags :
    argNeedForType cArgTypeInt8 = 2 ∧ argNeedForType cArgTypeUint8 = 2
    ∧ argNeedForType cArgTypeInt16 = 3 ∧ argNeedForType cArgTypeUint16 = 3
    ∧ argNeedForType cArgTypeInt32 = 5 ∧ argNeedForType cArgTypeUint32 = 5
    ∧ argNeedForType cArgTypeFloat32 = 5
    ∧ argNeedForType cArgTypeInt64 = 9 ∧ argNeedForType cArgTypeUint64 = 9
    ∧ argNeedForType cArgTypeFloat64 = 9 ∧ argNeedForType cArgTypeString = 63 := by
  decide

/-- The payload packer of a fixed-width writer stays inside the reserved bytes. -/
theorem payload_frame (op : PutOp) (hfix : op.fixedWidth = true) (d : Encoded) (p : Nat)
    (hp : p + argNeedForType op.tag ≤ 65) :
    ∃ d1, op.payload d p = .ok d1 ∧
      ∀ j : Fin 64, (j.val < p ∨ p + argNeedForType op.tag ≤ j.val + 1) → d1 j = d j := by
  obtain ⟨n1, n2, n3, n4, n5, n6, n7, n8, n9, n10, _⟩ := argNeedForType_tags
  cases op <;> simp only [PutOp.tag, n1, n2, n3, n4, n5, n6, n7, n8, n9, n10] at hp ⊢ <;> first
    | (cases hfix; done)
    | exact (put1byte_frame d p _ (by omega)).imp
        (fun d1 h => ⟨h.1, fun j hj => h.2 j (by omega)⟩)
    | exact (put2bytes_frame d p _ (by omega)).imp
        (fun d1 h => ⟨h.1, fun j hj => h.2 j (by omega)⟩)
    | exact (put4bytes_frame d p _ (by omega)).imp
        (fun d1 h => ⟨h.1, fun j hj => h.2 j (by omega)⟩)
    | exact (put8bytes_frame d p _ (by omega)).imp
        (fun d1 h => ⟨h.1, fun j hj => h.2 j (by omega)⟩)

theorem PutArg_fixed_fail (d : Encoded) (op : PutOp) (hfix : op.fixedWidth = true)
    (h1 : 63 < freeOffset d + argNeedForType op.tag) (h2 : freeOffset d ≤ 64) :
    PutArg d op = .ok (d, cBadIndex) := by
  rw [PutArg_eq_putFixed d op hfix]
  have hw := argNeedForType_fixed op hfix
  exact putFixed_fail d op.tag op.payload (by omega) h1 (by omega)

theorem PutArg_fixed_ok (d : Encoded) (op : PutOp) (hfix : op.fixedWidth = true)
    (hlo : 10 ≤ freeOffset d) (h1 : freeOffset d + argNeedForType op.tag ≤ 63) :
    ∃ d', PutArg d op = .ok (d', ArgCount d)
      ∧ d'.byteAt cPosArgsCount = (d.byteAt cPosArgsCount + 1) % 256
      ∧ freeOffset d' = freeOffset d + argNeedForType op.tag
      ∧ d'.byteAt ⟨freeOffset d, by omega⟩ = op.tag
      ∧ ∀ j : Fin 64, j.val ≠ 8 → j.val ≠ 9 →
          (j.val < freeOffset d ∨ freeOffset d + argNeedForType op.tag ≤ j.val) → d' j = d j := by
  have hw := argNeedForType_fixed op hfix
  obtain ⟨d1, hd1, hframe⟩ := payload_frame op hfix
    ((d.set ⟨freeOffset d, by omega⟩ op.tag).set cPosArgsFree
      (freeOffset d + argNeedForType op.tag)) (freeOffset d + 1) (by omega)
  have hf9 : freeOffset d = d.byteAt cPosArgsFree := rfl
  have htag : op.tag < 256 := by
    cases op <;> first | (cases hfix; done) | (simp only [PutOp.tag]; decide)
  -- bytes of the buffer after the reservation
  have e8 : d1.byteAt cPosArgsCount = d.byteAt cPosArgsCount := by
    have := hframe cPosArgsCount (Or.inl (by show 8 < freeOffset d + 1; omega))
    unfold Encoded.byteAt
    rw [this, set_apply_ne _ _ _ _ (by decide),
      set_apply_ne _ _ _ _ (Fin.ne_of_val_ne (by show 8 ≠ freeOffset d; omega))]
  have e9 : d1.byteAt cPosArgsFree = freeOffset d + argNeedForType op.tag := by
    have := hframe cPosArgsFree (Or.inl (by show 9 < freeOffset d + 1; omega))
    have h2 : d1.byteAt cPosArgsFree = _ := congrArg Fin.val this
    rw [h2]
    show Encoded.byteAt _ cPosArgsFree = _
    rw [byteAt_set, if_pos rfl]
    exact Nat.mod_eq_of_lt (by omega)
  have ef : d1.byteAt ⟨freeOffset d, by omega⟩ = op.tag := by
    have := hframe ⟨freeOffset d, by omega⟩ (Or.inl (by show freeOffset d < freeOffset d + 1; omega))
    have h2 : d1.byteAt ⟨freeOffset d, by omega⟩ = _ := congrArg Fin.val this
    rw [h2]
    show Encoded.byteAt _ _ = _
    rw [byteAt_set, if_neg (Fin.ne_of_val_ne (by show freeOffset d ≠ 9; omega)), byteAt_set,
      if_pos rfl]
    exact Nat.mod_eq_of_lt htag
  refine ⟨(argCountIncPostfix d1).1, ?_, ?_, ?_, ?_, ?_⟩
  · rw [PutArg_eq_putFixed d op hfix, putFixed_ok d d1 op.tag op.payload (by omega) h1 hd1]
    unfold argCountIncPostfix ArgCount
    rw [e8]
  · unfold argCountIncPostfix
    show Encoded.byteAt _ cPosArgsCount = _
    rw [byteAt_set, if_pos rfl, e8, Nat.mod_mod]
  · unfold argCountIncPostfix
    show Encoded.byteAt _ cPosArgsFree = _
    rw [byteAt_set, if_neg (by decide), e9]
  · unfold argCountIncPostfix
    show Encoded.byteAt _ _ = _
    rw [byteAt_set, if_neg (Fin.ne_of_val_ne (by show freeOffset d ≠ 8; omega)), ef]
  · intro j hj8 hj9 hj
    unfold argCountIncPostfix
    show Encoded.set _ _ _ j = _
    rw [set_apply_ne _ _ _ _ (Fin.ne_of_val_ne (by show j.val ≠ 8; omega)),
      hframe j (by omega),
      set_apply_ne _ _ _ _ (Fin.ne_of_val_ne (by show j.val ≠ 9; omega)),
      set_apply_ne _ _ _ _ (Fin.ne_of_val_ne (by show j.val ≠ freeOffset d; omega))]

/-- A run of the `putNbytes` loop that returns stayed inside the buffer and left the
bytes below its first position alone. -/
theorem putNbytesLoop_ok_inv (v : List Byte) (startPos : Nat) :
    ∀ (k i : Nat) (d d' : Encoded), startPos + i ≤ 64 →
      putNbytesLoop v startPos k i d = .ok d' →
      (k = 0 ∨ startPos + i + k ≤ 64) ∧ ∀ j : Fin 64, j.val < startPos + i → d' j = d j := by
  intro k
  induction k with
  | zero =>
    intro i d d' _ h
    have : d' = d := by
      unfold putNbytesLoop at h
      exact (Except.ok.inj h).symm
    subst this
    exact ⟨Or.inl rfl, fun _ _ => rfl⟩
  | succ k ih =>
    intro i d d' hi h
    unfold putNbytesLoop at h
    cases hv : v[i]? with
    | none => rw [hv] at h; cases h
    | some b =>
      rw [hv] at h
      simp only [bind, Except.bind] at h
      cases hw : d.wr ((startPos + i) % 256) b.val with
      | error e => rw [hw] at h; cases h
      | ok d1 =>
        rw [hw] at h
        simp only at h
        obtain ⟨hp, hd1⟩ := wr_ok_inv _ _ _ _ hw
        have hlt : startPos + i < 64 := by omega
        have := ih (i + 1) d1 d' (by omega) h
        refine ⟨Or.inr (by omega), ?_⟩
        intro j hj
        rw [this.2 j (by omega), hd1]
        exact set_apply_ne _ _ _ _ (Fin.ne_of_val_ne (by show j.val ≠ (startPos + i) % 256; omega))

theorem PutArgString_ok_inv (d d' : Encoded) (v : List Byte) (idx : Int)
    (hlo : 10 ≤ freeOffset d) (hhi : freeOffset d ≤ 63)
    (h : PutArgString d v = .ok (d', idx)) :
    (idx = cBadIndex ∧ d' = d) ∨
    (idx = ArgCount d ∧ freeOffset d + 2 + v.length % 256 ≤ 63
      ∧ d'.byteAt cPosArgsCount = (d.byteAt cPosArgsCount + 1) % 256
      ∧ freeOffset d' = freeOffset d + 2 + v.length % 256
      ∧ d'.byteAt ⟨freeOffset d, by omega⟩ = cArgTypeString
      ∧ ∀ j : Fin 64, j.val ≠ 8 → j.val ≠ 9 → j.val < freeOffset d → d' j = d j) := by
  have hL : v.length % 256 < 256 := Nat.mod_lt _ (by decide)
  unfold PutArgString at h
  by_cases hfree : argHaveFreeBytes d ((2 + v.length % 256) % 256) = true
  · simp only [hfree, Bool.not_true, Bool.false_eq_true, if_false] at h
    have hf9 : d.byteAt cPosArgsFree = freeOffset d := rfl
    rw [hf9] at h
    have e0 : (freeOffset d + 0) % 256 = freeOffset d := by omega
    rw [e0, wr_of_lt _ _ _ (by omega)] at h
    simp only [bind, Except.bind] at h
    generalize hd0 : (d.set cPosArgsFree ((freeOffset d + (v.length % 256 + 2) % 256) % 256)).set
      ⟨freeOffset d, by omega⟩ cArgTypeString = d0 at h
    cases hw : d0.wr ((freeOffset d + 1) % 256) (v.length % 256) with
    | error e => rw [hw] at h; cases h
    | ok d2 =>
      rw [hw] at h
      simp only at h
      obtain ⟨hp, hd2⟩ := wr_ok_inv _ _ _ _ hw
      have hf62 : freeOffset d ≤ 62 := by omega
      have e2 : (freeOffset d + 2) % 256 = freeOffset d + 2 := by omega
      rw [e2] at h
      cases hn : putNbytes d2 (freeOffset d + 2) v with
      | error e => rw [hn] at h; cases h
      | ok d3 =>
        rw [hn] at h
        simp only at h
        unfold putNbytes at hn
        obtain ⟨hk, hframe⟩ := putNbytesLoop_ok_inv v (freeOffset d + 2) _ 0 d2 d3 (by omega) hn
        unfold argHaveFreeBytes at hfree
        rw [hf9] at hfree
        have hfree2 := of_decide_eq_true hfree
        unfold cPosMax at hfree2
        have hfit : freeOffset d + 2 + v.length % 256 ≤ 63 := by omega
        have hres := Except.ok.inj h
        have hidx : idx = (argCountIncPostfix d3).2 := (congrArg Prod.snd hres).symm
        have hd' : d' = (argCountIncPostfix d3).1 := (congrArg Prod.fst hres).symm
        have hne1 : ∀ j : Fin 64, j.val < freeOffset d → j.val ≠ 9 → d3 j = d j := by
          intro j hj hj9
          rw [hframe j (by omega), hd2,
            set_apply_ne _ _ _ _ (Fin.ne_of_val_ne (by show j.val ≠ (freeOffset d + 1) % 256; omega)),
            ← hd0,
            set_apply_ne _ _ _ _ (Fin.ne_of_val_ne (by show j.val ≠ freeOffset d; omega)),
            set_apply_ne _ _ _ _ (Fin.ne_of_val_ne (by show j.val ≠ 9; omega))]
        have e8 : d3.byteAt cPosArgsCount = d.byteAt cPosArgsCount :=
          congrArg Fin.val (hne1 cPosArgsCount (by show 8 < freeOffset d; omega) (by decide))
        have e9 : d3.byteAt cPosArgsFree = freeOffset d + 2 + v.length % 256 := by
          have h1 : d3 cPosArgsFree = d0 cPosArgsFree := by
            rw [hframe cPosArgsFree (by show 9 < freeOffset d + 2 + 0; omega), hd2,
              set_apply_ne _ _ _ _
                (Fin.ne_of_val_ne (by show 9 ≠ (freeOffset d + 1) % 256; omega))]
          have h2 : d3.byteAt cPosArgsFree = d0.byteAt cPosArgsFree := congrArg Fin.val h1
          rw [h2, ← hd0, byteAt_set,
            if_neg (Fin.ne_of_val_ne (by show 9 ≠ freeOffset d; omega)), byteAt_set, if_pos rfl]
          omega
        have ef : d3.byteAt ⟨freeOffset d, by omega⟩ = cArgTypeString := by
          have h1 : d3 ⟨freeOffset d, by omega⟩ = d0 ⟨freeOffset d, by omega⟩ := by
            rw [hframe ⟨freeOffset d, by omega⟩ (by show freeOffset d < freeOffset d + 2 + 0; omega),
              hd2, set_apply_ne _ _ _ _
                (Fin.ne_of_val_ne (by show freeOffset d ≠ (freeOffset d + 1) % 256; omega))]
          have h2 : d3.byteAt ⟨freeOffset d, by omega⟩ = d0.byteAt ⟨freeOffset d, by omega⟩ :=
            congrArg Fin.val h1
          rw [h2, ← hd0, byteAt_set, if_pos rfl]
          rfl
        right
        subst hidx hd'
        refine ⟨?_, hfit, ?_, ?_, ?_, ?_⟩
        · unfold argCountIncPostfix ArgCount
          rw [e8]
        · unfold argCountIncPostfix
          show Encoded.byteAt _ cPosArgsCount = _
          rw [byteAt_set, if_pos rfl, e8, Nat.mod_mod]
        · unfold argCountIncPostfix
          show Encoded.byteAt _ cPosArgsFree = _
          rw [byteAt_set, if_neg (by decide), e9]
        · unfold argCountIncPostfix
          show Encoded.byteAt _ _ = _
          rw [byteAt_set, if_neg (Fin.ne_of_val_ne (by show freeOffset d ≠ 8; omega)), ef]
        · intro j hj8 hj9 hj
          unfold argCountIncPostfix
          show Encoded.set _ _ _ j = _
          rw [set_apply_ne _ _ _ _ (Fin.ne_of_val_ne (by show j.val ≠ 8; omega)),
            hne1 j hj hj9]
  · simp only [hfree, Bool.not_false, if_true] at h
    left
    have := Except.ok.inj h
    exact ⟨(congrArg Prod.snd this).symm, (congrArg Prod.fst this).symm⟩

theorem tag_string (v : List Byte) : (PutOp.string v).tag = cArgTypeString := rfl

/-- What a writer call that returns has done, for a buffer whose free offset is inside
the argument region. -/
theorem PutArg_ok_inv (d d' : Encoded) (op : PutOp) (idx : Int)
    (hlo : 10 ≤ freeOffset d) (hhi : freeOffset d ≤ 63)
    (h : PutArg d op = .ok (d', idx)) :
    (idx = cBadIndex ∧ d' = d) ∨
    (idx = ArgCount d
      ∧ d'.byteAt cPosArgsCount = (d.byteAt cPosArgsCount + 1) % 256
      ∧ freeOffset d + 2 ≤ freeOffset d' ∧ freeOffset d' ≤ 63
      ∧ d'.byteAt ⟨freeOffset d, by omega⟩ = op.tag
      ∧ ∀ j : Fin 64, j.val ≠ 8 → j.val ≠ 9 → j.val < freeOffset d → d' j = d j) := by
  by_cases hfix : op.fixedWidth = true
  · have hw := argNeedForType_fixed op hfix
    by_cases hfit : freeOffset d + argNeedForType op.tag ≤ 63
    · obtain ⟨d2, h1, h2, h3, h4, h5⟩ := PutArg_fixed_ok d op hfix hlo hfit
      rw [h1] at h
      have hres := Except.ok.inj h
      have e1 : d2 = d' := congrArg Prod.fst hres
      have e2 : ArgCount d = idx := congrArg Prod.snd hres
      subst e1 e2
      exact Or.inr ⟨rfl, h2, by omega, by omega, h4, fun j h8 h9 hj => h5 j h8 h9 (Or.inl hj)⟩
    · rw [PutArg_fixed_fail d op hfix (by omega) (by omega)] at h
      have hres := Except.ok.inj h
      exact Or.inl ⟨(congrArg Prod.snd hres).symm, (congrArg Prod.fst hres).symm⟩
  · cases op <;> first | (exfalso; exact hfix rfl) | skip
    rename_i v
    have h2 : PutArgString d v = .ok (d', idx) := h
    rcases PutArgString_ok_inv d d' v idx hlo hhi h2 with h3 | ⟨h3, h4, h5, h6, h7, h8⟩
    · exact Or.inl h3
    · exact Or.inr ⟨h3, h5, by omega, by omega, h7, h8⟩

/-- The fixed-width writers always return when the free offset is inside the argument
region. -/
theorem PutArg_fixed_total (d : Encoded) (op : PutOp) (hfix : op.fixedWidth = true)
    (hlo : 10 ≤ freeOffset d) (hhi : freeOffset d ≤ 64) :
    ∃ d' idx, PutArg d op = .ok (d', idx) := by
  by_cases hfit : freeOffset d + argNeedForType op.tag ≤ 63
  · obtain ⟨d2, h1, _⟩ := PutArg_fixed_ok d op hfix hlo hfit
    exact ⟨d2, _, h1⟩
  · exact ⟨d, _, PutArg_fixed_fail d op hfix (by omega) hhi⟩

theorem ArgCount_ne_bad (d : Encoded) : ArgCount d ≠ cBadIndex := by
  unfold ArgCount cBadIndex
  omega

/-- C4: failure atomicity of the fixed-width writers.  On a buffer whose free offset is
between 10 and 63 every fixed-width writer (the integer types, float32, float64, and
the int/uint wrappers), with any value, returns; and if it returns the invalid index
-1 then the buffer after the call is the buffer before it (all 64 bytes, ArgCount and
ArgsFreeOffset included). -/
theorem C4_fixed_width_failure_atomic (d : Encoded) (op : PutOp)
    (hfix : op.fixedWidth = true) (hlo : 10 ≤ freeOffset d) (hhi : freeOffset d ≤ 63) :
    ∃ d' idx, PutArg d op = .ok (d', idx) ∧ (idx = cBadIndex → d' = d) := by
  obtain ⟨d', idx, h⟩ := PutArg_fixed_total d op hfix hlo (by omega)
  refine ⟨d', idx, h, ?_⟩
  intro hbad
  rcases PutArg_ok_inv d d' op idx hlo hhi h with h1 | h1
  · exact h1.2
  · exact absurd (hbad ▸ h1.1).symm (ArgCount_ne_bad d)

theorem freeOffset_init (d : Encoded) : freeOffset (init d) = 10 := by
  unfold freeOffset init
  rw [byteAt_set, if_pos rfl]
  rfl

theorem count_init (d : Encoded) : (init d).byteAt cPosArgsCount = d.byteAt cPosArgsCount := by
  unfold init
  rw [byteAt_set, if_neg (by decide)]

theorem countSuccess_cons (i : Int) (is : List Int) :
    countSuccess (i :: is) = (if i = cBadIndex then 0 else 1) + countSuccess is := by
  unfold countSuccess
  by_cases h : i = cBadIndex
  · simp [h]
  · simp [h]; omega

theorem runPuts_cons_inv (d d' : Encoded) (op : PutOp) (ops : List PutOp) (idxs : List Int)
    (h : runPuts d (op :: ops) = .ok (d', idxs)) :
    ∃ d1 idx rest, PutArg d op = .ok (d1, idx) ∧ runPuts d1 ops = .ok (d', rest)
      ∧ idxs = idx :: rest := by
  unfold runPuts at h
  cases h1 : PutArg d op with
  | error e => rw [h1] at h; cases h
  | ok r1 =>
    obtain ⟨d1, idx⟩ := r1
    rw [h1] at h
    simp only [bind, Except.bind] at h
    cases h2 : runPuts d1 ops with
    | error e => rw [h2] at h; cases h
    | ok r2 =>
      obtain ⟨d2, rest⟩ := r2
      rw [h2] at h
      simp only at h
      have hres := Except.ok.inj h
      have e1 : d2 = d' := congrArg Prod.fst hres
      have e2 : idx :: rest = idxs := congrArg Prod.snd hres
      subst e1
      exact ⟨d1, idx, rest, rfl, h2, e2.symm⟩

/-- A run of writer calls that returns keeps the counting invariant and adds the number
of successful calls to the counter. -/
theorem runPuts_CountInv (ops : List PutOp) :
    ∀ (d d' : Encoded) (k : Nat) (idxs : List Int), CountInv d k →
      runPuts d ops = .ok (d', idxs) → CountInv d' (k + countSuccess idxs) := by
  induction ops with
  | nil =>
    intro d d' k idxs hinv h
    unfold runPuts at h
    have hres := Except.ok.inj h
    have e1 : d = d' := congrArg Prod.fst hres
    have e2 : [] = idxs := congrArg Prod.snd hres
    subst e1 e2
    exact hinv
  | cons op ops ih =>
    intro d d' k idxs hinv h
    obtain ⟨d1, idx, rest, h1, h2, h3⟩ := runPuts_cons_inv d d' op ops idxs h
    subst h3
    obtain ⟨hk, hlo, hhi⟩ := hinv
    rw [countSuccess_cons]
    rcases PutArg_ok_inv d d1 op idx (by omega) hhi h1 with ⟨hb, hd⟩ | ⟨hi, hc, hf1, hf2, _, _⟩
    · rw [hd] at h2
      rw [if_pos hb, Nat.zero_add]
      exact ih d d' k rest ⟨hk, hlo, hhi⟩ h2
    · have hne : idx ≠ cBadIndex := hi ▸ ArgCount_ne_bad d
      rw [if_neg hne, ← Nat.add_assoc]
      refine ih d1 d' (k + 1) rest ⟨?_, by omega, hf2⟩ h2
      rw [hc, hk]
      omega

/-- C10 (amended): ArgCount counts the successful writes since initialisation of a buffer
whose counter byte was 0.  For every 64-byte buffer whose byte 8 is 0 (in particular a
new all-zero instance), after init and then any finite sequence of PutArg calls that
all return, ArgCount() equals the number of those calls that returned an index other
than -1. -/
theorem C10_argcount_counts_successes (d d' : Encoded) (ops : List PutOp) (idxs : List Int)
    (h0 : d.byteAt cPosArgsCount = 0) (h : runPuts (init d) ops = .ok (d', idxs)) :
    ArgCount d' = ((countSuccess idxs : Nat) : Int) := by
  have hinv : CountInv (init d) 0 := ⟨by rw [count_init, h0], by rw [freeOffset_init], by
    rw [freeOffset_init]; decide⟩
  have := runPuts_CountInv ops (init d) d' 0 idxs hinv h
  unfold ArgCount
  rw [this.1, Nat.zero_add]

theorem C10_argcount_counts_successes_witness :
    Encoded.zero.byteAt cPosArgsCount = 0
    ∧ runPuts (init Encoded.zero) [.int32 (-100), .string [103, 111]]
        = .ok (bufOf (runPuts (init Encoded.zero) [.int32 (-100), .string [103, 111]]), [0, 1])
    ∧ ArgCount (bufOf (runPuts (init Encoded.zero) [.int32 (-100), .string [103, 111]]))
        = ((countSuccess [0, 1] : Nat) : Int) :=
  ⟨rfl, rfl, C10_argcount_counts_successes Encoded.zero _
    [.int32 (-100), .string [103, 111]] [0, 1] rfl rfl⟩

/-- C10 (as stated) fails: init does not reset the counter byte.  On the buffer that is
zero except for byte 8 = 5, init followed by one PutArgInt8 call, which succeeds with
index 5, leaves ArgCount() = 6, while one call returned an index other than -1. -/
theorem C10_counterexample :
    (runPuts (init (Encoded.zero.set cPosArgsCount 5)) [.int8 1]).map
        (fun r => (ArgCount r.1, r.2, countSuccess r.2)) = .ok (6, [5], 1) := by
  rfl

/-- More fuel does not change a result the search loop has produced. -/
theorem argGetSearch_fuel_mono (d : Encoded) (argType nf : Nat) :
    ∀ (fuel k p : Nat) (r : Except Fault Nat), r ≠ .error .outOfFuel →
      argGetSearch d argType nf fuel p = r → argGetSearch d argType nf (fuel + k) p = r := by
  intro fuel
  induction fuel with
  | zero =>
    intro k p r hr h
    unfold argGetSearch at h
    exact absurd h.symm hr
  | succ n ih =>
    intro k p r hr h
    have e : n + 1 + k = (n + k) + 1 := by omega
    rw [e]
    unfold argGetSearch at h ⊢
    by_cases hc : p ≠ cPosErr ∧ p < nf
    · rw [if_pos hc] at h ⊢
      cases hrd : d.rd p with
      | error e => rw [hrd] at h; exact h
      | ok t =>
        rw [hrd] at h
        simp only [bind, Except.bind] at h ⊢
        by_cases ht : t = argType
        · rw [if_pos ht] at h ⊢; exact h
        · rw [if_neg ht] at h ⊢
          cases hnx : argNextFromPos d p with
          | error e => rw [hnx] at h; exact h
          | ok q =>
            rw [hnx] at h
            simp only at h ⊢
            exact ih k q r hr h
    · rw [if_neg hc] at h ⊢; exact h

theorem C4_fixed_width_failure_atomic_witness :
    (PutOp.int64 5).fixedWidth = true
    ∧ 10 ≤ freeOffset (Encoded.zero.set cPosArgsFree 60)
    ∧ freeOffset (Encoded.zero.set cPosArgsFree 60) ≤ 63
    ∧ ∃ d' idx, PutArg (Encoded.zero.set cPosArgsFree 60) (.int64 5) = .ok (d', idx)
        ∧ (idx = cBadIndex → d' = Encoded.zero.set cPosArgsFree 60) :=
  ⟨rfl, by decide, by decide,
    C4_fixed_width_failure_atomic (Encoded.zero.set cPosArgsFree 60) (.int64 5) rfl
      (by decide) (by decide)⟩

/-- C6 (amended): capacity threshold of the allocator.  For every buffer whose free
offset f is between 10 and 64 and every fixed-width writer, whose tag has total width
w in {2, 3, 5, 9}, argReserveForType returns, and it succeeds (returns a position other
than the error position) if and only if f + w <= 63; the corresponding PutArg call
returns, and returns an index other than -1, under exactly the same condition.  So
offsets 10..62 are usable and offset 63 is never used. -/
theorem C6_capacity_threshold (d : Encoded) (op : PutOp) (hfix : op.fixedWidth = true)
    (hlo : 10 ≤ freeOffset d) (hhi : freeOffset d ≤ 64) :
    (argNeedForType op.tag = 2 ∨ argNeedForType op.tag = 3 ∨ argNeedForType op.tag = 5
      ∨ argNeedForType op.tag = 9)
    ∧ (∃ d' p, argReserveForType d op.tag = .ok (d', p)
        ∧ (p ≠ cPosErr ↔ freeOffset d + argNeedForType op.tag ≤ 63))
    ∧ (∃ d' idx, PutArg d op = .ok (d', idx)
        ∧ (idx ≠ cBadIndex ↔ freeOffset d + argNeedForType op.tag ≤ 63)) := by
  have hw := argNeedForType_fixed op hfix
  refine ⟨hw, ?_, ?_⟩
  · by_cases hfit : freeOffset d + argNeedForType op.tag ≤ 63
    · refine ⟨_, _, argReserveForType_ok d op.tag (by omega) hfit, ?_⟩
      constructor
      · intro _; exact hfit
      · intro _; unfold cPosErr; omega
    · refine ⟨_, _, argReserveForType_fail d op.tag (by omega) (by omega) (by omega), ?_⟩
      constructor
      · intro h; exact absurd rfl h
      · intro h; exact absurd h hfit
  · by_cases hfit : freeOffset d + argNeedForType op.tag ≤ 63
    · obtain ⟨d2, h1, _⟩ := PutArg_fixed_ok d op hfix hlo hfit
      refine ⟨d2, _, h1, ?_⟩
      constructor
      · intro _; exact hfit
      · intro _; exact ArgCount_ne_bad d
    · refine ⟨d, _, PutArg_fixed_fail d op hfix (by omega) hhi, ?_⟩
      constructor
      · intro h; exact absurd rfl h
      · intro h; exact absurd h hfit

theorem C6_capacity_threshold_witness :
    (PutOp.int64 0).fixedWidth = true
    ∧ 10 ≤ freeOffset (Encoded.zero.set cPosArgsFree 54)
    ∧ freeOffset (Encoded.zero.set cPosArgsFree 54) ≤ 64
    ∧ ((argNeedForType (PutOp.int64 0).tag = 2 ∨ argNeedForType (PutOp.int64 0).tag = 3
        ∨ argNeedForType (PutOp.int64 0).tag = 5 ∨ argNeedForType (PutOp.int64 0).tag = 9)
      ∧ (∃ d' p, argReserveForType (Encoded.zero.set cPosArgsFree 54) (PutOp.int64 0).tag
            = .ok (d', p)
          ∧ (p ≠ cPosErr ↔ freeOffset (Encoded.zero.set cPosArgsFree 54)
              + argNeedForType (PutOp.int64 0).tag ≤ 63))
      ∧ (∃ d' idx, PutArg (Encoded.zero.set cPosArgsFree 54) (.int64 0) = .ok (d', idx)
          ∧ (idx ≠ cBadIndex ↔ freeOffset (Encoded.zero.set cPosArgsFree 54)
              + argNeedForType (PutOp.int64 0).tag ≤ 63))) :=
  ⟨rfl, by decide, by decide,
    C6_capacity_threshold (Encoded.zero.set cPosArgsFree 54) (.int64 0) rfl (by decide)
      (by decide)⟩

/-- C6 (as stated) fails: with free offset 55 an int64 argument (width 9) satisfies
55 + 9 <= 64, yet argReserveForType returns the error position and leaves the buffer
alone; and of six consecutive PutArgInt64 calls on a freshly initialised all-zero
buffer the sixth returns -1. -/
theorem C6_counterexample :
    freeOffset (Encoded.zero.set cPosArgsFree 55) + argNeedForType cArgTypeInt64 ≤ 64
    ∧ (argReserveForType (Encoded.zero.set cPosArgsFree 55) cArgTypeInt64).map Prod.snd
        = .ok cPosErr
    ∧ (runPuts (init Encoded.zero) (List.replicate 6 (.int64 0))).map
        (fun r => (r.2, freeOffset r.1)) = .ok ([0, 1, 2, 3, 4, -1], 55) := by
  refine ⟨by decide, by rfl, by rfl⟩

/-- C8: identifier round trip.  For every content of the 64-byte buffer and every value x
of the 32-bit identifier type (of either signedness), PutViewID(x) returns and GetViewID
on the resulting buffer returns x; likewise PutSessionID(x) returns and GetSessionID
then returns x. -/
theorem C8_identifier_round_trip (s : Sign) (d : Encoded) (x : Int) (hx : inRange32 s x) :
    (∃ d', PutViewID d x = .ok d' ∧ GetViewID s d' = .ok x)
    ∧ (∃ d', PutSessionID d x = .ok d' ∧ GetSessionID s d' = .ok x) := by
  constructor
  · obtain ⟨d', h1, h2⟩ := ext4bytes_put4bytes d cPosViewID (toIntW 32 x) (by decide)
    refine ⟨d', h1, ?_⟩
    unfold GetViewID
    rw [h2]
    show Except.ok (conv32 s (toIntW 32 (toIntW 32 x))) = _
    rw [conv32_toIntW s x hx]
  · obtain ⟨d', h1, h2⟩ := ext4bytes_put4bytes d cPosSessionID (toIntW 32 x) (by decide)
    refine ⟨d', h1, ?_⟩
    unfold GetSessionID
    rw [h2]
    show Except.ok (conv32 s (toIntW 32 (toIntW 32 x))) = _
    rw [conv32_toIntW s x hx]

theorem C8_identifier_round_trip_witness :
    inRange32 .unsigned 4294967295
    ∧ ((∃ d', PutViewID (init Encoded.zero) 4294967295 = .ok d'
          ∧ GetViewID .unsigned d' = .ok 4294967295)
      ∧ (∃ d', PutSessionID (init Encoded.zero) 4294967295 = .ok d'
          ∧ GetSessionID .unsigned d' = .ok 4294967295)) :=
  ⟨by show (0 : Int) ≤ 4294967295 ∧ (4294967295 : Int) < 4294967296; omega,
    C8_identifier_round_trip .unsigned (init Encoded.zero) 4294967295
      (by show (0 : Int) ≤ 4294967295 ∧ (4294967295 : Int) < 4294967296; omega)⟩

/-- The index of a writer call that returns.  On a buffer whose free offset is between 10
and 63 and whose ArgCount is c < 255, every PutArg call that returns an index other than
-1 returns exactly c and leaves ArgCount equal to c + 1, and every PutArg call that
returns -1 leaves ArgCount equal to c.  (Calls that panic are not covered.) -/
theorem PutArg_returned_index (d d' : Encoded) (op : PutOp) (idx : Int)
    (hlo : 10 ≤ freeOffset d) (hhi : freeOffset d ≤ 63) (hc : ArgCount d < 255)
    (h : PutArg d op = .ok (d', idx)) :
    (idx ≠ cBadIndex → idx = ArgCount d ∧ ArgCount d' = ArgCount d + 1)
    ∧ (idx = cBadIndex → ArgCount d' = ArgCount d) := by
  unfold ArgCount at hc
  rcases PutArg_ok_inv d d' op idx hlo hhi h with ⟨hb, hd⟩ | ⟨hi, hcnt, _⟩
  · exact ⟨fun hne => absurd hb hne, fun _ => by rw [hd]⟩
  · have hne : idx ≠ cBadIndex := hi ▸ ArgCount_ne_bad d
    refine ⟨fun _ => ⟨hi, ?_⟩, fun hb => absurd hb hne⟩
    unfold ArgCount
    rw [hcnt]
    omega

theorem PutArg_returned_index_example :
    10 ≤ freeOffset (init Encoded.zero) ∧ freeOffset (init Encoded.zero) ≤ 63
    ∧ ArgCount (init Encoded.zero) < 255
    ∧ PutArg (init Encoded.zero) (.string [103, 111])
        = .ok (bufOf (PutArg (init Encoded.zero) (.string [103, 111])), 0)
    ∧ ((0 : Int) ≠ cBadIndex → (0 : Int) = ArgCount (init Encoded.zero)
        ∧ ArgCount (bufOf (PutArg (init Encoded.zero) (.string [103, 111])))
          = ArgCount (init Encoded.zero) + 1)
    ∧ ((0 : Int) = cBadIndex →
        ArgCount (bufOf (PutArg (init Encoded.zero) (.string [103, 111])))
          = ArgCount (init Encoded.zero)) :=
  ⟨by decide, by decide, by decide, rfl,
    PutArg_returned_index (init Encoded.zero) _ (.string [103, 111]) 0 (by decide) (by decide)
      (by decide) rfl⟩

/-- C1 fails on the code: after init on the all-zero buffer, PutArgInt32(1) returns index 0
and PutArgInt32(2) returns index 1; the buffer is reachable; but GetArgInt32(1), with any
fuel, returns (1, true), the value of argument 0, not (2, true). -/
theorem C1_round_trip_violated :
    (runPuts (init Encoded.zero) [.int32 1, .int32 2]).map Prod.snd = .ok [0, 1]
    ∧ Reachable (bufOf (runPuts (init Encoded.zero) [.int32 1, .int32 2]))
    ∧ ∀ fuel, GetArgInt32 (fuel + 1) (bufOf (runPuts (init Encoded.zero) [.int32 1, .int32 2])) 1
        = .ok (1, true) := by
  refine ⟨by rfl, ?_, fun fuel => by rfl⟩
  exact Reachable.put (bufOf (PutArg (init Encoded.zero) (.int32 1))) _ (.int32 2) 1
    (Reachable.put (init Encoded.zero) _ (.int32 1) 0 Reachable.init (by decide) rfl (by decide))
    (by decide) rfl (by decide)

/-- C2 fails on the code: in the scenario init, PutArgInt32(-100) (index 0),
PutArgString("go") (index 1), both GetArgString(0) and GetArgString(1) return the 17 bytes
at offsets 18..34, that is "o" followed by sixteen zero bytes, with success true, and not
("go", true). -/
theorem C2_string_round_trip_violated :
    (runPuts (init Encoded.zero) [.int32 (-100), .string [103, 111]]).map Prod.snd
      = .ok [0, 1]
    ∧ (∀ fuel, GetArgString (fuel + 2)
        (bufOf (runPuts (init Encoded.zero) [.int32 (-100), .string [103, 111]])) 0
        = .ok (111 :: List.replicate 16 0, true))
    ∧ (∀ fuel, GetArgString (fuel + 2)
        (bufOf (runPuts (init Encoded.zero) [.int32 (-100), .string [103, 111]])) 1
        = .ok (111 :: List.replicate 16 0, true))
    ∧ (111 :: List.replicate 16 0 : List Byte) ≠ [103, 111] := by
  refine ⟨by rfl, fun fuel => by rfl, fun fuel => by rfl, by decide⟩

/-- C3 fails on the code: with A = int8, B = int16 the writes PutArgInt8(1), PutArgInt16(2),
PutArgInt8(3), PutArgInt16(4) on a freshly initialised all-zero buffer return 0, 1, 2, 3 and
GetArgInt8(0) returns (1, true), but GetArgInt8(1) returns (1, true) again and not
(3, true). -/
theorem C3_enumeration_violated :
    (runPuts (init Encoded.zero) [.int8 1, .int16 2, .int8 3, .int16 4]).map Prod.snd
      = .ok [0, 1, 2, 3]
    ∧ (∀ fuel, GetArgInt8 (fuel + 1)
        (bufOf (runPuts (init Encoded.zero) [.int8 1, .int16 2, .int8 3, .int16 4])) 0
        = .ok (1, true))
    ∧ (∀ fuel, GetArgInt8 (fuel + 1)
        (bufOf (runPuts (init Encoded.zero) [.int8 1, .int16 2, .int8 3, .int16 4])) 1
        = .ok (1, true)) := by
  refine ⟨by rfl, fun fuel => by rfl, fun fuel => by rfl⟩

set_option maxRecDepth 100000 in
/-- C5 fails on the code: on a freshly initialised all-zero buffer (free offset 10) a string
of 256 bytes does not fit, yet PutArgString returns index 0 and stores an empty string
(ArgCount 1, free offset 12, tag 20 at offset 10); and a string of 244 bytes passes the
capacity check, because the byte sum 10 + 246 wraps to 0, and the call panics with an index
out of range instead of returning -1. -/
theorem C5_oversized_string_not_rejected :
    (PutArgString (init Encoded.zero) (List.replicate 256 97)).map
        (fun r => (r.2, r.1.byteAt cPosArgsCount, freeOffset r.1, r.1.byteAt 10, r.1.byteAt 11))
      = .ok (0, 1, 12, 20, 0)
    ∧ PutArgString (init Encoded.zero) (List.replicate 244 97) = .error .indexOutOfRange := by
  refine ⟨by rfl, by rfl⟩

/-- C7 fails on the code: on the buffer that is zero except for ArgCount = 4, GetArgInt8(3)
panics with an index out of range (the skip loop feeds the error position 255 back into
argNextFromPos); and on the buffer the codec produces by init, three PutArgInt64 and
PutArgString("a"), GetArgString(0) panics as well. -/
theorem C7_reader_panics :
    (∀ fuel, GetArgInt8 fuel (Encoded.zero.set cPosArgsCount 4) 3 = .error .indexOutOfRange)
    ∧ (runPuts (init Encoded.zero) [.int64 1, .int64 2, .int64 3, .string [97]]).map Prod.snd
        = .ok [0, 1, 2, 3]
    ∧ (∀ fuel, GetArgString (fuel + 4)
        (bufOf (runPuts (init Encoded.zero) [.int64 1, .int64 2, .int64 3, .string [97]])) 0
        = .error .indexOutOfRange) := by
  refine ⟨fun fuel => by rfl, by rfl, fun fuel => by rfl⟩

theorem dropPanicState_loop (v : List Byte) (startPos : Nat) :
    ∀ (k i : Nat) (d : Encoded),
      putNbytesLoop v startPos k i d
        = (dropPanicState (putNbytesLoopSt v startPos k i d)).map Prod.fst := by
  intro k
  induction k with
  | zero => intro i d; rfl
  | succ k ih =>
    intro i d
    unfold putNbytesLoop putNbytesLoopSt
    cases hv : v[i]? with
    | none => rfl
    | some b =>
      simp only []
      cases hw : d.wr ((startPos + i) % 256) b.val with
      | error e => rfl
      | ok d1 =>
        simp only [bind, Except.bind]
        exact ih (i + 1) d1

/-- The two models of `PutArgString` agree on every call that returns, and panic
together. -/
theorem PutArgString_eq_St (d : Encoded) (v : List Byte) :
    PutArgString d v = dropPanicState (PutArgStringSt d v) := by
  unfold PutArgString PutArgStringSt
  by_cases hfree : argHaveFreeBytes d ((2 + v.length % 256) % 256) = true
  · simp only [hfree, Bool.not_true, Bool.false_eq_true, if_false]
    cases h1 : (d.set cPosArgsFree ((d.byteAt cPosArgsFree + (v.length % 256 + 2) % 256) % 256)).wr
        ((d.byteAt cPosArgsFree + 0) % 256) cArgTypeString with
    | error e => rfl
    | ok d2 =>
      simp only [bind, Except.bind]
      cases h2 : d2.wr ((d.byteAt cPosArgsFree + 1) % 256) (v.length % 256) with
      | error e => rfl
      | ok d3 =>
        simp only []
        unfold putNbytes
        rw [dropPanicState_loop]
        cases h3 : putNbytesLoopSt v ((d.byteAt cPosArgsFree + 2) % 256) (v.length % 256) 0 d3 with
        | mk d4 r =>
          cases r with
          | error e => rfl
          | ok u => rfl
  · simp only [hfree, Bool.not_false, if_true]
    rfl

theorem argGet_out_of_range (fuel : Nat) (d : Encoded) (i : Int) (t : Nat)
    (h : ArgCount d ≤ i) : argGet fuel d i t = .ok cPosErr := by
  unfold argGet
  rw [if_pos h]
  rfl

/-- C14: out-of-range index.  For every content of the 64-byte buffer, every typed reader
GetArg<T> and every index i >= ArgCount(), argGet returns the error position at once and
GetArg<T>(i) returns (zero value of T, false); this holds with any fuel, 0 included, so
the argument region is not scanned. -/
theorem C14_index_out_of_range (ty : ArgTy) (fuel : Nat) (d : Encoded) (i : Int)
    (h : ArgCount d ≤ i) :
    argGet fuel d i ty.tag = .ok cPosErr ∧ GetArg ty fuel d i = .ok (ty.zeroVal, false) := by
  refine ⟨argGet_out_of_range fuel d i _ h, ?_⟩
  cases ty <;>
    simp only [GetArg, GetArgInt, GetArgInt8, GetArgInt16, GetArgInt32, GetArgInt64, GetArgUint,
      GetArgUint8, GetArgUint16, GetArgUint32, GetArgUint64, GetArgFloat32, GetArgFloat64,
      GetArgString, argGet_out_of_range fuel d i _ h] <;> rfl

theorem C14_index_out_of_range_witness :
    ArgCount (bufOf (runPuts (init Encoded.zero) [.int8 1, .int8 2])) ≤ 2
    ∧ argGet 0 (bufOf (runPuts (init Encoded.zero) [.int8 1, .int8 2])) 2 ArgTy.int8.tag
        = .ok cPosErr
    ∧ GetArg .int8 0 (bufOf (runPuts (init Encoded.zero) [.int8 1, .int8 2])) 2
        = .ok (ArgTy.int8.zeroVal, false) :=
  ⟨by decide, C14_index_out_of_range .int8 0 _ 2 (by decide)⟩

theorem putNbytesLoopSt_frame (v : List Byte) (startPos : Nat) :
    ∀ (k i : Nat) (d : Encoded), startPos + i ≤ 64 →
      ∀ j : Fin 64, j.val < startPos + i → (putNbytesLoopSt v startPos k i d).1 j = d j := by
  intro k
  induction k with
  | zero => intro i d _ j _; rfl
  | succ k ih =>
    intro i d hi j hj
    unfold putNbytesLoopSt
    cases hv : v[i]? with
    | none => rfl
    | some b =>
      simp only []
      cases hw : d.wr ((startPos + i) % 256) b.val with
      | error e => rfl
      | ok d1 =>
        simp only []
        obtain ⟨hp, hd1⟩ := wr_ok_inv _ _ _ _ hw
        rw [ih (i + 1) d1 (by omega) j (by omega), hd1]
        exact set_apply_ne _ _ _ _ (Fin.ne_of_val_ne (by show j.val ≠ (startPos + i) % 256; omega))

/-- Whatever the outcome of `PutArgString`, the bytes below the free offset other than
bytes 8 and 9 are as before. -/
theorem PutArgStringSt_frame (d : Encoded) (v : List Byte)
    (hlo : 10 ≤ freeOffset d) (hhi : freeOffset d ≤ 63) :
    ∀ j : Fin 64, j.val ≠ 8 → j.val ≠ 9 → j.val < freeOffset d →
      (PutArgStringSt d v).1 j = d j := by
  intro j hj8 hj9 hj
  have hf9 : d.byteAt cPosArgsFree = freeOffset d := rfl
  unfold PutArgStringSt
  by_cases hfree : argHaveFreeBytes d ((2 + v.length % 256) % 256) = true
  · simp only [hfree, Bool.not_true, Bool.false_eq_true, if_false]
    rw [hf9]
    have e0 : (freeOffset d + 0) % 256 = freeOffset d := by omega
    rw [e0, wr_of_lt _ _ _ (by omega)]
    simp only []
    have hbase : ∀ x : Nat, ((d.set cPosArgsFree x).set ⟨freeOffset d, by omega⟩ cArgTypeString) j
        = d j := by
      intro x
      rw [set_apply_ne _ _ _ _ (Fin.ne_of_val_ne (by show j.val ≠ freeOffset d; omega)),
        set_apply_ne _ _ _ _ (Fin.ne_of_val_ne (by show j.val ≠ 9; omega))]
    cases h2 : ((d.set cPosArgsFree ((freeOffset d + (v.length % 256 + 2) % 256) % 256)).set
        ⟨freeOffset d, by omega⟩ cArgTypeString).wr ((freeOffset d + 1) % 256)
        (v.length % 256) with
    | error e => exact hbase _
    | ok d3 =>
      simp only []
      obtain ⟨hp, hd3⟩ := wr_ok_inv _ _ _ _ h2
      have hd3j : d3 j = d j := by
        rw [hd3, set_apply_ne _ _ _ _
          (Fin.ne_of_val_ne (by show j.val ≠ (freeOffset d + 1) % 256; omega))]
        exact hbase _
      have e2 : (freeOffset d + 2) % 256 = freeOffset d + 2 := by omega
      rw [e2]
      have hloop := putNbytesLoopSt_frame v (freeOffset d + 2) (v.length % 256) 0 d3 (by omega)
        j (by omega)
      cases h3 : putNbytesLoopSt v (freeOffset d + 2) (v.length % 256) 0 d3 with
      | mk d4 r =>
        rw [h3] at hloop
        cases r with
        | error e => exact hloop.trans hd3j
        | ok u =>
          show (argCountIncPostfix d4).1 j = d j
          unfold argCountIncPostfix
          show Encoded.set _ _ _ j = _
          rw [set_apply_ne _ _ _ _ (Fin.ne_of_val_ne (by show j.val ≠ 8; omega))]
          exact hloop.trans hd3j
  · simp only [hfree, Bool.not_false, if_true]

/-- C12: append-only argument region.  On a buffer whose free offset f is between 10 and
63, every PutArg call that returns (with an index or with -1, any type, any value)
leaves bytes 0..7 and bytes 10..f-1 unchanged; the fixed-width writers always return;
and PutArgString leaves those bytes unchanged in every outcome, also when it panics
(the bytes it writes before a panic are byte 9 and offsets f and above). -/
theorem C12_append_only (d : Encoded) (op : PutOp)
    (hlo : 10 ≤ freeOffset d) (hhi : freeOffset d ≤ 63) :
    (∀ d' idx, PutArg d op = .ok (d', idx) →
      ∀ j : Fin 64, j.val ≠ 8 → j.val ≠ 9 → j.val < freeOffset d → d' j = d j)
    ∧ (op.fixedWidth = true → ∃ d' idx, PutArg d op = .ok (d', idx))
    ∧ (∀ v, op = .string v →
        ∀ j : Fin 64, j.val ≠ 8 → j.val ≠ 9 → j.val < freeOffset d →
          (PutArgStringSt d v).1 j = d j) := by
  refine ⟨?_, fun hfix => PutArg_fixed_total d op hfix hlo (by omega),
    fun v _ => PutArgStringSt_frame d v hlo hhi⟩
  intro d' idx h j hj8 hj9 hj
  rcases PutArg_ok_inv d d' op idx hlo hhi h with ⟨_, hd⟩ | ⟨_, _, _, _, _, hframe⟩
  · rw [hd]
  · exact hframe j hj8 hj9 hj

theorem C12_append_only_witness :
    10 ≤ freeOffset (init Encoded.zero) ∧ freeOffset (init Encoded.zero) ≤ 63
    ∧ ((∀ d' idx, PutArg (init Encoded.zero) (.string (List.replicate 244 97)) = .ok (d', idx) →
        ∀ j : Fin 64, j.val ≠ 8 → j.val ≠ 9 → j.val < freeOffset (init Encoded.zero) →
          d' j = init Encoded.zero j)
      ∧ ((PutOp.string (List.replicate 244 97)).fixedWidth = true →
          ∃ d' idx, PutArg (init Encoded.zero) (.string (List.replicate 244 97)) = .ok (d', idx))
      ∧ (∀ v, PutOp.string (List.replicate 244 97) = .string v →
          ∀ j : Fin 64, j.val ≠ 8 → j.val ≠ 9 → j.val < freeOffset (init Encoded.zero) →
            (PutArgStringSt (init Encoded.zero) v).1 j = init Encoded.zero j)) :=
  ⟨by decide, by decide,
    C12_append_only (init Encoded.zero) (.string (List.replicate 244 97)) (by decide)
      (by decide)⟩

set_option maxRecDepth 100000 in
/-- C11 fails on the code: on a freshly initialised all-zero buffer (free offset 10)
PutArgString with a string of 244 bytes passes the capacity check, because the byte sum
10 + 246 wraps to 0, sets byte 9 to 0, writes the tag, the length and 52 content bytes at
offsets 10..63 and then panics with an index out of range: the free offset stored in
byte 9 after the call is 0, below 10. -/
theorem C11_free_offset_decreases :
    freeOffset (init Encoded.zero) = 10
    ∧ (PutArgStringSt (init Encoded.zero) (List.replicate 244 97)).2
        = .error .indexOutOfRange
    ∧ freeOffset (PutArgStringSt (init Encoded.zero) (List.replicate 244 97)).1 = 0
    ∧ (PutArgStringSt (init Encoded.zero) (List.replicate 244 97)).1.byteAt 10 = 20
    ∧ (PutArgStringSt (init Encoded.zero) (List.replicate 244 97)).1.byteAt 11 = 244
    ∧ (PutArgStringSt (init Encoded.zero) (List.replicate 244 97)).1.byteAt 63 = 97 := by
  refine ⟨by rfl, by rfl, by rfl, by rfl, by rfl, by rfl⟩

/-- C13 fails on the code: on the buffer produced by init and PutArgUint32(7), which
holds no int32 argument, GetArgInt32 with the least index -2^63 panics with an index out
of range instead of returning (0, false): `argIdx--` wraps to 2^63 - 1 and the skip loop
runs past the stored argument.  With index 0 the same reader returns (0, false), and so
does GetArgString(0). -/
theorem C13_absent_type_panics :
    (runPuts (init Encoded.zero) [.uint32 7]).map Prod.snd = .ok [0]
    ∧ (∀ fuel, GetArg .int32 fuel (bufOf (runPuts (init Encoded.zero) [.uint32 7]))
        (-9223372036854775808) = .error .indexOutOfRange)
    ∧ (∀ fuel, GetArg .int32 (fuel + 2) (bufOf (runPuts (init Encoded.zero) [.uint32 7])) 0
        = .ok (.int 0, false))
    ∧ (∀ fuel, GetArg .string (fuel + 2) (bufOf (runPuts (init Encoded.zero) [.uint32 7])) 0
        = .ok (.str [], false)) := by
  refine ⟨by rfl, fun fuel => by rfl, fun fuel => by rfl, fun fuel => by rfl⟩

/-- C15 fails on the code: on the buffer that is zero except for ArgCount = 4 and free
offset 10, the walk of GetArgUint16(3) meets the unknown tag 0 at offset 10 in the skip
phase and the call panics with an index out of range instead of returning (0, false).
When the unknown tag is met by the last skip step, as in GetArgUint16(2), the call does
return (0, false). -/
theorem C15_unknown_tag_panics :
    ArgCount ((init Encoded.zero).set cPosArgsCount 4) = 4
    ∧ freeOffset ((init Encoded.zero).set cPosArgsCount 4) = 10
    ∧ argNextFromPos ((init Encoded.zero).set cPosArgsCount 4) 10 = .ok cPosErr
    ∧ (∀ fuel, GetArg .uint16 fuel ((init Encoded.zero).set cPosArgsCount 4) 3
        = .error .indexOutOfRange)
    ∧ (∀ fuel, GetArg .uint16 (fuel + 1) ((init Encoded.zero).set cPosArgsCount 4) 2
        = .ok (.uint 0, false)) := by
  refine ⟨by rfl, by rfl, by rfl, fun fuel => by rfl, fun fuel => by rfl⟩

/-- C16 fails on the code: for the buffer produced by init, PutArgInt8(1), PutArgInt8(2)
the dump has six nodes and node 4+1 repeats node 4: Pos = PosType = 10 and Value = int8 1,
while argument 1 has its tag at offset 12 and the value 2 (the loop of dump never
advances pos). -/
theorem C16_dump_repeats_first_argument :
    (runPuts (init Encoded.zero) [.int8 1, .int8 2]).map Prod.snd = .ok [0, 1]
    ∧ (bufOf (runPuts (init Encoded.zero) [.int8 1, .int8 2])).byteAt 12 = cArgTypeInt8
    ∧ (bufOf (runPuts (init Encoded.zero) [.int8 1, .int8 2])).byteAt 13 = 2
    ∧ (dump .signed .signed (bufOf (runPuts (init Encoded.zero) [.int8 1, .int8 2]))).map
        (fun l => l.map fun n => (n.Pos, n.PosType, n.PosContent, n.TypeHeader, n.Value))
      = .ok [(0, 0, 0, 0, .viewID 0), (4, 0, 0, 0, .sessionID 0), (8, 0, 0, 0, .int 2),
          (9, 0, 0, 0, .uint8 14), (10, 10, 11, 10, .int8 1), (10, 10, 11, 10, .int8 1)] := by
  refine ⟨by rfl, by rfl, by rfl, by rfl⟩

/-- C17 fails on the code: for the buffer produced by init, PutArgInt32(7), PutArgInt16(8),
PutArgString("s"), PutArgInt8(1), PutArgInt8(2) (tags at offsets 10, 15, 18, 21, 23)
argGet(0, int32) = 11 and argGet(0, string) = 19 are the positions after the tags of
arguments 0 and 2, but argGet(4, int8) = 22 is the content position of argument 3, not
24, and GetArgInt8(4) returns (1, true), the value of the fourth argument. -/
theorem C17_documented_example_violated :
    (runPuts (init Encoded.zero) [.int32 7, .int16 8, .string [115], .int8 1, .int8 2]).map
        (fun r => (r.2, (r.1.toList.drop 10).take 15))
      = .ok ([0, 1, 2, 3, 4], [12, 7, 0, 0, 0, 11, 8, 0, 20, 1, 115, 10, 1, 10, 2])
    ∧ (∀ fuel, argGet (fuel + 1) (bufOf (runPuts (init Encoded.zero)
        [.int32 7, .int16 8, .string [115], .int8 1, .int8 2])) 0 cArgTypeInt32 = .ok 11)
    ∧ (∀ fuel, argGet (fuel + 3) (bufOf (runPuts (init Encoded.zero)
        [.int32 7, .int16 8, .string [115], .int8 1, .int8 2])) 0 cArgTypeString = .ok 19)
    ∧ (∀ fuel, argGet (fuel + 1) (bufOf (runPuts (init Encoded.zero)
        [.int32 7, .int16 8, .string [115], .int8 1, .int8 2])) 4 cArgTypeInt8 = .ok 22)
    ∧ (∀ fuel, GetArgInt8 (fuel + 1) (bufOf (runPuts (init Encoded.zero)
        [.int32 7, .int16 8, .string [115], .int8 1, .int8 2])) 4 = .ok (1, true)) := by
  refine ⟨by rfl, fun fuel => by rfl, fun fuel => by rfl, fun fuel => by rfl,
    fun fuel => by rfl⟩

theorem bytes_of_put2 (x : Int) (k : Nat) (hk : k < 2) :
    toByte (sar x (8 * k)) = toUnsigned 16 x / 2 ^ (8 * k) % 256 := by
  interval_cases k <;> (rw [toByte_shift]; unfold toUnsigned; norm_num; omega)

theorem bytes_of_put4 (x : Int) (k : Nat) (hk : k < 4) :
    toByte (sar x (8 * k)) = toUnsigned 32 x / 2 ^ (8 * k) % 256 := by
  interval_cases k <;> (rw [toByte_shift]; unfold toUnsigned; norm_num; omega)

theorem bytes_of_put8 (x : Int) (k : Nat) (hk : k < 8) :
    toByte (sar x (8 * k)) = toUnsigned 64 x / 2 ^ (8 * k) % 256 := by
  interval_cases k <;> (rw [toByte_shift]; unfold toUnsigned; norm_num; omega)

theorem put1byte_read (d : Encoded) (p : Nat) (x : Int) (h : p + 1 ≤ 64) :
    ∃ d1, put1byte d p x = .ok d1 ∧ ∀ k, k < 1 → d1.rd (p + k) = .ok (toUnsigned 8 x / 2 ^ (8 * k) % 256) := by
  refine ⟨_, put1byte_eq d p x h, ?_⟩
  intro k hk
  have hx := toUnsigned_lt 8 x
  interval_cases k
  rw [rd_of_lt _ _ (by omega)]
  simp only [byteAt_set]
  simp [toByte, Nat.mod_eq_of_lt hx]

theorem put2bytes_read (d : Encoded) (p : Nat) (x : Int) (h : p + 2 ≤ 64) :
    ∃ d1, put2bytes d p x = .ok d1 ∧ ∀ k, k < 2 → d1.rd (p + k) = .ok (toUnsigned 16 x / 2 ^ (8 * k) % 256) := by
  refine ⟨_, put2bytes_eq d p x h, ?_⟩
  intro k hk
  rw [← bytes_of_put2 x k hk]
  have t0 := toByte_lt (sar x 0)
  have t1 := toByte_lt (sar x 8)
  interval_cases k <;> rw [rd_of_lt _ _ (by omega)] <;>
    simp [byteAt_set, Nat.mod_eq_of_lt t0, Nat.mod_eq_of_lt t1]

theorem put4bytes_read (d : Encoded) (p : Nat) (x : Int) (h : p + 4 ≤ 64) :
    ∃ d1, put4bytes d p x = .ok d1 ∧ ∀ k, k < 4 → d1.rd (p + k) = .ok (toUnsigned 32 x / 2 ^ (8 * k) % 256) := by
  refine ⟨_, put4bytes_eq d p x h, ?_⟩
  intro k hk
  rw [← bytes_of_put4 x k hk]
  have t0 := toByte_lt (sar x 0)
  have t1 := toByte_lt (sar x 8)
  have t2 := toByte_lt (sar x 16)
  have t3 := toByte_lt (sar x 24)
  interval_cases k <;> rw [rd_of_lt _ _ (by omega)] <;>
    simp [byteAt_set, Nat.mod_eq_of_lt t0, Nat.mod_eq_of_lt t1, Nat.mod_eq_of_lt t2,
      Nat.mod_eq_of_lt t3]

theorem put8bytes_read (d : Encoded) (p : Nat) (x : Int) (h : p + 8 ≤ 64) :
    ∃ d1, put8bytes d p x = .ok d1 ∧ ∀ k, k < 8 → d1.rd (p + k) = .ok (toUnsigned 64 x / 2 ^ (8 * k) % 256) := by
  refine ⟨_, put8bytes_eq d p x h, ?_⟩
  intro k hk
  rw [← bytes_of_put8 x k hk]
  have t0 := toByte_lt (sar x 0)
  have t1 := toByte_lt (sar x 8)
  have t2 := toByte_lt (sar x 16)
  have t3 := toByte_lt (sar x 24)
  have t4 := toByte_lt (sar x 32)
  have t5 := toByte_lt (sar x 40)
  have t6 := toByte_lt (sar x 48)
  have t7 := toByte_lt (sar x 56)
  interval_cases k <;> rw [rd_of_lt _ _ (by omega)] <;>
    simp [byteAt_set, Nat.mod_eq_of_lt t0, Nat.mod_eq_of_lt t1, Nat.mod_eq_of_lt t2,
      Nat.mod_eq_of_lt t3, Nat.mod_eq_of_lt t4, Nat.mod_eq_of_lt t5, Nat.mod_eq_of_lt t6,
      Nat.mod_eq_of_lt t7]

theorem toUnsigned_toIntW32 (x : Int) : toUnsigned 32 (toIntW 32 x) = toUnsigned 32 x := by
  unfold toIntW toSigned toUnsigned
  norm_num
  split <;> omega

theorem toUnsigned_toSigned8 (v : Nat) : toUnsigned 8 (toSigned 8 v) = v % 2 ^ 8 := by
  unfold toSigned toUnsigned
  norm_num
  split <;> omega

theorem toUnsigned_toSigned16 (v : Nat) : toUnsigned 16 (toSigned 16 v) = v % 2 ^ 16 := by
  unfold toSigned toUnsigned
  norm_num
  split <;> omega

theorem toUnsigned_toSigned32 (v : Nat) : toUnsigned 32 (toSigned 32 v) = v % 2 ^ 32 := by
  unfold toSigned toUnsigned
  norm_num
  split <;> omega

theorem toUnsigned_toSigned64 (v : Nat) : toUnsigned 64 (toSigned 64 v) = v % 2 ^ 64 := by
  unfold toSigned toUnsigned
  norm_num
  split <;> omega

/-- C18: little-endian wire layout.  For every buffer, every offset p with p + 4 <= 64 and
every 32-bit value x, put4bytes(p, x) returns and afterwards byte p+k holds bits 8k..8k+7
of x (of its two's-complement pattern) for k = 0..3; after PutViewID(x) that holds for
bytes 0..3 and after PutSessionID(x) for bytes 4..7; likewise put2bytes stores the two
bytes of a 16-bit value and put8bytes (when p + 8 <= 64) the eight bytes of a 64-bit
value with the least significant byte at the lowest offset. -/
theorem C18_little_endian (d : Encoded) (p : Nat) (x : Int) (hp : p + 4 ≤ 64) :
    (∃ d', put4bytes d p x = .ok d'
      ∧ ∀ k, k < 4 → d'.rd (p + k) = .ok (toUnsigned 32 x / 2 ^ (8 * k) % 256))
    ∧ (∃ d', PutViewID d x = .ok d'
      ∧ ∀ k, k < 4 → d'.rd (0 + k) = .ok (toUnsigned 32 x / 2 ^ (8 * k) % 256))
    ∧ (∃ d', PutSessionID d x = .ok d'
      ∧ ∀ k, k < 4 → d'.rd (4 + k) = .ok (toUnsigned 32 x / 2 ^ (8 * k) % 256))
    ∧ (∃ d', put2bytes d p x = .ok d'
      ∧ ∀ k, k < 2 → d'.rd (p + k) = .ok (toUnsigned 16 x / 2 ^ (8 * k) % 256))
    ∧ (p + 8 ≤ 64 → ∃ d', put8bytes d p x = .ok d'
      ∧ ∀ k, k < 8 → d'.rd (p + k) = .ok (toUnsigned 64 x / 2 ^ (8 * k) % 256)) := by
  refine ⟨put4bytes_read d p x hp, ?_, ?_, put2bytes_read d p x (by omega),
    fun h8 => put8bytes_read d p x h8⟩
  · have h := put4bytes_read d cPosViewID (toIntW 32 x) (by decide)
    rw [toUnsigned_toIntW32] at h
    exact h
  · have h := put4bytes_read d cPosSessionID (toIntW 32 x) (by decide)
    rw [toUnsigned_toIntW32] at h
    exact h

theorem C18_little_endian_witness :
    11 + 4 ≤ 64
    ∧ ((∃ d', put4bytes (init Encoded.zero) 11 (-100) = .ok d'
        ∧ ∀ k, k < 4 → d'.rd (11 + k) = .ok (toUnsigned 32 (-100) / 2 ^ (8 * k) % 256))
      ∧ (∃ d', PutViewID (init Encoded.zero) (-100) = .ok d'
        ∧ ∀ k, k < 4 → d'.rd (0 + k) = .ok (toUnsigned 32 (-100) / 2 ^ (8 * k) % 256))
      ∧ (∃ d', PutSessionID (init Encoded.zero) (-100) = .ok d'
        ∧ ∀ k, k < 4 → d'.rd (4 + k) = .ok (toUnsigned 32 (-100) / 2 ^ (8 * k) % 256))
      ∧ (∃ d', put2bytes (init Encoded.zero) 11 (-100) = .ok d'
        ∧ ∀ k, k < 2 → d'.rd (11 + k) = .ok (toUnsigned 16 (-100) / 2 ^ (8 * k) % 256))
      ∧ (11 + 8 ≤ 64 → ∃ d', put8bytes (init Encoded.zero) 11 (-100) = .ok d'
        ∧ ∀ k, k < 8 → d'.rd (11 + k) = .ok (toUnsigned 64 (-100) / 2 ^ (8 * k) % 256))) :=
  ⟨by decide, C18_little_endian (init Encoded.zero) 11 (-100) (by decide)⟩

/-- The payload bytes a fixed-width writer stores are the little-endian bytes of its
value. -/
theorem payload_read (op : PutOp) (hfix : op.fixedWidth = true) (d : Encoded) (p : Nat)
    (hp : p + argNeedForType op.tag ≤ 65) :
    ∃ d1, op.payload d p = .ok d1 ∧
      ∀ k, k + 1 < argNeedForType op.tag →
        d1.rd (p + k) = .ok (op.pattern / 2 ^ (8 * k) % 256) := by
  obtain ⟨n1, n2, n3, n4, n5, n6, n7, n8, n9, n10, _⟩ := argNeedForType_tags
  cases op <;> simp only [PutOp.tag, PutOp.pattern, n1, n2, n3, n4, n5, n6, n7, n8, n9, n10]
    at hp ⊢
  case string v => cases hfix
  case int v =>
    have h := put4bytes_read d p (toIntW 32 v) (by omega)
    rw [toUnsigned_toIntW32] at h
    exact h.imp (fun d1 h => ⟨h.1, fun k hk => h.2 k (by omega)⟩)
  case int8 v =>
    have h := put1byte_read d p (v) (by omega)
    exact h.imp (fun d1 h => ⟨h.1, fun k hk => h.2 k (by omega)⟩)
  case int16 v =>
    have h := put2bytes_read d p (v) (by omega)
    exact h.imp (fun d1 h => ⟨h.1, fun k hk => h.2 k (by omega)⟩)
  case int32 v =>
    have h := put4bytes_read d p (v) (by omega)
    exact h.imp (fun d1 h => ⟨h.1, fun k hk => h.2 k (by omega)⟩)
  case int64 v =>
    have h := put8bytes_read d p (v) (by omega)
    exact h.imp (fun d1 h => ⟨h.1, fun k hk => h.2 k (by omega)⟩)
  case uint v =>
    have h := put4bytes_read d p (toSigned 32 (v % 2 ^ 32)) (by omega)
    rw [toUnsigned_toSigned32, Nat.mod_mod] at h
    exact h.imp (fun d1 h => ⟨h.1, fun k hk => h.2 k (by omega)⟩)
  case uint8 v =>
    have h := put1byte_read d p (toSigned 8 v) (by omega)
    rw [toUnsigned_toSigned8] at h
    exact h.imp (fun d1 h => ⟨h.1, fun k hk => h.2 k (by omega)⟩)
  case uint16 v =>
    have h := put2bytes_read d p (toSigned 16 v) (by omega)
    rw [toUnsigned_toSigned16] at h
    exact h.imp (fun d1 h => ⟨h.1, fun k hk => h.2 k (by omega)⟩)
  case uint32 v =>
    have h := put4bytes_read d p (toSigned 32 v) (by omega)
    rw [toUnsigned_toSigned32] at h
    exact h.imp (fun d1 h => ⟨h.1, fun k hk => h.2 k (by omega)⟩)
  case uint64 v =>
    have h := put8bytes_read d p (toSigned 64 v) (by omega)
    rw [toUnsigned_toSigned64] at h
    exact h.imp (fun d1 h => ⟨h.1, fun k hk => h.2 k (by omega)⟩)
  case float32 v =>
    have h := put4bytes_read d p (toSigned 32 v) (by omega)
    rw [toUnsigned_toSigned32] at h
    exact h.imp (fun d1 h => ⟨h.1, fun k hk => h.2 k (by omega)⟩)
  case float64 v =>
    have h := put8bytes_read d p (toSigned 64 v) (by omega)
    rw [toUnsigned_toSigned64] at h
    exact h.imp (fun d1 h => ⟨h.1, fun k hk => h.2 k (by omega)⟩)

theorem rd_set_ne (d : Encoded) (i : Fin 64) (b p : Nat) (h : p ≠ i.val) :
    (d.set i b).rd p = d.rd p := by
  by_cases hp : p < 64
  · rw [rd_of_lt _ _ hp, rd_of_lt _ _ hp, byteAt_set,
      if_neg (Fin.ne_of_val_ne (by show p ≠ i.val; exact h))]
  · rw [rd_of_ge _ _ (by omega), rd_of_ge _ _ (by omega)]

theorem argNeedForType_other (tag : Nat) (h : tag < 10 ∨ 19 < tag) :
    argNeedForType tag = 63 := by
  unfold argNeedForType cArgTypeInt8 cArgTypeUint8 cArgTypeInt16 cArgTypeUint16 cArgTypeInt32
    cArgTypeUint32 cArgTypeFloat32 cArgTypeInt64 cArgTypeUint64 cArgTypeFloat64 cPosMax
  rw [if_neg (by omega), if_neg (by omega), if_neg (by omega), if_neg (by omega)]

theorem argReserveForType_other (d : Encoded) (tag : Nat) (h : tag < 10 ∨ 19 < tag) :
    argReserveForType d tag = .ok (d, cPosErr) := by
  unfold argReserveForType
  rw [argNeedForType_other tag h]
  rfl

/-- What a fixed-width writer that returns an index other than -1 stores, with the width
taken from `argNeedForType`: the tag at the old free offset f, the little-endian payload
behind it, and the new free offset; and for every tag outside 10..19 argNeedForType
returns 63 and argReserveForType returns the error position, leaving the buffer as it
was. -/
theorem PutArg_fixed_layout (d d' : Encoded) (op : PutOp) (idx : Int)
    (hfix : op.fixedWidth = true) (hlo : 10 ≤ freeOffset d) (hhi : freeOffset d ≤ 63)
    (h : PutArg d op = .ok (d', idx)) (hidx : idx ≠ cBadIndex) :
    (argNeedForType op.tag = 2 ∨ argNeedForType op.tag = 3 ∨ argNeedForType op.tag = 5
      ∨ argNeedForType op.tag = 9)
    ∧ d'.rd (freeOffset d) = .ok op.tag
    ∧ (∀ k, k + 1 < argNeedForType op.tag →
        d'.rd (freeOffset d + 1 + k) = .ok (op.pattern / 2 ^ (8 * k) % 256))
    ∧ freeOffset d' = freeOffset d + argNeedForType op.tag
    ∧ (∀ tag, tag < 10 ∨ 19 < tag →
        argNeedForType tag = 63 ∧ argReserveForType d tag = .ok (d, cPosErr)) := by
  have hw := argNeedForType_fixed op hfix
  have hfit : freeOffset d + argNeedForType op.tag ≤ 63 := by
    by_contra hc
    rw [PutArg_fixed_fail d op hfix (by omega) (by omega)] at h
    exact hidx (congrArg Prod.snd (Except.ok.inj h)).symm
  obtain ⟨d2, h1, _, h3, h4, _⟩ := PutArg_fixed_ok d op hfix hlo hfit
  have hd2 : d2 = d' := by
    rw [h1] at h
    exact congrArg Prod.fst (Except.ok.inj h)
  subst hd2
  refine ⟨hw, ?_, ?_, h3, fun tag ht => ⟨argNeedForType_other tag ht,
    argReserveForType_other d tag ht⟩⟩
  · rw [rd_of_lt _ _ (by omega), h4]
  · obtain ⟨d1, hd1, hread⟩ := payload_read op hfix
      ((d.set ⟨freeOffset d, by omega⟩ op.tag).set cPosArgsFree
        (freeOffset d + argNeedForType op.tag)) (freeOffset d + 1) (by omega)
    have h5 := putFixed_ok d d1 op.tag op.payload (by omega) hfit hd1
    rw [PutArg_eq_putFixed d op hfix, h5] at h1
    have hd : (argCountIncPostfix d1).1 = d2 := congrArg Prod.fst (Except.ok.inj h1)
    intro k hk
    rw [← hd]
    unfold argCountIncPostfix
    show Encoded.rd (Encoded.set _ _ _) _ = _
    rw [rd_set_ne _ _ _ _ (by show freeOffset d + 1 + k ≠ 8; omega)]
    exact hread k hk

/-- A run of the `putNbytes` loop that has room for all its bytes returns, stores the
bytes in order and leaves the bytes below its first position alone. -/
theorem putNbytesLoop_ok (v : List Byte) (startPos : Nat) :
    ∀ (k i : Nat) (d : Encoded), i + k ≤ v.length → startPos + i + k ≤ 64 →
      ∃ d', putNbytesLoop v startPos k i d = .ok d'
        ∧ (∀ j : Fin 64, j.val < startPos + i → d' j = d j)
        ∧ (∀ m b, m < k → v[i + m]? = some b → d'.rd (startPos + i + m) = .ok b.val) := by
  intro k
  induction k with
  | zero =>
    intro i d _ _
    exact ⟨d, rfl, fun _ _ => rfl, fun m b hm _ => absurd hm (Nat.not_lt_zero m)⟩
  | succ k ih =>
    intro i d hlen hfit
    have hi : i < v.length := by omega
    unfold putNbytesLoop
    rw [List.getElem?_eq_getElem hi]
    simp only []
    have e : (startPos + i) % 256 = startPos + i := by omega
    rw [e, wr_of_lt _ _ _ (by omega)]
    simp only [bind, Except.bind]
    obtain ⟨d', h1, h2, h3⟩ := ih (i + 1)
      (d.set ⟨startPos + i, by omega⟩ (v[i]).val) (by omega) (by omega)
    refine ⟨d', h1, ?_, ?_⟩
    · intro j hj
      rw [h2 j (by omega)]
      exact set_apply_ne _ _ _ _ (Fin.ne_of_val_ne (by show j.val ≠ startPos + i; omega))
    · intro m b hm hb
      cases m with
      | zero =>
        rw [Nat.add_zero] at hb ⊢
        rw [List.getElem?_eq_getElem hi] at hb
        have hb2 : v[i] = b := Option.some.inj hb
        rw [rd_of_lt _ _ (by omega)]
        have := h2 ⟨startPos + i, by omega⟩ (by show startPos + i < startPos + (i + 1); omega)
        have h4 : d'.byteAt ⟨startPos + i, by omega⟩ = _ := congrArg Fin.val this
        rw [h4]
        show Except.ok (Encoded.byteAt _ _) = _
        rw [byteAt_set, if_pos rfl, hb2, Nat.mod_eq_of_lt b.isLt]
      | succ m =>
        have e2 : i + (m + 1) = i + 1 + m := by omega
        have e3 : startPos + i + (m + 1) = startPos + (i + 1) + m := by omega
        rw [e2] at hb
        rw [e3]
        exact h3 m b (by omega) hb

/-- C20: stored form of a string argument.  On a buffer whose free offset f is between 10
and 63, for every string s with f + 2 + len(s) <= 63, PutArgString(s) returns the index
ArgCount() (which is not -1), and afterwards byte f is the string tag 20, byte f+1 is
len(s), bytes f+2..f+1+len(s) are the bytes of s in order, and the free offset is exactly
f + 2 + len(s). -/
theorem C20_string_stored_form (d : Encoded) (s : List Byte)
    (hlo : 10 ≤ freeOffset d) (hhi : freeOffset d ≤ 63)
    (hfit : freeOffset d + 2 + s.length ≤ 63) :
    ∃ d', PutArgString d s = .ok (d', ArgCount d)
      ∧ ArgCount d ≠ cBadIndex
      ∧ d'.rd (freeOffset d) = .ok cArgTypeString
      ∧ d'.rd (freeOffset d + 1) = .ok s.length
      ∧ (∀ k b, s[k]? = some b → d'.rd (freeOffset d + 2 + k) = .ok b.val)
      ∧ freeOffset d' = freeOffset d + 2 + s.length := by
  have hf9 : d.byteAt cPosArgsFree = freeOffset d := rfl
  have hL : s.length % 256 = s.length := Nat.mod_eq_of_lt (by omega)
  have hfree : argHaveFreeBytes d ((2 + s.length % 256) % 256) = true := by
    unfold argHaveFreeBytes cPosMax
    rw [hf9, hL]
    exact decide_eq_true (by omega)
  have e0 : (freeOffset d + 0) % 256 = freeOffset d := by omega
  have e1 : (freeOffset d + 1) % 256 = freeOffset d + 1 := by omega
  have e2 : (freeOffset d + 2) % 256 = freeOffset d + 2 := by omega
  have e3 : (freeOffset d + (s.length + 2) % 256) % 256 = freeOffset d + 2 + s.length := by
    omega
  obtain ⟨d3, hd3, hframe, hread⟩ := putNbytesLoop_ok s (freeOffset d + 2) s.length 0
    (((d.set cPosArgsFree (freeOffset d + 2 + s.length)).set ⟨freeOffset d, by omega⟩
      cArgTypeString).set ⟨freeOffset d + 1, by omega⟩ s.length) (by omega) (by omega)
  have hput : PutArgString d s = .ok (argCountIncPostfix d3) := by
    unfold PutArgString
    simp only [hfree, Bool.not_true, Bool.false_eq_true, if_false]
    rw [hf9, hL, e0, e1, e2, e3, wr_of_lt _ _ _ (by omega)]
    simp only [bind, Except.bind]
    rw [wr_of_lt _ _ _ (by omega)]
    simp only []
    unfold putNbytes
    simp only [hL, hd3]
    rfl
  -- the header bytes of the buffer the loop returns
  have h8 : d3.byteAt cPosArgsCount = d.byteAt cPosArgsCount := by
    have := hframe cPosArgsCount (by show 8 < freeOffset d + 2 + 0; omega)
    have h2 : d3.byteAt cPosArgsCount = _ := congrArg Fin.val this
    rw [h2]
    show Encoded.byteAt _ _ = _
    rw [byteAt_set, if_neg (Fin.ne_of_val_ne (by show 8 ≠ freeOffset d + 1; omega)),
      byteAt_set, if_neg (Fin.ne_of_val_ne (by show 8 ≠ freeOffset d; omega)),
      byteAt_set, if_neg (by decide)]
  have h9 : d3.byteAt cPosArgsFree = freeOffset d + 2 + s.length := by
    have := hframe cPosArgsFree (by show 9 < freeOffset d + 2 + 0; omega)
    have h2 : d3.byteAt cPosArgsFree = _ := congrArg Fin.val this
    rw [h2]
    show Encoded.byteAt _ _ = _
    rw [byteAt_set, if_neg (Fin.ne_of_val_ne (by show 9 ≠ freeOffset d + 1; omega)),
      byteAt_set, if_neg (Fin.ne_of_val_ne (by show 9 ≠ freeOffset d; omega)),
      byteAt_set, if_pos rfl]
    exact Nat.mod_eq_of_lt (by omega)
  have hf : d3.byteAt ⟨freeOffset d, by omega⟩ = cArgTypeString := by
    have := hframe ⟨freeOffset d, by omega⟩ (by show freeOffset d < freeOffset d + 2 + 0; omega)
    have h2 : d3.byteAt ⟨freeOffset d, by omega⟩ = _ := congrArg Fin.val this
    rw [h2]
    show Encoded.byteAt _ _ = _
    rw [byteAt_set,
      if_neg (Fin.ne_of_val_ne (by show freeOffset d ≠ freeOffset d + 1; omega)),
      byteAt_set, if_pos rfl]
    rfl
  have hf1 : d3.byteAt ⟨freeOffset d + 1, by omega⟩ = s.length := by
    have := hframe ⟨freeOffset d + 1, by omega⟩
      (by show freeOffset d + 1 < freeOffset d + 2 + 0; omega)
    have h2 : d3.byteAt ⟨freeOffset d + 1, by omega⟩ = _ := congrArg Fin.val this
    rw [h2]
    show Encoded.byteAt _ _ = _
    rw [byteAt_set, if_pos rfl]
    exact Nat.mod_eq_of_lt (by omega)
  refine ⟨(argCountIncPostfix d3).1, ?_, ArgCount_ne_bad d, ?_, ?_, ?_, ?_⟩
  · rw [hput]
    unfold argCountIncPostfix ArgCount
    rw [h8]
  · unfold argCountIncPostfix
    show Encoded.rd (Encoded.set _ _ _) _ = _
    rw [rd_set_ne _ _ _ _ (by show freeOffset d ≠ 8; omega), rd_of_lt _ _ (by omega), hf]
  · unfold argCountIncPostfix
    show Encoded.rd (Encoded.set _ _ _) _ = _
    rw [rd_set_ne _ _ _ _ (by show freeOffset d + 1 ≠ 8; omega), rd_of_lt _ _ (by omega), hf1]
  · intro k b hb
    have hk : k < s.length := by
      by_contra hc
      rw [List.getElem?_eq_none (by omega)] at hb
      cases hb
    unfold argCountIncPostfix
    show Encoded.rd (Encoded.set _ _ _) _ = _
    rw [rd_set_ne _ _ _ _ (by show freeOffset d + 2 + k ≠ 8; omega)]
    have := hread k b hk (by rw [Nat.zero_add]; exact hb)
    rw [Nat.add_zero] at this
    exact this
  · unfold argCountIncPostfix
    show Encoded.byteAt _ cPosArgsFree = _
    rw [byteAt_set, if_neg (by decide), h9]

theorem C20_string_stored_form_witness :
    10 ≤ freeOffset (init Encoded.zero) ∧ freeOffset (init Encoded.zero) ≤ 63
    ∧ freeOffset (init Encoded.zero) + 2 + ([103, 111] : List Byte).length ≤ 63
    ∧ ∃ d', PutArgString (init Encoded.zero) [103, 111] = .ok (d', ArgCount (init Encoded.zero))
      ∧ ArgCount (init Encoded.zero) ≠ cBadIndex
      ∧ d'.rd (freeOffset (init Encoded.zero)) = .ok cArgTypeString
      ∧ d'.rd (freeOffset (init Encoded.zero) + 1) = .ok ([103, 111] : List Byte).length
      ∧ (∀ k b, ([103, 111] : List Byte)[k]? = some b →
          d'.rd (freeOffset (init Encoded.zero) + 2 + k) = .ok b.val)
      ∧ freeOffset d' = freeOffset (init Encoded.zero) + 2 + ([103, 111] : List Byte).length :=
  ⟨by decide, by decide, by decide,
    C20_string_stored_form (init Encoded.zero) [103, 111] (by decide) (by decide) (by decide)⟩

/-- C23: effect of init.  For every content of the 64-byte buffer, init sets byte 9
(ArgsFreeOffset) to 10 and leaves every other byte unchanged, in particular ViewID,
SessionID, ArgCount (byte 8) and all argument bytes. -/
theorem C23_init_effect (d : Encoded) :
    freeOffset (init d) = 10
    ∧ (∀ j : Fin 64, j ≠ cPosArgsFree → init d j = d j)
    ∧ ArgCount (init d) = ArgCount d
    ∧ (∀ s, GetViewID s (init d) = GetViewID s d)
    ∧ (∀ s, GetSessionID s (init d) = GetSessionID s d) := by
  have hframe : ∀ j : Fin 64, j ≠ cPosArgsFree → init d j = d j := by
    intro j hj
    unfold init
    exact set_apply_ne _ _ _ _ hj
  have hb : ∀ j : Fin 64, j ≠ cPosArgsFree → (init d).byteAt j = d.byteAt j :=
    fun j hj => congrArg Fin.val (hframe j hj)
  refine ⟨freeOffset_init d, hframe, ?_, ?_, ?_⟩
  · unfold ArgCount
    rw [hb cPosArgsCount (by decide)]
  · intro s
    unfold GetViewID
    rw [ext4bytes_eq _ cPosViewID (by decide), ext4bytes_eq _ cPosViewID (by decide)]
    rw [hb ⟨cPosViewID, _⟩ (by decide), hb ⟨cPosViewID + 1, _⟩ (by decide),
      hb ⟨cPosViewID + 2, _⟩ (by decide), hb ⟨cPosViewID + 3, _⟩ (by decide)]
  · intro s
    unfold GetSessionID
    rw [ext4bytes_eq _ cPosSessionID (by decide), ext4bytes_eq _ cPosSessionID (by decide)]
    rw [hb ⟨cPosSessionID, _⟩ (by decide), hb ⟨cPosSessionID + 1, _⟩ (by decide),
      hb ⟨cPosSessionID + 2, _⟩ (by decide), hb ⟨cPosSessionID + 3, _⟩ (by decide)]

theorem ext4bytes_congr (d d' : Encoded) (p : Nat) (hp : p + 4 ≤ 64)
    (h : ∀ j : Fin 64, p ≤ j.val → j.val < p + 4 → d' j = d j) :
    ext4bytes d' p = ext4bytes d p := by
  have hb : ∀ j : Fin 64, p ≤ j.val → j.val < p + 4 → d'.byteAt j = d.byteAt j :=
    fun j h1 h2 => congrArg Fin.val (h j h1 h2)
  rw [ext4bytes_eq _ p hp, ext4bytes_eq _ p hp,
    hb ⟨p, by omega⟩ (by show p ≤ p; omega) (by show p < p + 4; omega),
    hb ⟨p + 1, by omega⟩ (by show p ≤ p + 1; omega) (by show p + 1 < p + 4; omega),
    hb ⟨p + 2, by omega⟩ (by show p ≤ p + 2; omega) (by show p + 2 < p + 4; omega),
    hb ⟨p + 3, by omega⟩ (by show p ≤ p + 3; omega) (by show p + 3 < p + 4; omega)]

/-- C24: header fields do not overlap.  The width of the view ID field is
cPosSessionID - cPosViewID = 4 and that of the session ID field is
cPosArgs - cPosSessionID = 4; for every buffer and every x, PutViewID(x) returns and
changes only bytes 0..3, and PutSessionID(x) returns and changes only bytes 4..7, so
neither changes the other identifier, ArgCount, ArgsFreeOffset or any argument byte. -/
theorem C24_header_fields_disjoint (d : Encoded) (x : Int) :
    cPosSessionID - cPosViewID = 4 ∧ cPosArgs - cPosSessionID = 4
    ∧ (∃ d', PutViewID d x = .ok d'
        ∧ (∀ j : Fin 64, 4 ≤ j.val → d' j = d j)
        ∧ (∀ s, GetSessionID s d' = GetSessionID s d)
        ∧ ArgCount d' = ArgCount d ∧ freeOffset d' = freeOffset d)
    ∧ (∃ d', PutSessionID d x = .ok d'
        ∧ (∀ j : Fin 64, j.val < 4 ∨ 8 ≤ j.val → d' j = d j)
        ∧ (∀ s, GetViewID s d' = GetViewID s d)
        ∧ ArgCount d' = ArgCount d ∧ freeOffset d' = freeOffset d) := by
  refine ⟨rfl, rfl, ?_, ?_⟩
  · obtain ⟨d', h1, h2⟩ := put4bytes_frame d cPosViewID (toIntW 32 x) (by decide)
    have hf : ∀ j : Fin 64, 4 ≤ j.val → d' j = d j :=
      fun j hj => h2 j (Or.inr (by show 0 + 4 ≤ j.val; omega))
    refine ⟨d', h1, hf, ?_, ?_, ?_⟩
    · intro s
      unfold GetSessionID
      rw [ext4bytes_congr d d' cPosSessionID (by decide)
        (fun j hj _ => hf j (by unfold cPosSessionID at hj; omega))]
    · unfold ArgCount Encoded.byteAt
      rw [hf cPosArgsCount (by decide)]
    · unfold freeOffset Encoded.byteAt
      rw [hf cPosArgsFree (by decide)]
  · obtain ⟨d', h1, h2⟩ := put4bytes_frame d cPosSessionID (toIntW 32 x) (by decide)
    have hf : ∀ j : Fin 64, j.val < 4 ∨ 8 ≤ j.val → d' j = d j := by
      intro j hj
      apply h2 j
      unfold cPosSessionID
      omega
    refine ⟨d', h1, hf, ?_, ?_, ?_⟩
    · intro s
      unfold GetViewID
      rw [ext4bytes_congr d d' cPosViewID (by decide)
        (fun j _ hj => hf j (Or.inl (by unfold cPosViewID at hj; omega)))]
    · unfold ArgCount Encoded.byteAt
      rw [hf cPosArgsCount (Or.inr (by decide))]
    · unfold freeOffset Encoded.byteAt
      rw [hf cPosArgsFree (Or.inr (by decide))]

/-- The indices a run of writer calls returns: every index other than -1 is the number
of arguments counted before the call. -/
theorem runPuts_idx_bound (ops : List PutOp) :
    ∀ (d d' : Encoded) (k : Nat) (idxs : List Int), CountInv d k →
      runPuts d ops = .ok (d', idxs) →
      ∀ i ∈ idxs, i = cBadIndex ∨ ((k : Int) ≤ i ∧ i + 1 ≤ ((k + countSuccess idxs : Nat) : Int)) := by
  induction ops with
  | nil =>
    intro d d' k idxs _ h i hi
    unfold runPuts at h
    have e2 : [] = idxs := congrArg Prod.snd (Except.ok.inj h)
    subst e2
    cases hi
  | cons op ops ih =>
    intro d d' k idxs hinv h i hi
    obtain ⟨d1, idx, rest, h1, h2, h3⟩ := runPuts_cons_inv d d' op ops idxs h
    subst h3
    obtain ⟨hk, hlo, hhi⟩ := hinv
    rw [countSuccess_cons]
    rcases PutArg_ok_inv d d1 op idx (by omega) hhi h1 with ⟨hb, hd⟩ | ⟨hidx, hc, hf1, hf2, _, _⟩
    · rw [hd] at h2
      rw [if_pos hb, Nat.zero_add]
      rcases List.mem_cons.mp hi with hi | hi
      · exact Or.inl (hi.trans hb)
      · exact ih d d' k rest ⟨hk, hlo, hhi⟩ h2 i hi
    · have hne : idx ≠ cBadIndex := hidx ▸ ArgCount_ne_bad d
      rw [if_neg hne]
      have hinv1 : CountInv d1 (k + 1) := ⟨by rw [hc, hk]; omega, by omega, hf2⟩
      rcases List.mem_cons.mp hi with hi | hi
      · right
        rw [hi, hidx]
        unfold ArgCount
        rw [hk]
        omega
      · rcases ih d1 d' (k + 1) rest hinv1 h2 i hi with h4 | h4
        · exact Or.inl h4
        · right
          omega

/-- C29: the argument count is bounded.  For every buffer produced from the all-zero
buffer by init and any sequence of PutArg calls that return, ArgCount() is the number of
calls that returned an index other than -1 and is at most 26, so the one-byte counter
never wraps; and every index returned is -1 or lies between 0 and 25. -/
theorem C29_argcount_bounded (ops : List PutOp) (d' : Encoded) (idxs : List Int)
    (h : runPuts (init Encoded.zero) ops = .ok (d', idxs)) :
    ArgCount d' ≤ 26 ∧ ArgCount d' = ((countSuccess idxs : Nat) : Int)
    ∧ ∀ i ∈ idxs, i = cBadIndex ∨ (0 ≤ i ∧ i ≤ 25) := by
  have hinv : CountInv (init Encoded.zero) 0 :=
    ⟨by rfl, by rw [freeOffset_init], by rw [freeOffset_init]; decide⟩
  have h1 := runPuts_CountInv ops (init Encoded.zero) d' 0 idxs hinv h
  obtain ⟨hk, hlo, hhi⟩ := h1
  rw [Nat.zero_add] at hk hlo
  have hcnt : ArgCount d' = ((countSuccess idxs : Nat) : Int) := by
    unfold ArgCount
    rw [hk]
  refine ⟨by rw [hcnt]; omega, hcnt, ?_⟩
  intro i hi
  rcases runPuts_idx_bound ops (init Encoded.zero) d' 0 idxs hinv h i hi with h2 | h2
  · exact Or.inl h2
  · right
    rw [Nat.zero_add] at h2
    omega

theorem C29_argcount_bounded_witness :
    runPuts (init Encoded.zero) (List.replicate 27 (.int8 1))
      = .ok (bufOf (runPuts (init Encoded.zero) (List.replicate 27 (.int8 1))),
          [0, 1, 2, 3, 4, 5, 6, 7, 8, 9, 10, 11, 12, 13, 14, 15, 16, 17, 18, 19, 20, 21, 22,
            23, 24, 25, -1])
    ∧ (ArgCount (bufOf (runPuts (init Encoded.zero) (List.replicate 27 (.int8 1)))) ≤ 26
      ∧ ArgCount (bufOf (runPuts (init Encoded.zero) (List.replicate 27 (.int8 1))))
          = ((countSuccess [0, 1, 2, 3, 4, 5, 6, 7, 8, 9, 10, 11, 12, 13, 14, 15, 16, 17, 18,
              19, 20, 21, 22, 23, 24, 25, -1] : Nat) : Int)
      ∧ ∀ i ∈ ([0, 1, 2, 3, 4, 5, 6, 7, 8, 9, 10, 11, 12, 13, 14, 15, 16, 17, 18, 19, 20, 21,
          22, 23, 24, 25, -1] : List Int), i = cBadIndex ∨ (0 ≤ i ∧ i ≤ 25)) :=
  ⟨by rfl, C29_argcount_bounded (List.replicate 27 (.int8 1)) _ _ (by rfl)⟩

theorem rd_ok_lt (d : Encoded) (p x : Nat) (h : d.rd p = .ok x) : p < 64 := by
  by_contra hc
  rw [rd_of_ge d p (by omega)] at h
  cases h

theorem rd_congr (d d' : Encoded) (p : Nat) (hp : p < 64) (h : d' ⟨p, hp⟩ = d ⟨p, hp⟩) :
    d'.rd p = d.rd p := by
  rw [rd_of_lt _ _ hp, rd_of_lt _ _ hp]
  unfold Encoded.byteAt
  rw [h]

/-- The scanner gives a fixed-width tag the width the allocator reserves for it. -/
theorem argNext_of_fixed (d : Encoded) (p : Nat) (op : PutOp) (hfix : op.fixedWidth = true)
    (h : d.rd p = .ok op.tag) :
    argNextFromPos d p = .ok ((p + argNeedForType op.tag) % 256) := by
  unfold argNextFromPos
  rw [h]
  cases op <;> first | (cases hfix; done) | rfl

theorem argNext_of_string (d : Encoded) (p l : Nat) (h : d.rd p = .ok cArgTypeString)
    (hl : d.rd ((p + 1) % 256) = .ok l) :
    argNextFromPos d p = .ok ((p + 2 + l) % 256) := by
  unfold argNextFromPos
  rw [h]
  simp only [bind, Except.bind, hl]
  rfl

theorem argNext_congr (d d' : Encoded) (p : Nat) (h0 : d'.rd p = d.rd p)
    (h1 : d'.rd ((p + 1) % 256) = d.rd ((p + 1) % 256)) :
    argNextFromPos d' p = argNextFromPos d p := by
  unfold argNextFromPos
  rw [h0, h1]

/-- A tag from which the scanner moves on to a position other than the error position
is one of the eleven known tags. -/
theorem argNext_known_tag (d : Encoded) (p t q : Nat) (h : d.rd p = .ok t)
    (hn : argNextFromPos d p = .ok q) (hq : q ≠ cPosErr) : 10 ≤ t ∧ t ≤ 20 := by
  unfold argNextFromPos at hn
  rw [h] at hn
  simp only [bind, Except.bind, cArgTypeInt8, cArgTypeUint8, cArgTypeInt16, cArgTypeUint16,
    cArgTypeInt32, cArgTypeUint32, cArgTypeFloat32, cArgTypeInt64, cArgTypeUint64,
    cArgTypeFloat64, cArgTypeString] at hn
  by_contra hc
  rw [if_neg (by omega), if_neg (by omega), if_neg (by omega), if_neg (by omega),
    if_neg (by omega)] at hn
  exact hq (Except.ok.inj hn).symm

theorem ArgChain_le (d : Encoded) (ts : List Nat) :
    ∀ (p q : Nat), ArgChain d p ts q → p + 2 * ts.length ≤ q := by
  induction ts with
  | nil => intro p q h; unfold ArgChain at h; simp; omega
  | cons t ts ih =>
    intro p q h
    unfold ArgChain at h
    obtain ⟨_, p', _, h2, h3⟩ := h
    have := ih p' q h3
    simp only [List.length_cons]
    omega

theorem ArgChain_congr (d d' : Encoded) (p0 q : Nat) (hq : q ≤ 64)
    (h : ∀ j : Fin 64, p0 ≤ j.val → j.val < q → d' j = d j) (ts : List Nat) :
    ∀ p, p0 ≤ p → ArgChain d p ts q → ArgChain d' p ts q := by
  induction ts with
  | nil => intro p _ hc; exact hc
  | cons t ts ih =>
    intro p hp hc
    unfold ArgChain at hc ⊢
    obtain ⟨h1, p', h2, h3, h4⟩ := hc
    have hle := ArgChain_le d ts p' q h4
    have e0 : d'.rd p = d.rd p := rd_congr d d' p (by omega) (h ⟨p, by omega⟩ hp (by show p < q; omega))
    have e1 : d'.rd ((p + 1) % 256) = d.rd ((p + 1) % 256) := by
      have : (p + 1) % 256 = p + 1 := by omega
      rw [this]
      exact rd_congr d d' (p + 1) (by omega)
        (h ⟨p + 1, by omega⟩ (by show p0 ≤ p + 1; omega) (by show p + 1 < q; omega))
    refine ⟨e0.trans h1, p', (argNext_congr d d' p e0 e1).trans h2, h3, ih p' (by omega) h4⟩

theorem ArgChain_append (d : Encoded) (ts us : List Nat) (r : Nat) :
    ∀ (p q : Nat), ArgChain d p ts q → ArgChain d q us r → ArgChain d p (ts ++ us) r := by
  induction ts with
  | nil =>
    intro p q h1 h2
    unfold ArgChain at h1
    rw [h1]
    exact h2
  | cons t ts ih =>
    intro p q h1 h2
    unfold ArgChain at h1
    obtain ⟨ha, p', hb, hc, hd⟩ := h1
    show ArgChain d p (t :: (ts ++ us)) r
    unfold ArgChain
    exact ⟨ha, p', hb, hc, ih p' q hd h2⟩

theorem ArgChain_unique (d : Encoded) (ts : List Nat) :
    ∀ (p q q' : Nat), ArgChain d p ts q → ArgChain d p ts q' → q = q' := by
  induction ts with
  | nil =>
    intro p q q' h1 h2
    unfold ArgChain at h1 h2
    omega
  | cons t ts ih =>
    intro p q q' h1 h2
    unfold ArgChain at h1 h2
    obtain ⟨_, p1, hb1, _, hd1⟩ := h1
    obtain ⟨_, p2, hb2, _, hd2⟩ := h2
    rw [hb1] at hb2
    have : p1 = p2 := Except.ok.inj hb2
    subst this
    exact ih p1 q q' hd1 hd2

/-- The skip loop of `argGet` walks along a chain: after `k` steps it stands at the
position of the argument number `k`. -/
theorem ArgChain_skip (d : Encoded) (q : Nat) (ts : List Nat) :
    ∀ (k p : Nat), k ≤ ts.length → ArgChain d p ts q →
      ∃ pk, argGetSkip d k p = .ok pk ∧ ArgChain d p (ts.take k) pk
        ∧ ArgChain d pk (ts.drop k) q := by
  induction ts with
  | nil =>
    intro k p hk h
    have : k = 0 := by simpa using hk
    subst this
    exact ⟨p, rfl, rfl, h⟩
  | cons t ts ih =>
    intro k p hk h
    cases k with
    | zero => exact ⟨p, rfl, rfl, h⟩
    | succ k =>
      have h' := h
      unfold ArgChain at h'
      obtain ⟨ha, p', hb, hc, hd⟩ := h'
      obtain ⟨pk, h1, h2, h3⟩ := ih k p' (by simpa using hk) hd
      refine ⟨pk, ?_, ?_, h3⟩
      · unfold argGetSkip
        rw [hb]
        exact h1
      · show ArgChain d p (t :: ts.take k) pk
        unfold ArgChain
        exact ⟨ha, p', hb, hc, h2⟩

/-- The search loop of `argGet` on a chain that holds no argument with the tag `t`
reaches the end of the chain and reports the error position. -/
theorem ArgChain_search_none (d : Encoded) (t q : Nat) (hq : q ≤ 63) (ts : List Nat) :
    ∀ (p fuel : Nat), ArgChain d p ts q → (∀ x ∈ ts, x ≠ t) → ts.length < fuel →
      argGetSearch d t q fuel p = .ok cPosErr := by
  induction ts with
  | nil =>
    intro p fuel h _ hf
    unfold ArgChain at h
    obtain ⟨n, rfl⟩ : ∃ n, fuel = n + 1 := ⟨fuel - 1, by simp at hf; omega⟩
    unfold argGetSearch
    rw [if_neg (by omega)]
    rfl
  | cons x ts ih =>
    intro p fuel h hne hf
    have h' := h
    unfold ArgChain at h'
    obtain ⟨ha, p', hb, hc, hd⟩ := h'
    have hle := ArgChain_le d ts p' q hd
    obtain ⟨n, rfl⟩ : ∃ n, fuel = n + 1 := ⟨fuel - 1, by simp at hf; omega⟩
    unfold argGetSearch
    rw [if_pos ⟨by unfold cPosErr; omega, by omega⟩, ha]
    simp only [bind, Except.bind]
    rw [if_neg (hne x (List.mem_cons_self x ts)), hb]
    simp only []
    exact ih p' n hd (fun y hy => hne y (List.mem_cons_of_mem x hy))
      (by simp at hf; omega)

/-- The search loop of `argGet` on a chain stops at the first argument with the tag `t`
and returns the position after its tag. -/
theorem ArgChain_search_found (d : Encoded) (t q : Nat) (hq : q ≤ 63) (post : List Nat)
    (pre : List Nat) :
    ∀ (p fuel : Nat), ArgChain d p (pre ++ t :: post) q → (∀ x ∈ pre, x ≠ t) →
      pre.length < fuel →
      ∃ pm, ArgChain d p pre pm ∧ d.rd pm = .ok t ∧ pm + 2 ≤ q
        ∧ argGetSearch d t q fuel p = .ok (pm + 1) := by
  induction pre with
  | nil =>
    intro p fuel h _ hf
    have h' : ArgChain d p (t :: post) q := h
    unfold ArgChain at h'
    obtain ⟨ha, p', hb, hc, hd⟩ := h'
    have hle := ArgChain_le d post p' q hd
    obtain ⟨n, rfl⟩ : ∃ n, fuel = n + 1 := ⟨fuel - 1, by simp at hf; omega⟩
    refine ⟨p, rfl, ha, by omega, ?_⟩
    unfold argGetSearch
    rw [if_pos ⟨by unfold cPosErr; omega, by omega⟩, ha]
    simp only [bind, Except.bind, if_true]
    have : (p + 1) % 256 = p + 1 := by omega
    rw [this]
    rfl
  | cons x pre ih =>
    intro p fuel h hne hf
    have h' : ArgChain d p (x :: (pre ++ t :: post)) q := h
    unfold ArgChain at h'
    obtain ⟨ha, p', hb, hc, hd⟩ := h'
    have hle := ArgChain_le d _ p' q hd
    obtain ⟨n, rfl⟩ : ∃ n, fuel = n + 1 := ⟨fuel - 1, by simp at hf; omega⟩
    obtain ⟨pm, h1, h2, h3, h4⟩ := ih p' n hd
      (fun y hy => hne y (List.mem_cons_of_mem x hy)) (by simp at hf; omega)
    refine ⟨pm, ?_, h2, h3, ?_⟩
    · unfold ArgChain
      exact ⟨ha, p', hb, hc, h1⟩
    · unfold argGetSearch
      rw [if_pos ⟨by unfold cPosErr; omega, by omega⟩, ha]
      simp only [bind, Except.bind]
      rw [if_neg (hne x (List.mem_cons_self x pre)), hb]
      simp only []
      exact h4

theorem decInt64_eq (i : Int) (h1 : -9223372036854775808 < i) (h2 : i ≤ 9223372036854775807) :
    decInt64 i = i - 1 := by
  unfold decInt64
  exact toIntW64_of_range (i - 1) ⟨by omega, by omega⟩

/-- On a well laid out buffer, `argGet` with an index below `ArgCount` (and above the
least `int`) skips `max (i - 1) 0` arguments and then runs its search loop from the
position of the next one. -/
theorem argGet_eq_search (d : Encoded) (tags : List Nat) (hl : Layout d tags) (fuel : Nat)
    (i : Int) (t : Nat) (hmin : -9223372036854775808 < i) (hi : i < (tags.length : Int)) :
    ∃ pk, ArgChain d 10 (tags.take (i - 1).toNat) pk
      ∧ ArgChain d pk (tags.drop (i - 1).toNat) (freeOffset d)
      ∧ argGet fuel d i t = argGetSearch d t (freeOffset d) fuel pk := by
  obtain ⟨hc, hlo, hhi, hch⟩ := hl
  have hlen := ArgChain_le d tags 10 (freeOffset d) hch
  have hk : (i - 1).toNat ≤ tags.length := by omega
  obtain ⟨pk, h1, h2, h3⟩ := ArgChain_skip d (freeOffset d) tags (i - 1).toNat 10 hk hch
  refine ⟨pk, h2, h3, ?_⟩
  unfold argGet
  have hcnt : ¬ (ArgCount d ≤ i) := by
    unfold ArgCount
    rw [hc]
    omega
  rw [if_neg hcnt, decInt64_eq i hmin (by omega)]
  unfold cPosArgsContent
  rw [h1]
  rfl

/-- A string whose stored length fits is written in full: tag, length byte and content,
and the free offset moves behind it. -/
theorem PutArgString_fits (d : Encoded) (s : List Byte)
    (hlo : 10 ≤ freeOffset d) (hhi : freeOffset d ≤ 63)
    (hfit : freeOffset d + 2 + s.length % 256 ≤ 63) :
    ∃ d', PutArgString d s = .ok (d', ArgCount d)
      ∧ d'.byteAt cPosArgsCount = (d.byteAt cPosArgsCount + 1) % 256
      ∧ d'.rd (freeOffset d) = .ok cArgTypeString
      ∧ d'.rd (freeOffset d + 1) = .ok (s.length % 256)
      ∧ (∀ k b, k < s.length % 256 → s[k]? = some b →
          d'.rd (freeOffset d + 2 + k) = .ok b.val)
      ∧ freeOffset d' = freeOffset d + 2 + s.length % 256
      ∧ (∀ j : Fin 64, j.val ≠ 8 → j.val ≠ 9 → j.val < freeOffset d → d' j = d j) := by
  have hf9 : d.byteAt cPosArgsFree = freeOffset d := rfl
  have hLle : s.length % 256 ≤ s.length := Nat.mod_le _ _
  obtain ⟨L, hLdef⟩ : ∃ L, s.length % 256 = L := ⟨_, rfl⟩
  rw [hLdef] at hfit hLle ⊢
  have hfree : argHaveFreeBytes d ((2 + L) % 256) = true := by
    unfold argHaveFreeBytes cPosMax
    rw [hf9]
    exact decide_eq_true (by omega)
  have e0 : (freeOffset d + 0) % 256 = freeOffset d := by omega
  have e1 : (freeOffset d + 1) % 256 = freeOffset d + 1 := by omega
  have e2 : (freeOffset d + 2) % 256 = freeOffset d + 2 := by omega
  have e3 : (freeOffset d + (L + 2) % 256) % 256 = freeOffset d + 2 + L := by omega
  obtain ⟨d3, hd3, hframe, hread⟩ := putNbytesLoop_ok s (freeOffset d + 2) L 0
    (((d.set cPosArgsFree (freeOffset d + 2 + L)).set ⟨freeOffset d, by omega⟩
      cArgTypeString).set ⟨freeOffset d + 1, by omega⟩ L) (by omega) (by omega)
  have hput : PutArgString d s = .ok (argCountIncPostfix d3) := by
    unfold PutArgString
    simp only [hLdef, hfree, Bool.not_true, Bool.false_eq_true, if_false]
    rw [hf9, e0, e1, e2, e3, wr_of_lt _ _ _ (by omega)]
    simp only [bind, Except.bind]
    rw [wr_of_lt _ _ _ (by omega)]
    simp only []
    unfold putNbytes
    simp only [hLdef, hd3]
    rfl
  have hbelow : ∀ j : Fin 64, j.val < freeOffset d → j.val ≠ 9 → d3 j = d j := by
    intro j hj hj9
    rw [hframe j (by omega),
      set_apply_ne _ _ _ _ (Fin.ne_of_val_ne (by show j.val ≠ freeOffset d + 1; omega)),
      set_apply_ne _ _ _ _ (Fin.ne_of_val_ne (by show j.val ≠ freeOffset d; omega)),
      set_apply_ne _ _ _ _ (Fin.ne_of_val_ne (by show j.val ≠ 9; omega))]
  have h8 : d3.byteAt cPosArgsCount = d.byteAt cPosArgsCount :=
    congrArg Fin.val (hbelow cPosArgsCount (by show 8 < freeOffset d; omega) (by decide))
  have h9 : d3.byteAt cPosArgsFree = freeOffset d + 2 + L := by
    have := hframe cPosArgsFree (by show 9 < freeOffset d + 2 + 0; omega)
    have h2 : d3.byteAt cPosArgsFree = _ := congrArg Fin.val this
    rw [h2]
    show Encoded.byteAt _ _ = _
    rw [byteAt_set, if_neg (Fin.ne_of_val_ne (by show 9 ≠ freeOffset d + 1; omega)),
      byteAt_set, if_neg (Fin.ne_of_val_ne (by show 9 ≠ freeOffset d; omega)),
      byteAt_set, if_pos rfl]
    exact Nat.mod_eq_of_lt (by omega)
  have hf : d3.byteAt ⟨freeOffset d, by omega⟩ = cArgTypeString := by
    have := hframe ⟨freeOffset d, by omega⟩ (by show freeOffset d < freeOffset d + 2 + 0; omega)
    have h2 : d3.byteAt ⟨freeOffset d, by omega⟩ = _ := congrArg Fin.val this
    rw [h2]
    show Encoded.byteAt _ _ = _
    rw [byteAt_set,
      if_neg (Fin.ne_of_val_ne (by show freeOffset d ≠ freeOffset d + 1; omega)),
      byteAt_set, if_pos rfl]
    rfl
  have hf1 : d3.byteAt ⟨freeOffset d + 1, by omega⟩ = L := by
    have := hframe ⟨freeOffset d + 1, by omega⟩
      (by show freeOffset d + 1 < freeOffset d + 2 + 0; omega)
    have h2 : d3.byteAt ⟨freeOffset d + 1, by omega⟩ = _ := congrArg Fin.val this
    rw [h2]
    show Encoded.byteAt _ _ = _
    rw [byteAt_set, if_pos rfl]
    exact Nat.mod_eq_of_lt (by omega)
  refine ⟨(argCountIncPostfix d3).1, ?_, ?_, ?_, ?_, ?_, ?_, ?_⟩
  · rw [hput]
    unfold argCountIncPostfix ArgCount
    rw [h8]
  · unfold argCountIncPostfix
    show Encoded.byteAt _ cPosArgsCount = _
    rw [byteAt_set, if_pos rfl, h8, Nat.mod_mod]
  · unfold argCountIncPostfix
    show Encoded.rd (Encoded.set _ _ _) _ = _
    rw [rd_set_ne _ _ _ _ (by show freeOffset d ≠ 8; omega), rd_of_lt _ _ (by omega), hf]
  · unfold argCountIncPostfix
    show Encoded.rd (Encoded.set _ _ _) _ = _
    rw [rd_set_ne _ _ _ _ (by show freeOffset d + 1 ≠ 8; omega), rd_of_lt _ _ (by omega), hf1]
  · intro k b hk hb
    unfold argCountIncPostfix
    show Encoded.rd (Encoded.set _ _ _) _ = _
    rw [rd_set_ne _ _ _ _ (by show freeOffset d + 2 + k ≠ 8; omega)]
    have := hread k b hk (by rw [Nat.zero_add]; exact hb)
    rw [Nat.add_zero] at this
    exact this
  · unfold argCountIncPostfix
    show Encoded.byteAt _ cPosArgsFree = _
    rw [byteAt_set, if_neg (by decide), h9]
  · intro j hj8 hj9 hj
    unfold argCountIncPostfix
    show Encoded.set _ _ _ j = _
    rw [set_apply_ne _ _ _ _ (Fin.ne_of_val_ne (by show j.val ≠ 8; omega)), hbelow j hj hj9]

/-- A writer call that returns an index other than -1 appends one argument to the
layout and returns the number of arguments there were. -/
theorem Layout_put (d d' : Encoded) (tags : List Nat) (op : PutOp) (idx : Int)
    (hl : Layout d tags) (h : PutArg d op = .ok (d', idx)) (hidx : idx ≠ cBadIndex) :
    Layout d' (tags ++ [op.tag]) ∧ idx = (tags.length : Int)
      ∧ (∀ j : Fin 64, j.val ≠ 8 → j.val ≠ 9 → j.val < freeOffset d → d' j = d j) := by
  obtain ⟨hc, hlo, hhi, hch⟩ := hl
  have hlen := ArgChain_le d tags 10 (freeOffset d) hch
  have hcnt : ArgCount d = (tags.length : Int) := by unfold ArgCount; rw [hc]
  by_cases hfix : op.fixedWidth = true
  · have hw := argNeedForType_fixed op hfix
    have hfit : freeOffset d + argNeedForType op.tag ≤ 63 := by
      by_contra hcon
      rw [PutArg_fixed_fail d op hfix (by omega) (by omega)] at h
      exact hidx (congrArg Prod.snd (Except.ok.inj h)).symm
    obtain ⟨d2, h1, h2, h3, h4, h5⟩ := PutArg_fixed_ok d op hfix hlo hfit
    rw [h1] at h
    have hres := Except.ok.inj h
    have e1 : d2 = d' := congrArg Prod.fst hres
    have e2 : ArgCount d = idx := congrArg Prod.snd hres
    subst e1
    refine ⟨⟨?_, by omega, by omega, ?_⟩, by rw [← e2, hcnt],
      fun j h8 h9 hj => h5 j h8 h9 (Or.inl hj)⟩
    · rw [h2, hc, List.length_append, List.length_singleton]
      omega
    · apply ArgChain_append d2 tags [op.tag] (freeOffset d2) 10 (freeOffset d)
      · exact ArgChain_congr d d2 10 (freeOffset d) (by omega)
          (fun j hj1 hj2 => h5 j (by omega) (by omega) (Or.inl hj2)) tags 10 (Nat.le_refl _) hch
      · have hrd : d2.rd (freeOffset d) = .ok op.tag := by
          rw [rd_of_lt _ _ (by omega), h4]
        unfold ArgChain
        refine ⟨hrd, freeOffset d + argNeedForType op.tag, ?_, by omega, ?_⟩
        · rw [argNext_of_fixed d2 (freeOffset d) op hfix hrd]
          have : (freeOffset d + argNeedForType op.tag) % 256
              = freeOffset d + argNeedForType op.tag := by omega
          rw [this]
        · unfold ArgChain
          exact h3.symm
  · cases op <;> first | (exfalso; exact hfix rfl) | skip
    rename_i v
    have hs : PutArgString d v = .ok (d', idx) := h
    rcases PutArgString_ok_inv d d' v idx hlo hhi hs with ⟨hb, _⟩ | ⟨_, hfit, _⟩
    · exact absurd hb hidx
    · obtain ⟨d2, h1, h2, h3, h4, _, h6, h7⟩ := PutArgString_fits d v hlo hhi hfit
      rw [h1] at hs
      have hres := Except.ok.inj hs
      have e1 : d2 = d' := congrArg Prod.fst hres
      have e2 : ArgCount d = idx := congrArg Prod.snd hres
      subst e1
      refine ⟨⟨?_, by omega, by omega, ?_⟩, by rw [← e2, hcnt], h7⟩
      · rw [h2, hc, List.length_append, List.length_singleton]
        omega
      · apply ArgChain_append d2 tags [(PutOp.string v).tag] (freeOffset d2) 10 (freeOffset d)
        · exact ArgChain_congr d d2 10 (freeOffset d) (by omega)
            (fun j hj1 hj2 => h7 j (by omega) (by omega) hj2) tags 10 (Nat.le_refl _) hch
        · unfold ArgChain
          refine ⟨h3, freeOffset d + 2 + v.length % 256, ?_, by omega, ?_⟩
          · have e : (freeOffset d + 1) % 256 = freeOffset d + 1 := by omega
            rw [argNext_of_string d2 (freeOffset d) (v.length % 256) h3 (by rw [e]; exact h4)]
            have : (freeOffset d + 2 + v.length % 256) % 256
                = freeOffset d + 2 + v.length % 256 := by omega
            rw [this]
          · unfold ArgChain
            exact h6.symm

theorem Layout_init (d : Encoded) (h0 : d.byteAt cPosArgsCount = 0) : Layout (init d) [] := by
  refine ⟨by rw [count_init, h0]; rfl, by rw [freeOffset_init], by rw [freeOffset_init]; decide,
    ?_⟩
  unfold ArgChain
  rw [freeOffset_init]

/-- Every buffer produced by init on the all-zero buffer and writer calls that returned
an index other than -1 is well laid out. -/
theorem Layout_runPuts (ops : List PutOp) :
    ∀ (d d' : Encoded) (tags : List Nat) (idxs : List Int), Layout d tags →
      runPuts d ops = .ok (d', idxs) → (∀ i ∈ idxs, i ≠ cBadIndex) →
      Layout d' (tags ++ ops.map PutOp.tag) := by
  induction ops with
  | nil =>
    intro d d' tags idxs hl h _
    unfold runPuts at h
    have e1 : d = d' := congrArg Prod.fst (Except.ok.inj h)
    subst e1
    simpa using hl
  | cons op ops ih =>
    intro d d' tags idxs hl h hall
    obtain ⟨d1, idx, rest, h1, h2, h3⟩ := runPuts_cons_inv d d' op ops idxs h
    subst h3
    have hl1 := (Layout_put d d1 tags op idx hl h1
      (hall idx (List.mem_cons_self idx rest))).1
    have := ih d1 d' (tags ++ [op.tag]) rest hl1 h2
      (fun i hi => hall i (List.mem_cons_of_mem idx hi))
    simpa using this

theorem digits2 (u : Nat) (hu : u < 2 ^ 16) :
    (u / 2 ^ (8 * 0) % 256) <<< 0 ||| (u / 2 ^ (8 * 1) % 256) <<< 8 = u := by
  have h0 : u / 2 ^ (8 * 0) % 256 < 256 := Nat.mod_lt _ (by decide)
  rw [Nat.shiftLeft_zero, or_shift_eq _ _ 8 (by omega)]
  norm_num at *
  omega

theorem digits4 (u : Nat) (hu : u < 2 ^ 32) :
    (u / 2 ^ (8 * 0) % 256) <<< 0 ||| (u / 2 ^ (8 * 1) % 256) <<< 8
      ||| (u / 2 ^ (8 * 2) % 256) <<< 16 ||| (u / 2 ^ (8 * 3) % 256) <<< 24 = u := by
  have h0 : u / 2 ^ (8 * 0) % 256 < 256 := Nat.mod_lt _ (by decide)
  have h1 : u / 2 ^ (8 * 1) % 256 < 256 := Nat.mod_lt _ (by decide)
  have h2 : u / 2 ^ (8 * 2) % 256 < 256 := Nat.mod_lt _ (by decide)
  rw [Nat.shiftLeft_zero, or_shift_eq _ _ 8 (by omega), or_shift_eq _ _ 16 (by omega),
    or_shift_eq _ _ 24 (by omega)]
  norm_num at *
  omega

theorem digits8 (u : Nat) (hu : u < 2 ^ 64) :
    (u / 2 ^ (8 * 0) % 256) <<< 0 ||| (u / 2 ^ (8 * 1) % 256) <<< 8
      ||| (u / 2 ^ (8 * 2) % 256) <<< 16 ||| (u / 2 ^ (8 * 3) % 256) <<< 24
      ||| (u / 2 ^ (8 * 4) % 256) <<< 32 ||| (u / 2 ^ (8 * 5) % 256) <<< 40
      ||| (u / 2 ^ (8 * 6) % 256) <<< 48 ||| (u / 2 ^ (8 * 7) % 256) <<< 56 = u := by
  have h0 : u / 2 ^ (8 * 0) % 256 < 256 := Nat.mod_lt _ (by decide)
  have h1 : u / 2 ^ (8 * 1) % 256 < 256 := Nat.mod_lt _ (by decide)
  have h2 : u / 2 ^ (8 * 2) % 256 < 256 := Nat.mod_lt _ (by decide)
  have h3 : u / 2 ^ (8 * 3) % 256 < 256 := Nat.mod_lt _ (by decide)
  have h4 : u / 2 ^ (8 * 4) % 256 < 256 := Nat.mod_lt _ (by decide)
  have h5 : u / 2 ^ (8 * 5) % 256 < 256 := Nat.mod_lt _ (by decide)
  have h6 : u / 2 ^ (8 * 6) % 256 < 256 := Nat.mod_lt _ (by decide)
  rw [Nat.shiftLeft_zero, or_shift_eq _ _ 8 (by omega), or_shift_eq _ _ 16 (by omega),
    or_shift_eq _ _ 24 (by omega), or_shift_eq _ _ 32 (by omega), or_shift_eq _ _ 40 (by omega),
    or_shift_eq _ _ 48 (by omega), or_shift_eq _ _ 56 (by omega)]
  norm_num at *
  omega

theorem ext1_of_reads (d : Encoded) (p u : Nat) (hu : u < 2 ^ 8)
    (h : ∀ k, k < 1 → d.rd (p + k) = .ok (u / 2 ^ (8 * k) % 256)) :
    ext1byte d p = .ok (toSigned 8 u) := by
  have h0 := h 0 (by omega)
  rw [Nat.add_zero] at h0
  unfold ext1byte
  rw [h0]
  have : u / 2 ^ (8 * 0) % 256 = u := by norm_num at *; omega
  rw [this]
  rfl

theorem ext2_of_reads (d : Encoded) (p u : Nat) (hu : u < 2 ^ 16)
    (h : ∀ k, k < 2 → d.rd (p + k) = .ok (u / 2 ^ (8 * k) % 256)) :
    ext2bytes d p = .ok (toSigned 16 u) := by
  have hp := rd_ok_lt _ _ _ (h 1 (by omega))
  have e0 : (p + 0) % 256 = p + 0 := by omega
  have e1 : (p + 1) % 256 = p + 1 := by omega
  unfold ext2bytes
  rw [e0, e1, h 0 (by omega), h 1 (by omega)]
  simp only [bind, Except.bind]
  rw [digits2 u hu]
  rfl

theorem ext4_of_reads (d : Encoded) (p u : Nat) (hu : u < 2 ^ 32)
    (h : ∀ k, k < 4 → d.rd (p + k) = .ok (u / 2 ^ (8 * k) % 256)) :
    ext4bytes d p = .ok (toSigned 32 u) := by
  have hp := rd_ok_lt _ _ _ (h 3 (by omega))
  have e0 : (p + 0) % 256 = p + 0 := by omega
  have e1 : (p + 1) % 256 = p + 1 := by omega
  have e2 : (p + 2) % 256 = p + 2 := by omega
  have e3 : (p + 3) % 256 = p + 3 := by omega
  unfold ext4bytes
  rw [e0, e1, e2, e3, h 0 (by omega), h 1 (by omega), h 2 (by omega), h 3 (by omega)]
  simp only [bind, Except.bind]
  rw [digits4 u hu]
  rfl

theorem ext8_of_reads (d : Encoded) (p u : Nat) (hu : u < 2 ^ 64)
    (h : ∀ k, k < 8 → d.rd (p + k) = .ok (u / 2 ^ (8 * k) % 256)) :
    ext8bytes d p = .ok (toSigned 64 u) := by
  have hp := rd_ok_lt _ _ _ (h 7 (by omega))
  have e0 : (p + 0) % 256 = p + 0 := by omega
  have e1 : (p + 1) % 256 = p + 1 := by omega
  have e2 : (p + 2) % 256 = p + 2 := by omega
  have e3 : (p + 3) % 256 = p + 3 := by omega
  have e4 : (p + 4) % 256 = p + 4 := by omega
  have e5 : (p + 5) % 256 = p + 5 := by omega
  have e6 : (p + 6) % 256 = p + 6 := by omega
  have e7 : (p + 7) % 256 = p + 7 := by omega
  unfold ext8bytes
  rw [e0, e1, e2, e3, e4, e5, e6, e7, h 0 (by omega), h 1 (by omega), h 2 (by omega),
    h 3 (by omega), h 4 (by omega), h 5 (by omega), h 6 (by omega), h 7 (by omega)]
  simp only [bind, Except.bind]
  rw [digits8 u hu]
  rfl

theorem GetArgInt8_of (fuel : Nat) (d : Encoded) (i : Int) (p : Nat) (x : Int) (hp : p < 64)
    (harg : argGet fuel d i cArgTypeInt8 = .ok (p + 1)) (hext : ext1byte d (p + 1) = .ok x) :
    GetArgInt8 fuel d i = .ok (x, true) := by
  unfold GetArgInt8
  rw [harg]
  simp only [bind, Except.bind]
  rw [if_neg (by unfold cPosErr; omega), hext]
  rfl

theorem GetArgInt16_of (fuel : Nat) (d : Encoded) (i : Int) (p : Nat) (x : Int) (hp : p < 64)
    (harg : argGet fuel d i cArgTypeInt16 = .ok (p + 1)) (hext : ext2bytes d (p + 1) = .ok x) :
    GetArgInt16 fuel d i = .ok (x, true) := by
  unfold GetArgInt16
  rw [harg]
  simp only [bind, Except.bind]
  rw [if_neg (by unfold cPosErr; omega), hext]
  rfl

theorem GetArgInt32_of (fuel : Nat) (d : Encoded) (i : Int) (p : Nat) (x : Int) (hp : p < 64)
    (harg : argGet fuel d i cArgTypeInt32 = .ok (p + 1)) (hext : ext4bytes d (p + 1) = .ok x) :
    GetArgInt32 fuel d i = .ok (x, true) := by
  unfold GetArgInt32
  rw [harg]
  simp only [bind, Except.bind]
  rw [if_neg (by unfold cPosErr; omega), hext]
  rfl

theorem GetArgInt64_of (fuel : Nat) (d : Encoded) (i : Int) (p : Nat) (x : Int) (hp : p < 64)
    (harg : argGet fuel d i cArgTypeInt64 = .ok (p + 1)) (hext : ext8bytes d (p + 1) = .ok x) :
    GetArgInt64 fuel d i = .ok (x, true) := by
  unfold GetArgInt64
  rw [harg]
  simp only [bind, Except.bind]
  rw [if_neg (by unfold cPosErr; omega), hext]
  rfl

theorem GetArgUint8_of (fuel : Nat) (d : Encoded) (i : Int) (p : Nat) (x : Int) (hp : p < 64)
    (harg : argGet fuel d i cArgTypeUint8 = .ok (p + 1)) (hext : ext1byte d (p + 1) = .ok x) :
    GetArgUint8 fuel d i = .ok (toUnsigned 8 x, true) := by
  unfold GetArgUint8
  rw [harg]
  simp only [bind, Except.bind]
  rw [if_neg (by unfold cPosErr; omega), hext]
  rfl

theorem GetArgUint16_of (fuel : Nat) (d : Encoded) (i : Int) (p : Nat) (x : Int) (hp : p < 64)
    (harg : argGet fuel d i cArgTypeUint16 = .ok (p + 1)) (hext : ext2bytes d (p + 1) = .ok x) :
    GetArgUint16 fuel d i = .ok (toUnsigned 16 x, true) := by
  unfold GetArgUint16
  rw [harg]
  simp only [bind, Except.bind]
  rw [if_neg (by unfold cPosErr; omega), hext]
  rfl

theorem GetArgUint32_of (fuel : Nat) (d : Encoded) (i : Int) (p : Nat) (x : Int) (hp : p < 64)
    (harg : argGet fuel d i cArgTypeUint32 = .ok (p + 1)) (hext : ext4bytes d (p + 1) = .ok x) :
    GetArgUint32 fuel d i = .ok (toUnsigned 32 x, true) := by
  unfold GetArgUint32
  rw [harg]
  simp only [bind, Except.bind]
  rw [if_neg (by unfold cPosErr; omega), hext]
  rfl

theorem GetArgUint64_of (fuel : Nat) (d : Encoded) (i : Int) (p : Nat) (x : Int) (hp : p < 64)
    (harg : argGet fuel d i cArgTypeUint64 = .ok (p + 1)) (hext : ext8bytes d (p + 1) = .ok x) :
    GetArgUint64 fuel d i = .ok (toUnsigned 64 x, true) := by
  unfold GetArgUint64
  rw [harg]
  simp only [bind, Except.bind]
  rw [if_neg (by unfold cPosErr; omega), hext]
  rfl

theorem GetArgFloat32_of (fuel : Nat) (d : Encoded) (i : Int) (p : Nat) (x : Int) (hp : p < 64)
    (harg : argGet fuel d i cArgTypeFloat32 = .ok (p + 1)) (hext : ext4bytes d (p + 1) = .ok x) :
    GetArgFloat32 fuel d i = .ok (toUnsigned 32 x, true) := by
  unfold GetArgFloat32
  rw [harg]
  simp only [bind, Except.bind]
  rw [if_neg (by unfold cPosErr; omega), hext]
  rfl

theorem GetArgFloat64_of (fuel : Nat) (d : Encoded) (i : Int) (p : Nat) (x : Int) (hp : p < 64)
    (harg : argGet fuel d i cArgTypeFloat64 = .ok (p + 1)) (hext : ext8bytes d (p + 1) = .ok x) :
    GetArgFloat64 fuel d i = .ok (toUnsigned 64 x, true) := by
  unfold GetArgFloat64
  rw [harg]
  simp only [bind, Except.bind]
  rw [if_neg (by unfold cPosErr; omega), hext]
  rfl

/-- When `argGet` has found the position after the tag of an argument a fixed-width
writer stored, the matching reader decodes the value that was written. -/
theorem GetArg_of_argGet (op : PutOp) (hfix : op.fixedWidth = true) (fuel : Nat) (d : Encoded)
    (i : Int) (p : Nat) (hp : p < 64) (harg : argGet fuel d i op.tag = .ok (p + 1))
    (hread : ∀ k, k + 1 < argNeedForType op.tag →
      d.rd (p + 1 + k) = .ok (op.pattern / 2 ^ (8 * k) % 256)) :
    GetArg op.ty fuel d i = .ok (op.readBack, true) := by
  obtain ⟨n1, n2, n3, n4, n5, n6, n7, n8, n9, n10, _⟩ := argNeedForType_tags
  cases op <;> simp only [PutOp.tag, PutOp.pattern, PutOp.ty, PutOp.readBack, n1, n2, n3, n4,
    n5, n6, n7, n8, n9, n10] at harg hread ⊢
  case string v => cases hfix
  case int v =>
    have hext := ext4_of_reads d (p + 1) (toUnsigned 32 v) (toUnsigned_lt 32 v) (fun k hk => hread k (by omega))
    have hget := GetArgInt32_of fuel d i p _ hp harg hext
    unfold GetArg GetArgInt
    simp only [hget]
    rfl
  case int8 v =>
    have hext := ext1_of_reads d (p + 1) (toUnsigned 8 v) (toUnsigned_lt 8 v) (fun k hk => hread k (by omega))
    have hget := GetArgInt8_of fuel d i p _ hp harg hext
    unfold GetArg
    simp only [hget]
    rfl
  case int16 v =>
    have hext := ext2_of_reads d (p + 1) (toUnsigned 16 v) (toUnsigned_lt 16 v) (fun k hk => hread k (by omega))
    have hget := GetArgInt16_of fuel d i p _ hp harg hext
    unfold GetArg
    simp only [hget]
    rfl
  case int32 v =>
    have hext := ext4_of_reads d (p + 1) (toUnsigned 32 v) (toUnsigned_lt 32 v) (fun k hk => hread k (by omega))
    have hget := GetArgInt32_of fuel d i p _ hp harg hext
    unfold GetArg
    simp only [hget]
    rfl
  case int64 v =>
    have hext := ext8_of_reads d (p + 1) (toUnsigned 64 v) (toUnsigned_lt 64 v) (fun k hk => hread k (by omega))
    have hget := GetArgInt64_of fuel d i p _ hp harg hext
    unfold GetArg
    simp only [hget]
    rfl
  case uint v =>
    have hext := ext4_of_reads d (p + 1) (v % 2 ^ 32) (Nat.mod_lt _ (by decide)) (fun k hk => hread k (by omega))
    have hget := GetArgUint32_of fuel d i p _ hp harg hext
    rw [toUnsigned_toSigned32, Nat.mod_mod] at hget
    unfold GetArg GetArgUint
    simp only [hget]
    rfl
  case uint8 v =>
    have hext := ext1_of_reads d (p + 1) (v % 2 ^ 8) (Nat.mod_lt _ (by decide)) (fun k hk => hread k (by omega))
    have hget := GetArgUint8_of fuel d i p _ hp harg hext
    rw [toUnsigned_toSigned8, Nat.mod_mod] at hget
    unfold GetArg
    simp only [hget]
    rfl
  case uint16 v =>
    have hext := ext2_of_reads d (p + 1) (v % 2 ^ 16) (Nat.mod_lt _ (by decide)) (fun k hk => hread k (by omega))
    have hget := GetArgUint16_of fuel d i p _ hp harg hext
    rw [toUnsigned_toSigned16, Nat.mod_mod] at hget
    unfold GetArg
    simp only [hget]
    rfl
  case uint32 v =>
    have hext := ext4_of_reads d (p + 1) (v % 2 ^ 32) (Nat.mod_lt _ (by decide)) (fun k hk => hread k (by omega))
    have hget := GetArgUint32_of fuel d i p _ hp harg hext
    rw [toUnsigned_toSigned32, Nat.mod_mod] at hget
    unfold GetArg
    simp only [hget]
    rfl
  case uint64 v =>
    have hext := ext8_of_reads d (p + 1) (v % 2 ^ 64) (Nat.mod_lt _ (by decide)) (fun k hk => hread k (by omega))
    have hget := GetArgUint64_of fuel d i p _ hp harg hext
    rw [toUnsigned_toSigned64, Nat.mod_mod] at hget
    unfold GetArg
    simp only [hget]
    rfl
  case float32 v =>
    have hext := ext4_of_reads d (p + 1) (v % 2 ^ 32) (Nat.mod_lt _ (by decide)) (fun k hk => hread k (by omega))
    have hget := GetArgFloat32_of fuel d i p _ hp harg hext
    rw [toUnsigned_toSigned32, Nat.mod_mod] at hget
    unfold GetArg
    simp only [hget]
    rfl
  case float64 v =>
    have hext := ext8_of_reads d (p + 1) (v % 2 ^ 64) (Nat.mod_lt _ (by decide)) (fun k hk => hread k (by omega))
    have hget := GetArgFloat64_of fuel d i p _ hp harg hext
    rw [toUnsigned_toSigned64, Nat.mod_mod] at hget
    unfold GetArg
    simp only [hget]
    rfl

/-- The payload bytes in the buffer a fixed-width writer returns. -/
theorem PutArg_fixed_payload (d : Encoded) (op : PutOp) (hfix : op.fixedWidth = true)
    (hlo : 10 ≤ freeOffset d) (hfit : freeOffset d + argNeedForType op.tag ≤ 63) :
    ∃ d', PutArg d op = .ok (d', ArgCount d)
      ∧ ∀ k, k + 1 < argNeedForType op.tag →
          d'.rd (freeOffset d + 1 + k) = .ok (op.pattern / 2 ^ (8 * k) % 256) := by
  have hw := argNeedForType_fixed op hfix
  obtain ⟨d2, h1, _⟩ := PutArg_fixed_ok d op hfix hlo hfit
  refine ⟨d2, h1, ?_⟩
  obtain ⟨d1, hd1, hread⟩ := payload_read op hfix
    ((d.set ⟨freeOffset d, by omega⟩ op.tag).set cPosArgsFree
      (freeOffset d + argNeedForType op.tag)) (freeOffset d + 1) (by omega)
  have h5 := putFixed_ok d d1 op.tag op.payload (by omega) hfit hd1
  rw [PutArg_eq_putFixed d op hfix, h5] at h1
  have hd : (argCountIncPostfix d1).1 = d2 := congrArg Prod.fst (Except.ok.inj h1)
  intro k hk
  rw [← hd]
  unfold argCountIncPostfix
  show Encoded.rd (Encoded.set _ _ _) _ = _
  rw [rd_set_ne _ _ _ _ (by show freeOffset d + 1 + k ≠ 8; omega)]
  exact hread k hk

/-- Writing a fixed-width argument behind a well laid out buffer whose last argument
has another tag, and reading it back with the returned index. -/
theorem put_then_get (d d' : Encoded) (tags : List Nat) (op : PutOp) (idx : Int) (fuel : Nat)
    (hl : Layout d tags) (hfix : op.fixedWidth = true)
    (h : PutArg d op = .ok (d', idx)) (hidx : idx ≠ cBadIndex)
    (hlast : ∀ x ∈ tags.drop (tags.length - 1), x ≠ op.tag) (hfuel : 2 ≤ fuel) :
    idx = (tags.length : Int) ∧ Layout d' (tags ++ [op.tag])
      ∧ GetArg op.ty fuel d' idx = .ok (op.readBack, true) := by
  obtain ⟨hl', hidx', hframe⟩ := Layout_put d d' tags op idx hl h hidx
  refine ⟨hidx', hl', ?_⟩
  obtain ⟨hc, hlo, hhi, hch⟩ := hl
  have hlen := ArgChain_le d tags 10 (freeOffset d) hch
  have hw := argNeedForType_fixed op hfix
  have hfit : freeOffset d + argNeedForType op.tag ≤ 63 := by
    by_contra hcon
    rw [PutArg_fixed_fail d op hfix (by omega) (by omega)] at h
    exact hidx (congrArg Prod.snd (Except.ok.inj h)).symm
  obtain ⟨d2, h1, hread⟩ := PutArg_fixed_payload d op hfix hlo hfit
  rw [h1] at h
  have e1 : d2 = d' := congrArg Prod.fst (Except.ok.inj h)
  subst e1
  -- the old chain is still there
  have hch' : ArgChain d2 10 tags (freeOffset d) :=
    ArgChain_congr d d2 10 (freeOffset d) (by omega)
      (fun j hj1 hj2 => hframe j (by omega) (by omega) hj2) tags 10 (Nat.le_refl _) hch
  -- where argGet starts its search
  have hk : ((idx : Int) - 1).toNat = tags.length - 1 := by rw [hidx']; omega
  obtain ⟨pk, c1, c2, hget⟩ := argGet_eq_search d2 (tags ++ [op.tag]) hl' fuel idx op.tag
    (by rw [hidx']; omega) (by rw [hidx', List.length_append, List.length_singleton]; omega)
  rw [hk] at c1 c2
  rw [List.take_append_of_le_length (by omega)] at c1
  rw [List.drop_append_of_le_length (by omega)] at c2
  have hpre : (tags.drop (tags.length - 1)).length < fuel := by
    rw [List.length_drop]
    omega
  obtain ⟨pm, s1, _, _, s4⟩ := ArgChain_search_found d2 op.tag (freeOffset d2) hl'.2.2.1 []
    (tags.drop (tags.length - 1)) pk fuel c2 hlast hpre
  have hpm : pm = freeOffset d := by
    have := ArgChain_append d2 _ _ pm 10 pk c1 s1
    rw [List.take_append_drop] at this
    exact ArgChain_unique d2 tags 10 pm (freeOffset d) this hch'
  rw [hpm] at s4
  exact GetArg_of_argGet op hfix fuel d2 idx (freeOffset d) (by omega) (hget.trans s4) hread

theorem mem_drop_last {α : Type} (l : List α) :
    ∀ x, x ∈ l.drop (l.length - 1) → l.getLast? = some x := by
  induction l with
  | nil => intro x hx; simp at hx
  | cons a l ih =>
    intro x hx
    cases l with
    | nil =>
      simp at hx
      simp [hx]
    | cons b l =>
      have e : (a :: b :: l).length - 1 = (b :: l).length - 1 + 1 := by simp
      rw [e, List.drop_succ_cons] at hx
      rw [List.getLast?_cons_cons]
      exact ih x hx

theorem readBack_eq_value (op : PutOp) (hs : op.sized = true) (hv : op.valid) :
    op.readBack = op.value := by
  cases op <;> first | (cases hs; done) | skip
  case int8 v => show ArgVal.int (toIntW 8 v) = ArgVal.int v; rw [toIntW8_of_range v hv]
  case int16 v => show ArgVal.int (toIntW 16 v) = ArgVal.int v; rw [toIntW16_of_range v hv]
  case int32 v => show ArgVal.int (toIntW 32 v) = ArgVal.int v; rw [toIntW32_of_range v hv]
  case int64 v => show ArgVal.int (toIntW 64 v) = ArgVal.int v; rw [toIntW64_of_range v hv]
  case uint8 v =>
    show ArgVal.uint (v % 2 ^ 8) = ArgVal.uint v
    rw [Nat.mod_eq_of_lt (by have : v < 256 := hv; omega)]
  case uint16 v =>
    show ArgVal.uint (v % 2 ^ 16) = ArgVal.uint v
    rw [Nat.mod_eq_of_lt (by have : v < 65536 := hv; omega)]
  case uint32 v =>
    show ArgVal.uint (v % 2 ^ 32) = ArgVal.uint v
    rw [Nat.mod_eq_of_lt (by have : v < 4294967296 := hv; omega)]
  case uint64 v =>
    show ArgVal.uint (v % 2 ^ 64) = ArgVal.uint v
    rw [Nat.mod_eq_of_lt (by have : v < 18446744073709551616 := hv; omega)]
  case float32 v =>
    show ArgVal.float (v % 2 ^ 32) = ArgVal.float v
    rw [Nat.mod_eq_of_lt (by have : v < 4294967296 := hv; omega)]
  case float64 v =>
    show ArgVal.float (v % 2 ^ 64) = ArgVal.float v
    rw [Nat.mod_eq_of_lt (by have : v < 18446744073709551616 := hv; omega)]

theorem sized_fixedWidth (op : PutOp) (hs : op.sized = true) : op.fixedWidth = true := by
  cases op <;> first | rfl | cases hs

/-- C27: conditional round trip.  Let a buffer be produced from the all-zero buffer by
init and the PutArg calls `ops`, all of which returned an index other than -1, so that
ArgCount() = n is the number of those calls.  For every writer PutArg<T> of a type of
declared width (the eight integer types, and float32 and float64) and every value v of
T: if the buffer is empty or its last written argument does not carry the tag of T, and
PutArg<T>(v) returns an index other than -1, then that index is n and GetArg<T>(n) on
the resulting buffer returns (v, true). -/
theorem C27_conditional_round_trip (ops : List PutOp) (d d' : Encoded) (idxs : List Int)
    (op : PutOp) (idx : Int) (fuel : Nat)
    (hrun : runPuts (init Encoded.zero) ops = .ok (d, idxs))
    (hall : ∀ i ∈ idxs, i ≠ cBadIndex)
    (hs : op.sized = true) (hv : op.valid)
    (hlast : ∀ l, ops.getLast? = some l → l.tag ≠ op.tag)
    (hput : PutArg d op = .ok (d', idx)) (hidx : idx ≠ cBadIndex) :
    ArgCount d = (ops.length : Int) ∧ idx = (ops.length : Int)
      ∧ GetArg op.ty (fuel + 2) d' idx = .ok (op.value, true) := by
  have hl := Layout_runPuts ops (init Encoded.zero) d [] idxs (Layout_init Encoded.zero rfl)
    hrun hall
  rw [List.nil_append] at hl
  have hlast' : ∀ x ∈ (ops.map PutOp.tag).drop ((ops.map PutOp.tag).length - 1),
      x ≠ op.tag := by
    intro x hx
    rw [List.length_map, ← List.map_drop] at hx
    obtain ⟨l, hl1, hl2⟩ := List.mem_map.mp hx
    rw [← hl2]
    exact hlast l (mem_drop_last ops l hl1)
  obtain ⟨h1, _, h3⟩ := put_then_get d d' (ops.map PutOp.tag) op idx (fuel + 2) hl
    (sized_fixedWidth op hs) hput hidx hlast' (by omega)
  rw [List.length_map] at h1
  refine ⟨?_, h1, ?_⟩
  · unfold ArgCount
    rw [hl.1, List.length_map]
  · rw [h3, readBack_eq_value op hs hv]

theorem C27_conditional_round_trip_witness :
    runPuts (init Encoded.zero) [.int32 1, .int16 2]
      = .ok (bufOf (runPuts (init Encoded.zero) [.int32 1, .int16 2]), [0, 1])
    ∧ (∀ i ∈ ([0, 1] : List Int), i ≠ cBadIndex)
    ∧ (PutOp.int32 (-100)).sized = true ∧ (PutOp.int32 (-100)).valid
    ∧ (∀ l, ([.int32 1, .int16 2] : List PutOp).getLast? = some l →
        l.tag ≠ (PutOp.int32 (-100)).tag)
    ∧ PutArg (bufOf (runPuts (init Encoded.zero) [.int32 1, .int16 2])) (.int32 (-100))
      = .ok (bufOf (PutArg (bufOf (runPuts (init Encoded.zero) [.int32 1, .int16 2]))
          (.int32 (-100))), 2)
    ∧ (2 : Int) ≠ cBadIndex
    ∧ (ArgCount (bufOf (runPuts (init Encoded.zero) [.int32 1, .int16 2]))
        = (([.int32 1, .int16 2] : List PutOp).length : Int)
      ∧ (2 : Int) = (([.int32 1, .int16 2] : List PutOp).length : Int)
      ∧ GetArg (PutOp.int32 (-100)).ty (0 + 2)
          (bufOf (PutArg (bufOf (runPuts (init Encoded.zero) [.int32 1, .int16 2]))
            (.int32 (-100)))) 2
        = .ok ((PutOp.int32 (-100)).value, true)) :=
  ⟨by rfl, by decide, rfl, by decide, by decide, by rfl, by decide,
    C27_conditional_round_trip [.int32 1, .int16 2] _ _ [0, 1] (.int32 (-100)) 2 0 (by rfl)
      (by decide) rfl (by decide) (by decide) (by rfl) (by decide)⟩

/-- A fixed-width write on the freshly initialised all-zero buffer: index 0, the payload
little-endian from offset 11, and the matching reader at index 0 finds it. -/
theorem fresh_put_get (op : PutOp) (hfix : op.fixedWidth = true) (fuel : Nat) :
    ∃ d', PutArg (init Encoded.zero) op = .ok (d', 0)
      ∧ (∀ k, k + 1 < argNeedForType op.tag →
          d'.rd (11 + k) = .ok (op.pattern / 2 ^ (8 * k) % 256))
      ∧ GetArg op.ty (fuel + 2) d' 0 = .ok (op.readBack, true) := by
  have hf : freeOffset (init Encoded.zero) = 10 := freeOffset_init Encoded.zero
  have hneed : argNeedForType op.tag ≤ 9 := by
    cases op <;> first | (simp only [PutOp.tag]; decide) | cases hfix
  obtain ⟨d', hput, hbytes⟩ := PutArg_fixed_payload (init Encoded.zero) op hfix
    (by rw [hf]) (by rw [hf]; omega)
  have hc : ArgCount (init Encoded.zero) = 0 := by rfl
  rw [hc] at hput
  refine ⟨d', hput, ?_, ?_⟩
  · intro k hk
    have := hbytes k hk
    rw [hf] at this
    exact this
  · exact (put_then_get (init Encoded.zero) d' [] op 0 (fuel + 2)
      (Layout_init Encoded.zero rfl) hfix hput (by decide)
      (by intro x hx; simp at hx) (by omega)).2.2

theorem map_ok_inv {α β : Type} (f : α → β) (r : Except Fault α) (y : β)
    (h : r.map f = .ok y) : ∃ x, r = .ok x ∧ f x = y := by
  cases r with
  | error e => cases h
  | ok x =>
    refine ⟨x, rfl, ?_⟩
    have h2 : Except.ok (f x) = (Except.ok y : Except Fault β) := h
    injection h2

/-- C21: floats are carried bit-exactly.  A float is represented by its bit pattern.  For
every 32-bit pattern p, PutArgFloat32 on the freshly initialised all-zero buffer returns
index 0 and stores p little-endian in bytes 11..14, and GetArgFloat32(0) on the result
returns (p, true); for every 64-bit pattern q the same holds with PutArgFloat64,
GetArgFloat64 and bytes 11..18. -/
theorem C21_float_bit_exact (p q : Nat) (fuel : Nat) (hp : p < 2 ^ 32) (hq : q < 2 ^ 64) :
    (∃ d', PutArgFloat32 (init Encoded.zero) p = .ok (d', 0)
      ∧ (∀ k, k < 4 → d'.rd (11 + k) = .ok (p / 2 ^ (8 * k) % 256))
      ∧ GetArgFloat32 (fuel + 2) d' 0 = .ok (p, true))
    ∧ (∃ d', PutArgFloat64 (init Encoded.zero) q = .ok (d', 0)
      ∧ (∀ k, k < 8 → d'.rd (11 + k) = .ok (q / 2 ^ (8 * k) % 256))
      ∧ GetArgFloat64 (fuel + 2) d' 0 = .ok (q, true)) := by
  constructor
  · obtain ⟨d', h1, h2, h3⟩ := fresh_put_get (.float32 p) rfl fuel
    refine ⟨d', h1, ?_, ?_⟩
    · intro k hk
      have := h2 k (by show k + 1 < 5; omega)
      have e : (PutOp.float32 p).pattern = p := Nat.mod_eq_of_lt hp
      rw [e] at this
      exact this
    · obtain ⟨r, hr, hfr⟩ := map_ok_inv _ _ _ h3
      have e : (PutOp.float32 p).readBack = ArgVal.float p := by
        show ArgVal.float (p % 2 ^ 32) = ArgVal.float p
        rw [Nat.mod_eq_of_lt hp]
      rw [e] at hfr
      obtain ⟨r1, r2⟩ := r
      simp only [Prod.mk.injEq, ArgVal.float.injEq] at hfr
      rw [hr, hfr.1, hfr.2]
  · obtain ⟨d', h1, h2, h3⟩ := fresh_put_get (.float64 q) rfl fuel
    refine ⟨d', h1, ?_, ?_⟩
    · intro k hk
      have := h2 k (by show k + 1 < 9; omega)
      have e : (PutOp.float64 q).pattern = q := Nat.mod_eq_of_lt hq
      rw [e] at this
      exact this
    · obtain ⟨r, hr, hfr⟩ := map_ok_inv _ _ _ h3
      have e : (PutOp.float64 q).readBack = ArgVal.float q := by
        show ArgVal.float (q % 2 ^ 64) = ArgVal.float q
        rw [Nat.mod_eq_of_lt hq]
      rw [e] at hfr
      obtain ⟨r1, r2⟩ := r
      simp only [Prod.mk.injEq, ArgVal.float.injEq] at hfr
      rw [hr, hfr.1, hfr.2]

theorem C21_float_bit_exact_witness :
    (2143289345 : Nat) < 2 ^ 32 ∧ (9223372036854775808 : Nat) < 2 ^ 64
    ∧ ((∃ d', PutArgFloat32 (init Encoded.zero) 2143289345 = .ok (d', 0)
        ∧ (∀ k, k < 4 → d'.rd (11 + k) = .ok (2143289345 / 2 ^ (8 * k) % 256))
        ∧ GetArgFloat32 (0 + 2) d' 0 = .ok (2143289345, true))
      ∧ (∃ d', PutArgFloat64 (init Encoded.zero) 9223372036854775808 = .ok (d', 0)
        ∧ (∀ k, k < 8 → d'.rd (11 + k) = .ok (9223372036854775808 / 2 ^ (8 * k) % 256))
        ∧ GetArgFloat64 (0 + 2) d' 0 = .ok (9223372036854775808, true))) :=
  ⟨by decide, by decide,
    C21_float_bit_exact 2143289345 9223372036854775808 0 (by decide) (by decide)⟩

/-- The sign extension of the low 32 bits of an integer is the integer itself exactly on
the range of `int32`. -/
theorem toIntW32_eq_iff (v : Int) :
    toIntW 32 v = v ↔ (-2147483648 ≤ v ∧ v < 2147483648) := by
  constructor
  · intro h
    rw [← h]
    unfold toIntW toSigned toUnsigned
    norm_num
    split <;> omega
  · exact toIntW32_of_range v

/-- C22: the platform-width wrappers narrow to 32 bits.  For every integer v (in
particular every 64-bit int), PutArgInt(v) is PutArgInt32 of the low 32 bits of v read
as an int32; on the freshly initialised all-zero buffer it returns index 0 and
GetArgInt(0) then returns (v', true), where v' is the sign extension of the low 32 bits
of v, and v' = v if and only if -2^31 <= v < 2^31.  Likewise PutArgUint(u) returns index
0 and GetArgUint(0) then returns (u mod 2^32, true). -/
theorem C22_platform_width_narrowing (v : Int) (u : Nat) (fuel : Nat) :
    (∀ d, PutArgInt d v = PutArgInt32 d (toSigned 32 (toUnsigned 32 v)))
    ∧ (∃ d', PutArgInt (init Encoded.zero) v = .ok (d', 0)
      ∧ PutArgInt32 (init Encoded.zero) (toSigned 32 (toUnsigned 32 v)) = .ok (d', 0)
      ∧ GetArgInt (fuel + 2) d' 0 = .ok (toSigned 32 (toUnsigned 32 v), true))
    ∧ (toSigned 32 (toUnsigned 32 v) = v ↔ (-2147483648 ≤ v ∧ v < 2147483648))
    ∧ (∃ d', PutArgUint (init Encoded.zero) u = .ok (d', 0)
      ∧ PutArgUint32 (init Encoded.zero) (u % 2 ^ 32) = .ok (d', 0)
      ∧ GetArgUint (fuel + 2) d' 0 = .ok (u % 2 ^ 32, true)) := by
  refine ⟨fun d => rfl, ?_, toIntW32_eq_iff v, ?_⟩
  · obtain ⟨d', h1, _, h3⟩ := fresh_put_get (.int v) rfl fuel
    refine ⟨d', h1, h1, ?_⟩
    obtain ⟨r, hr, hfr⟩ := map_ok_inv _ _ _ h3
    have e : (PutOp.int v).readBack = ArgVal.int (toSigned 32 (toUnsigned 32 v)) := rfl
    rw [e] at hfr
    obtain ⟨r1, r2⟩ := r
    simp only [Prod.mk.injEq, ArgVal.int.injEq] at hfr
    rw [hr, hfr.1, hfr.2]
  · obtain ⟨d', h1, _, h3⟩ := fresh_put_get (.uint u) rfl fuel
    refine ⟨d', h1, h1, ?_⟩
    obtain ⟨r, hr, hfr⟩ := map_ok_inv _ _ _ h3
    have e : (PutOp.uint u).readBack = ArgVal.uint (u % 2 ^ 32) := rfl
    rw [e] at hfr
    obtain ⟨r1, r2⟩ := r
    simp only [Prod.mk.injEq, ArgVal.uint.injEq] at hfr
    rw [hr, hfr.1, hfr.2]

/-- The layout only depends on the bytes from offset 8 on. -/
theorem Layout_congr (d d' : Encoded) (tags : List Nat)
    (h : ∀ j : Fin 64, 8 ≤ j.val → d' j = d j) (hl : Layout d tags) : Layout d' tags := by
  obtain ⟨hc, hlo, hhi, hch⟩ := hl
  have h8 : d'.byteAt cPosArgsCount = d.byteAt cPosArgsCount := by
    unfold Encoded.byteAt
    rw [h cPosArgsCount (by decide)]
  have h9 : freeOffset d' = freeOffset d := by
    unfold freeOffset Encoded.byteAt
    rw [h cPosArgsFree (by decide)]
  refine ⟨by rw [h8, hc], by rw [h9]; exact hlo, by rw [h9]; exact hhi, ?_⟩
  rw [h9]
  exact ArgChain_congr d d' 10 (freeOffset d) (by omega)
    (fun j hj _ => h j (by omega)) tags 10 (le_refl 10) hch

/-- Every call of a run that returns keeps the layout invariant. -/
theorem Layout_runCalls (calls : List Call) :
    ∀ (d d' : Encoded) (tags : List Nat), Layout d tags → runCalls d calls = .ok d' →
      ∃ tags', Layout d' tags' := by
  induction calls with
  | nil =>
    intro d d' tags hl h
    unfold runCalls at h
    have e1 : d = d' := Except.ok.inj h
    subst e1
    exact ⟨tags, hl⟩
  | cons c cs ih =>
    intro d d' tags hl h
    cases c with
    | viewID id =>
      unfold runCalls at h
      obtain ⟨d1, h1, hfr⟩ := put4bytes_frame d cPosViewID (toIntW 32 id) (by decide)
      have h1' : PutViewID d id = .ok d1 := h1
      rw [h1'] at h
      exact ih d1 d' tags
        (Layout_congr d d1 tags (fun j hj => hfr j (Or.inr (by
          have : cPosViewID = 0 := rfl
          omega))) hl) h
    | sessionID ssid =>
      unfold runCalls at h
      obtain ⟨d1, h1, hfr⟩ := put4bytes_frame d cPosSessionID (toIntW 32 ssid) (by decide)
      have h1' : PutSessionID d ssid = .ok d1 := h1
      rw [h1'] at h
      exact ih d1 d' tags
        (Layout_congr d d1 tags (fun j hj => hfr j (Or.inr (by
          have : cPosSessionID = 4 := rfl
          omega))) hl) h
    | arg op =>
      unfold runCalls at h
      cases h1 : PutArg d op with
      | error e => rw [h1] at h; cases h
      | ok r1 =>
        obtain ⟨d1, idx⟩ := r1
        rw [h1] at h
        by_cases hidx : idx = cBadIndex
        · rcases PutArg_ok_inv d d1 op idx hl.2.1 hl.2.2.1 h1 with ⟨_, he⟩ | ⟨he, _⟩
          · subst he
            exact ih d1 d' tags hl h
          · exact absurd (he ▸ hidx) (ArgCount_ne_bad d)
        · exact ih d1 d' (tags ++ [op.tag]) (Layout_put d d1 tags op idx hl h1 hidx).1 h

/-- One more iteration of the skip loop applies the scanner once more. -/
theorem argGetSkip_succ (d : Encoded) :
    ∀ (k p pk q : Nat), argGetSkip d k p = .ok pk → argNextFromPos d pk = .ok q →
      argGetSkip d (k + 1) p = .ok q := by
  intro k
  induction k with
  | zero =>
    intro p pk q h hn
    unfold argGetSkip at h
    have e : p = pk := Except.ok.inj h
    subst e
    unfold argGetSkip
    rw [hn]
    rfl
  | succ k ih =>
    intro p pk q h hn
    unfold argGetSkip at h
    cases h1 : argNextFromPos d p with
    | error e => rw [h1] at h; cases h
    | ok p1 =>
      rw [h1] at h
      have h2 : argGetSkip d k p1 = .ok pk := h
      have := ih p1 pk q h2 hn
      rw [argGetSkip, h1]
      exact this

/-- What the layout invariant says about the walk of the scanner. -/
theorem Layout_walk (d : Encoded) (tags : List Nat) (hl : Layout d tags) :
    argGetSkip d (ArgCount d).toNat 10 = .ok (freeOffset d)
    ∧ ∀ k, k < (ArgCount d).toNat →
        ∃ p t p', argGetSkip d k 10 = .ok p ∧ p < freeOffset d
          ∧ d.rd p = .ok t ∧ 10 ≤ t ∧ t ≤ 20
          ∧ argNextFromPos d p = .ok p' ∧ p' ≠ cPosErr ∧ p < p' ∧ p' ≤ freeOffset d
          ∧ argGetSkip d (k + 1) 10 = .ok p' := by
  obtain ⟨hc, hlo, hhi, hch⟩ := hl
  have hn : (ArgCount d).toNat = tags.length := by
    unfold ArgCount
    rw [hc]
    simp
  rw [hn]
  constructor
  · obtain ⟨pk, h1, _, h3⟩ := ArgChain_skip d (freeOffset d) tags tags.length 10 (le_refl _) hch
    rw [List.drop_length] at h3
    have e : pk = freeOffset d := h3
    rw [h1, e]
  · intro k hk
    obtain ⟨pk, h1, _, h3⟩ := ArgChain_skip d (freeOffset d) tags k 10 (by omega) hch
    have hdrop : tags.drop k = tags[k] :: tags.drop (k + 1) := List.drop_eq_getElem_cons hk
    rw [hdrop] at h3
    obtain ⟨hrd, p', hnx, hstep, hrest⟩ := h3
    have hle := ArgChain_le d (tags.drop (k + 1)) p' (freeOffset d) hrest
    have hne : p' ≠ cPosErr := by
      have : cPosErr = 255 := rfl
      omega
    obtain ⟨ht1, ht2⟩ := argNext_known_tag d pk tags[k] p' hrd hnx hne
    have hsk : argGetSkip d (k + 1) 10 = .ok p' := argGetSkip_succ d k 10 pk p' h1 hnx
    exact ⟨pk, tags[k], p', h1, by omega, hrd, ht1, ht2, hnx, hne, by omega, by omega, hsk⟩

/-- C28: well-formedness invariant.  For every buffer produced from the all-zero buffer by
init followed by any sequence of PutViewID, PutSessionID and PutArg calls that all return
(with an index or with -1), the free offset is between 10 and 63; starting at offset 10,
ArgCount() applications of argNextFromPos end exactly at the free offset; and for every
k < ArgCount() the offset reached after k applications is below the free offset and holds
one of the eleven tags 10..20, and the next application returns an offset that is not the
error sentinel, lies further on, and is at most the free offset. -/
theorem C28_well_formed (calls : List Call) (d : Encoded)
    (h : runCalls (init Encoded.zero) calls = .ok d) :
    10 ≤ freeOffset d ∧ freeOffset d ≤ 63
    ∧ argGetSkip d (ArgCount d).toNat 10 = .ok (freeOffset d)
    ∧ ∀ k, k < (ArgCount d).toNat →
        ∃ p t p', argGetSkip d k 10 = .ok p ∧ p < freeOffset d
          ∧ d.rd p = .ok t ∧ 10 ≤ t ∧ t ≤ 20
          ∧ argNextFromPos d p = .ok p' ∧ p' ≠ cPosErr ∧ p < p' ∧ p' ≤ freeOffset d
          ∧ argGetSkip d (k + 1) 10 = .ok p' := by
  obtain ⟨tags, hl⟩ := Layout_runCalls calls (init Encoded.zero) d []
    (Layout_init Encoded.zero rfl) h
  exact ⟨hl.2.1, hl.2.2.1, Layout_walk d tags hl⟩

set_option maxRecDepth 100000 in
theorem C28_well_formed_witness :
    runCalls (init Encoded.zero)
        [.viewID 7, .arg (.int16 (-2)), .sessionID (-1), .arg (.string [104, 105]),
          .arg (.uint64 9)]
      = .ok (endOf (runCalls (init Encoded.zero)
        [.viewID 7, .arg (.int16 (-2)), .sessionID (-1), .arg (.string [104, 105]),
          .arg (.uint64 9)]))
    ∧ (10 ≤ freeOffset (endOf (runCalls (init Encoded.zero)
        [.viewID 7, .arg (.int16 (-2)), .sessionID (-1), .arg (.string [104, 105]),
          .arg (.uint64 9)])) ∧ freeOffset (endOf (runCalls (init Encoded.zero)
        [.viewID 7, .arg (.int16 (-2)), .sessionID (-1), .arg (.string [104, 105]),
          .arg (.uint64 9)])) ≤ 63
      ∧ argGetSkip (endOf (runCalls (init Encoded.zero)
        [.viewID 7, .arg (.int16 (-2)), .sessionID (-1), .arg (.string [104, 105]),
          .arg (.uint64 9)])) (ArgCount (endOf (runCalls (init Encoded.zero)
        [.viewID 7, .arg (.int16 (-2)), .sessionID (-1), .arg (.string [104, 105]),
          .arg (.uint64 9)]))).toNat 10 = .ok (freeOffset (endOf (runCalls (init Encoded.zero)
        [.viewID 7, .arg (.int16 (-2)), .sessionID (-1), .arg (.string [104, 105]),
          .arg (.uint64 9)])))
      ∧ ∀ k, k < (ArgCount (endOf (runCalls (init Encoded.zero)
        [.viewID 7, .arg (.int16 (-2)), .sessionID (-1), .arg (.string [104, 105]),
          .arg (.uint64 9)]))).toNat →
          ∃ p t p', argGetSkip (endOf (runCalls (init Encoded.zero)
        [.viewID 7, .arg (.int16 (-2)), .sessionID (-1), .arg (.string [104, 105]),
          .arg (.uint64 9)])) k 10 = .ok p ∧ p < freeOffset (endOf (runCalls (init Encoded.zero)
        [.viewID 7, .arg (.int16 (-2)), .sessionID (-1), .arg (.string [104, 105]),
          .arg (.uint64 9)]))
            ∧ Encoded.rd (endOf (runCalls (init Encoded.zero)
        [.viewID 7, .arg (.int16 (-2)), .sessionID (-1), .arg (.string [104, 105]),
          .arg (.uint64 9)])) p = .ok t ∧ 10 ≤ t ∧ t ≤ 20
            ∧ argNextFromPos (endOf (runCalls (init Encoded.zero)
        [.viewID 7, .arg (.int16 (-2)), .sessionID (-1), .arg (.string [104, 105]),
          .arg (.uint64 9)])) p = .ok p' ∧ p' ≠ cPosErr ∧ p < p' ∧ p' ≤ freeOffset (endOf (runCalls (init Encoded.zero)
        [.viewID 7, .arg (.int16 (-2)), .sessionID (-1), .arg (.string [104, 105]),
          .arg (.uint64 9)]))
            ∧ argGetSkip (endOf (runCalls (init Encoded.zero)
        [.viewID 7, .arg (.int16 (-2)), .sessionID (-1), .arg (.string [104, 105]),
          .arg (.uint64 9)])) (k + 1) 10 = .ok p') :=
  ⟨by rfl, C28_well_formed
      [.viewID 7, .arg (.int16 (-2)), .sessionID (-1), .arg (.string [104, 105]),
          .arg (.uint64 9)] _ (by rfl)⟩

/-- C25 fails on the code: on the buffer that is zero except for ArgCount = 1, free offset
12, a string tag at offset 10 and the length byte 254 at offset 11, argNextFromPos(10)
returns 10 again (neither the error sentinel nor a greater position), and the search loop
of argGet never ends: for every reader of a type other than string and every bound on the
number of iterations, GetArg<T>(0) is still running when the bound is reached. -/
theorem C25_search_loop_unbounded :
    ArgCount stuckBuffer = 1
    ∧ freeOffset stuckBuffer = 12
    ∧ stuckBuffer.rd 10 = .ok cArgTypeString
    ∧ stuckBuffer.rd 11 = .ok 254
    ∧ argNextFromPos stuckBuffer 10 = .ok 10
    ∧ (∀ (ty : ArgTy) (fuel : Nat), ty ≠ .string →
        GetArg ty fuel stuckBuffer 0 = .error .outOfFuel) := by
  refine ⟨by rfl, by rfl, by rfl, by rfl, by rfl, ?_⟩
  intro ty fuel hty
  induction fuel with
  | zero => cases ty <;> rfl
  | succ n ih =>
    have step : GetArg ty (n + 1) stuckBuffer 0 = GetArg ty n stuckBuffer 0 := by
      cases ty <;> first | rfl | exact absurd rfl hty
    rw [step, ih]

/-- C26 fails on the code: on the buffer produced by init, PutArgInt16(5), PutArgInt8(3),
where ArgCount() = 2, GetArgInt8 with the negative index -2^63 panics with an index out of
range instead of returning (3, true): `argIdx--` wraps to 2^63 - 1 and the skip loop runs
past the stored arguments.  With the indices -1, 0 and 1 the reader returns (3, true). -/
theorem C26_least_index_panics :
    (runPuts (init Encoded.zero) [.int16 5, .int8 3]).map Prod.snd = .ok [0, 1]
    ∧ ArgCount (bufOf (runPuts (init Encoded.zero) [.int16 5, .int8 3])) = 2
    ∧ (∀ fuel, GetArg .int8 fuel (bufOf (runPuts (init Encoded.zero) [.int16 5, .int8 3]))
        (-9223372036854775808) = .error .indexOutOfRange)
    ∧ (∀ fuel, GetArg .int8 (fuel + 2) (bufOf (runPuts (init Encoded.zero) [.int16 5, .int8 3]))
        (-1) = .ok (.int 3, true))
    ∧ (∀ fuel, GetArg .int8 (fuel + 2) (bufOf (runPuts (init Encoded.zero) [.int16 5, .int8 3]))
        0 = .ok (.int 3, true))
    ∧ (∀ fuel, GetArg .int8 (fuel + 2) (bufOf (runPuts (init Encoded.zero) [.int16 5, .int8 3]))
        1 = .ok (.int 3, true)) := by
  refine ⟨by rfl, by rfl, fun fuel => by rfl, fun fuel => by rfl, fun fuel => by rfl,
    fun fuel => by rfl⟩

/-- C30 fails on the code: on the freshly initialised all-zero buffer, and on the buffer
produced from it by PutArgFloat32 and PutArgUint64, GetArgUint64 with the index -2^63
reads offset 255 and panics with an index out of range instead of returning a (value,
success) pair: `argIdx--` wraps to 2^63 - 1 and the skip loop leaves the argument region.
With index -1 the same calls return (0, false) and (2, true). -/
theorem C30_reader_leaves_buffer :
    (∀ fuel, GetArg .uint64 fuel (init Encoded.zero) (-9223372036854775808)
        = .error .indexOutOfRange)
    ∧ argGetSkip (init Encoded.zero) 1 10 = .ok cPosErr
    ∧ argGetSkip (init Encoded.zero) 2 10 = .error .indexOutOfRange
    ∧ (∀ fuel, GetArg .uint64 (fuel + 1) (init Encoded.zero) (-1) = .ok (.uint 0, false))
    ∧ (runPuts (init Encoded.zero) [.float32 1, .uint64 2]).map Prod.snd = .ok [0, 1]
    ∧ (∀ fuel, GetArg .uint64 fuel (bufOf (runPuts (init Encoded.zero) [.float32 1, .uint64 2]))
        (-9223372036854775808) = .error .indexOutOfRange)
    ∧ (∀ fuel, GetArg .uint64 (fuel + 2)
        (bufOf (runPuts (init Encoded.zero) [.float32 1, .uint64 2])) (-1)
          = .ok (.uint 2, true)) := by
  refine ⟨fun fuel => by rfl, by rfl, by rfl, fun fuel => by rfl, by rfl, fun fuel => by rfl,
    fun fuel => by rfl⟩

/-- The width `argNeedForType` computes for the tag of a fixed-width writer is the width
the size table states for that writer. -/
theorem argNeedForType_specWidth (op : PutOp) (hfix : op.fixedWidth = true) :
    argNeedForType op.tag = op.specWidth := by
  cases op <;> first | (cases hfix; done) | rfl

/-- The stored value of a fixed-width writer fits the payload bytes of the stated width. -/
theorem pattern_lt_specWidth (op : PutOp) (hfix : op.fixedWidth = true) :
    op.pattern < 2 ^ (8 * (op.specWidth - 1)) := by
  cases op <;> first | (cases hfix; done) | skip
  case int v => exact toUnsigned_lt 32 v
  case int8 v => exact toUnsigned_lt 8 v
  case int16 v => exact toUnsigned_lt 16 v
  case int32 v => exact toUnsigned_lt 32 v
  case int64 v => exact toUnsigned_lt 64 v
  case uint v => exact Nat.mod_lt v (by decide)
  case uint8 v => exact Nat.mod_lt v (by decide)
  case uint16 v => exact Nat.mod_lt v (by decide)
  case uint32 v => exact Nat.mod_lt v (by decide)
  case uint64 v => exact Nat.mod_lt v (by decide)
  case float32 v => exact Nat.mod_lt v (by decide)
  case float64 v => exact Nat.mod_lt v (by decide)

/-- C19: size accounting of fixed-width arguments.  The total width w of a fixed-width
writer is given by the table `specWidth`: 2 for int8/uint8, 3 for int16/uint16, 5 for
int32/uint32/float32, 9 for int64/uint64/float64.  `argNeedForType` returns exactly this
width for the tag of each of these types (2 for tags 10 and 14, 3 for tags 11 and 15, 5
for tags 12, 16 and 18, 9 for tags 13, 17 and 19).  On a buffer whose free offset f is
between 10 and 63, when PutArg<T>(v) returns an index other than -1, byte f holds the tag
of T, the value fits w - 1 bytes and bytes f+1..f+w-1 hold its little-endian payload, and
the free offset is exactly f + w.  For every tag that is not a fixed-width tag
argNeedForType returns 63 and argReserveForType returns the error position, leaving the
buffer as it was. -/
theorem C19_size_accounting (d d' : Encoded) (op : PutOp) (idx : Int)
    (hfix : op.fixedWidth = true) (hlo : 10 ≤ freeOffset d) (hhi : freeOffset d ≤ 63)
    (h : PutArg d op = .ok (d', idx)) (hidx : idx ≠ cBadIndex) :
    (argNeedForType 10 = 2 ∧ argNeedForType 14 = 2 ∧ argNeedForType 11 = 3
      ∧ argNeedForType 15 = 3 ∧ argNeedForType 12 = 5 ∧ argNeedForType 16 = 5
      ∧ argNeedForType 18 = 5 ∧ argNeedForType 13 = 9 ∧ argNeedForType 17 = 9
      ∧ argNeedForType 19 = 9)
    ∧ argNeedForType op.tag = op.specWidth
    ∧ op.pattern < 2 ^ (8 * (op.specWidth - 1))
    ∧ d'.rd (freeOffset d) = .ok op.tag
    ∧ (∀ k, k + 1 < op.specWidth →
        d'.rd (freeOffset d + 1 + k) = .ok (op.pattern / 2 ^ (8 * k) % 256))
    ∧ freeOffset d' = freeOffset d + op.specWidth
    ∧ (∀ tag, tag < 10 ∨ 19 < tag →
        argNeedForType tag = 63 ∧ argReserveForType d tag = .ok (d, cPosErr)) := by
  have hw := argNeedForType_specWidth op hfix
  obtain ⟨_, h2, h3, h4, h5⟩ := PutArg_fixed_layout d d' op idx hfix hlo hhi h hidx
  rw [hw] at h3 h4
  exact ⟨⟨rfl, rfl, rfl, rfl, rfl, rfl, rfl, rfl, rfl, rfl⟩, hw, pattern_lt_specWidth op hfix,
    h2, h3, h4, h5⟩

theorem C19_size_accounting_witness :
    (PutOp.int16 4660).fixedWidth = true
    ∧ 10 ≤ freeOffset (init Encoded.zero) ∧ freeOffset (init Encoded.zero) ≤ 63
    ∧ PutArg (init Encoded.zero) (.int16 4660)
        = .ok (bufOf (PutArg (init Encoded.zero) (.int16 4660)), 0)
    ∧ (0 : Int) ≠ cBadIndex
    ∧ (PutOp.int16 4660).specWidth = 3
    ∧ (bufOf (PutArg (init Encoded.zero) (.int16 4660))).rd 11 = .ok 52
    ∧ (bufOf (PutArg (init Encoded.zero) (.int16 4660))).rd 12 = .ok 18
    ∧ ((argNeedForType 10 = 2 ∧ argNeedForType 14 = 2 ∧ argNeedForType 11 = 3
        ∧ argNeedForType 15 = 3 ∧ argNeedForType 12 = 5 ∧ argNeedForType 16 = 5
        ∧ argNeedForType 18 = 5 ∧ argNeedForType 13 = 9 ∧ argNeedForType 17 = 9
        ∧ argNeedForType 19 = 9)
      ∧ argNeedForType (PutOp.int16 4660).tag = (PutOp.int16 4660).specWidth
      ∧ (PutOp.int16 4660).pattern < 2 ^ (8 * ((PutOp.int16 4660).specWidth - 1))
      ∧ (bufOf (PutArg (init Encoded.zero) (.int16 4660))).rd (freeOffset (init Encoded.zero))
          = .ok (PutOp.int16 4660).tag
      ∧ (∀ k, k + 1 < (PutOp.int16 4660).specWidth →
          (bufOf (PutArg (init Encoded.zero) (.int16 4660))).rd
              (freeOffset (init Encoded.zero) + 1 + k)
            = .ok ((PutOp.int16 4660).pattern / 2 ^ (8 * k) % 256))
      ∧ freeOffset (bufOf (PutArg (init Encoded.zero) (.int16 4660)))
          = freeOffset (init Encoded.zero) + (PutOp.int16 4660).specWidth
      ∧ (∀ tag, tag < 10 ∨ 19 < tag →
          argNeedForType tag = 63
          ∧ argReserveForType (init Encoded.zero) tag = .ok (init Encoded.zero, cPosErr))) :=
  ⟨rfl, by decide, by decide, rfl, by decide, rfl, by rfl, by rfl,
    C19_size_accounting (init Encoded.zero) _ (.int16 4660) 0 rfl (by decide) (by decide)
      rfl (by decide)⟩

set_option maxRecDepth 100000 in
/-- C9 fails on the code: on the freshly initialised all-zero buffer (free offset 10,
ArgCount 0 < 255) PutArgString of 244 bytes neither succeeds nor returns -1: the capacity
check passes because the byte sum 10 + 246 wraps to 0, and the call panics with an index
out of range (ArgCount is still 0 in the buffer it leaves behind).  So not every writer
call on such a buffer returns.  A string of 60 bytes, which does not fit either, returns
-1 and leaves the buffer as it was. -/
theorem C9_failing_call_does_not_return :
    (10 ≤ freeOffset (init Encoded.zero) ∧ freeOffset (init Encoded.zero) ≤ 63
      ∧ ArgCount (init Encoded.zero) = 0)
    ∧ argHaveFreeBytes (init Encoded.zero) ((2 + 244) % 256) = true
    ∧ PutArg (init Encoded.zero) (.string (List.replicate 244 97)) = .error .indexOutOfRange
    ∧ ArgCount (PutArgStringSt (init Encoded.zero) (List.replicate 244 97)).1 = 0
    ∧ ¬ (∀ (d : Encoded) (op : PutOp), 10 ≤ freeOffset d → freeOffset d ≤ 63 →
          ArgCount d < 255 → ∃ d' idx, PutArg d op = .ok (d', idx))
    ∧ PutArg (init Encoded.zero) (.string (List.replicate 60 97))
        = .ok (init Encoded.zero, cBadIndex) := by
  have hp : PutArg (init Encoded.zero) (.string (List.replicate 244 97))
      = .error .indexOutOfRange := by rfl
  refine ⟨⟨by decide, by decide, by rfl⟩, by rfl, hp, by rfl, ?_, by rfl⟩
  intro hall
  obtain ⟨d', idx, h⟩ := hall (init Encoded.zero) (.string (List.replicate 244 97))
    (by decide) (by decide) (by decide)
  rw [hp] at h
  cases h

end Ikba
